import Mathlib

/-!
# Boundary-tag heap allocator (`mm_dlink_heap.c`)

A shallow embedding of the allocator and the properties proved about it.

## Memory model

The managed region is an array of `Node` units.  A `Node *` is represented by
the index of the unit it points at, counted from `mem_heap_lo()`; C pointer
arithmetic `bp + k` is index addition.  Indices are natural numbers and are not
reduced modulo the address space: the model follows the source as long as the
addresses the source computes lie in the region, and where `extend_heap`
would compute the end of a block beyond the address space it gives no result.
The contents of one unit is a natural number (its bytes, little endian).  The
three views of the `Node` union are taken from the low 64 bits of the unit:

* `info.is_alloc` is bit 0,
* `info.blk_size` is bits 1..63,
* `p` is the whole 64-bit word, holding a byte address.

Byte addresses (`void *`) are natural numbers; the unit with index `i` lives at
address `lo + i * unit`.  `size_t` arithmetic is taken modulo `2 ^ 64`.
-/

namespace HeapAllocator

/-! ## Platform and provider parameters -/

/-- Parameters of the platform and of the heap memory provider (`memlib`):
`unit` is `sizeof(Node)` (which is `sizeof(max_align_t)`), `lo` the address
returned by `mem_heap_lo()`, `pagesize` the value of `mem_pagesize()`, `limit`
the largest size in bytes the provider lets the region reach, and `sbrkErrno`
what a refused `mem_sbrk` does to `errno`. -/
structure Config where
  unit : Nat
  lo : Nat
  pagesize : Nat
  limit : Nat
  sbrkErrno : Nat → Nat

/-- The allocator state: the contents of every unit (indexed from the region
start; units at or beyond the break hold whatever the provider's memory
holds), the provider's break as a byte count from `lo`, the cursor `freep`
(`none` is `NULL`), and `errno`. -/
structure Heap where
  mem : Nat → Nat
  brk : Nat
  freep : Option Nat
  errno : Nat

def WORD : Nat := 2 ^ 64

def MIN_BLOCK_SIZE : Nat := 4

def ENOMEM : Nat := 12

def EFAULT : Nat := 14

/-- Reduction of a `size_t` value. -/
def wrap (x : Nat) : Nat := x % WORD

/-! ## The `Node` union -/

/-- Field `info.is_alloc` of a unit. -/
def is_alloc (w : Nat) : Nat := w % 2

/-- Field `info.blk_size` of a unit. -/
def blk_size (w : Nat) : Nat := w / 2 % 2 ^ 63

/-- Field `p` of a unit, as a byte address. -/
def get_p (w : Nat) : Nat := w % WORD

/-- Assignment to the one-bit field `info.is_alloc`. -/
def set_is_alloc (w b : Nat) : Nat := w / 2 * 2 + b % 2

/-- Assignment to the 63-bit field `info.blk_size`. -/
def set_blk_size (w v : Nat) : Nat := w / WORD * WORD + v % 2 ^ 63 * 2 + w % 2

/-- Assignment to the field `p`. -/
def set_p (w a : Nat) : Nat := w / WORD * WORD + a % WORD

/-- Byte address of the unit with index `i`. -/
def nodeAddr (C : Config) (i : Nat) : Nat := C.lo + i * C.unit

/-- Index of the unit a `Node *` with byte address `a` points at. -/
def nodeOfAddr (C : Config) (a : Nat) : Nat := (a - C.lo) / C.unit

/-- Read of `(i)->info.is_alloc`. -/
def rdAlloc (m : Nat → Nat) (i : Nat) : Nat := is_alloc (m i)

/-- Read of `(i)->info.blk_size`. -/
def rdSize (m : Nat → Nat) (i : Nat) : Nat := blk_size (m i)

/-- Read of `(i)->p`, as a unit index. -/
def rdP (C : Config) (m : Nat → Nat) (i : Nat) : Nat := nodeOfAddr C (get_p (m i))

/-- Write of `(i)->info.is_alloc = b`. -/
def wrAlloc (m : Nat → Nat) (i b : Nat) : Nat → Nat :=
  fun j => if j = i then set_is_alloc (m i) b else m j

/-- Write of `(i)->info.blk_size = v`. -/
def wrSize (m : Nat → Nat) (i v : Nat) : Nat → Nat :=
  fun j => if j = i then set_blk_size (m i) v else m j

/-- Write of `(i)->p = q` for a `Node *` value `q`. -/
def wrP (C : Config) (m : Nat → Nat) (i q : Nat) : Nat → Nat :=
  fun j => if j = i then set_p (m i) (nodeAddr C q) else m j

/-! ## Block layout helpers -/

/-- Source `bp_to_ap`: `bp + 1` as a byte address. -/
def bp_to_ap (C : Config) (bp : Nat) : Nat := nodeAddr C (bp + 1)

/-- Source `ap_to_bp`: `(Node*)ap - 1`. -/
def ap_to_bp (C : Config) (ap : Nat) : Nat := nodeOfAddr C (ap - C.unit)

/-- Source `header_to_footer`: `bp + bp->info.blk_size - 1`.  The index is
that of the source when the footer lies in the region, as it does for every
block of a well-formed heap. -/
def header_to_footer (m : Nat → Nat) (bp : Nat) : Nat := bp + rdSize m bp - 1

/-- Source `byte_to_unit`: `(nbytes + sizeof(Node) - 1) / sizeof(Node)`. -/
def byte_to_unit (C : Config) (nbytes : Nat) : Nat :=
  wrap (nbytes + C.unit - 1) / C.unit

/-- Source `unit_to_byte`: `nunits * sizeof(Node)`. -/
def unit_to_byte (C : Config) (nunits : Nat) : Nat := wrap (nunits * C.unit)

/-! ## Free list -/

/-- Source `unlink_from_flist`. -/
def unlink_from_flist (C : Config) (m : Nat → Nat) (bp : Nat) : Nat → Nat :=
  let prev := rdP C m (bp + 1)
  let next := rdP C m (bp + 2)
  let m1 := wrP C m (prev + 2) next
  wrP C m1 (next + 1) prev

/-- Source `link_to_flist`, with the cursor `freep` passed explicitly. -/
def link_to_flist (C : Config) (m : Nat → Nat) (freep bp : Nat) : Nat → Nat :=
  let next := rdP C m (freep + 2)
  let m1 := wrP C m (bp + 1) freep
  let m2 := wrP C m1 (bp + 2) next
  let m3 := wrP C m2 (next + 1) bp
  wrP C m3 (freep + 2) bp

/-! ## Heap memory provider -/

/-- Modelled from the spec: `memlib.h` is not part of the sources.
`provider_low()` is the address of the first byte of the region. -/
def mem_heap_lo (C : Config) : Nat := C.lo

/-- Modelled from the spec: `memlib.h` is not part of the sources.
`provider_high()` is the upper bound of the current region, here the address
of its last byte. -/
def mem_heap_hi (C : Config) (s : Heap) : Nat := C.lo + s.brk - 1

/-- Modelled from the spec: `memlib.h` is not part of the sources.
`provider_grow(bytes) -> address | failure` extends the region by `bytes` and
returns the address of the new space (the old break), or fails, when the
region would pass the provider's limit, leaving the region as it is. -/
def mem_sbrk (C : Config) (s : Heap) (nbytes : Nat) : Heap × Option Nat :=
  if s.brk + nbytes ≤ C.limit then
    ({ s with brk := s.brk + nbytes }, some (C.lo + s.brk))
  else
    ({ s with errno := C.sbrkErrno s.errno }, none)

/-- Modelled from the spec: `memlib.h` is not part of the sources.
`provider_init()` acquires the backing region, with an empty extent. -/
def mem_init (s : Heap) : Heap := { s with brk := 0 }

/-- Modelled from the spec: `memlib.h` is not part of the sources.
`provider_deinit()` releases the backing region. -/
def mem_deinit (s : Heap) : Heap := { s with brk := 0 }

/-- Modelled from the spec: `memlib.h` is not part of the sources.
`provider_reset()` shrinks the region back to its just-initialized extent. -/
def mem_reset_brk (s : Heap) : Heap := { s with brk := 0 }

/-! ## Allocator core -/

/-- Source `reset_heap`.  The provider's refusal is the one result `none` of
`mem_sbrk`: the source tests for it with `== NULL` here and with
`== (void *) -1` in `extend_heap`. -/
def reset_heap (C : Config) (s : Heap) : Heap :=
  match mem_sbrk C s ((MIN_BLOCK_SIZE + 1) * C.unit) with
  | (s1, none) => s1
  | (s1, some _) =>
    let fp := 0
    let m1 := wrSize s1.mem fp MIN_BLOCK_SIZE
    let footer := header_to_footer m1 fp
    let m2 := wrSize m1 footer MIN_BLOCK_SIZE
    let m3 := wrAlloc (wrAlloc m2 footer 1) fp 1
    let m4 := wrP C (wrP C m3 (fp + 2) fp) (fp + 1) fp
    let tail := fp + MIN_BLOCK_SIZE
    let m5 := wrSize m4 tail 1
    let m6 := wrAlloc m5 tail 1
    { s1 with mem := m6, freep := some fp }

/-- Source `mm_init`. -/
def mm_init (C : Config) (s : Heap) : Heap :=
  if s.freep = none then reset_heap C (mem_init s) else s

/-- Source `mm_deinit`. -/
def mm_deinit (s : Heap) : Heap := { mem_deinit s with freep := none }

/-- Source `mm_reset`. -/
def mm_reset (C : Config) (s : Heap) : Heap :=
  if s.freep = none then mm_init C s else reset_heap C (mem_reset_brk s)

/-- Source `free_block`, first half (up to `freep = bp`): the block is marked
free and either merged into its free left neighbour or linked after the
cursor `fp`.  The result is the memory, the block pointer `bp` after the merge
and `combined_size`.  For `bp = 0`, the dummy block, the source reads the unit
before `mem_heap_lo()`, which is outside the region; the model reads unit 0
there, so that of its result only the two flags cleared before that read are
those of the source. -/
def free_block_left (C : Config) (m : Nat → Nat) (fp bp : Nat) : (Nat → Nat) × Nat × Nat :=
  let combined := rdSize m bp
  let footer := header_to_footer m bp
  let m1 := wrAlloc (wrAlloc m footer 0) bp 0
  let left_footer := bp - 1
  if rdAlloc m1 left_footer = 0 then
    let combined1 := wrap (combined + rdSize m1 left_footer)
    let bp1 := bp - rdSize m1 left_footer
    (wrSize (wrSize m1 footer combined1) bp1 combined1, bp1, combined1)
  else
    (link_to_flist C m1 fp bp, bp, combined)

/-- Source `free_block`, second half: the block `bp`, whose footer is `footer`
and whose size so far is `combined`, absorbs its right neighbour when that one
is free. -/
def free_block_right (C : Config) (m : Nat → Nat) (bp footer combined : Nat) : Nat → Nat :=
  let right_header := footer + 1
  if rdAlloc m right_header = 0 then
    let m3 := unlink_from_flist C m right_header
    let combined2 := wrap (combined + rdSize m3 right_header)
    let right_footer := header_to_footer m3 right_header
    wrSize (wrSize m3 right_footer combined2) bp combined2
  else m

/-- Source `free_block`.  The function dereferences the cursor, so it is only
entered with a non-null `freep`; with a null cursor the model leaves the state
as it is. -/
def free_block (C : Config) (s : Heap) (bp : Nat) : Heap :=
  match s.freep with
  | none => s
  | some fp =>
    let footer := header_to_footer s.mem bp
    let r := free_block_left C s.mem fp bp
    { s with mem := free_block_right C r.1 r.2.1 footer r.2.2, freep := some r.2.1 }

/-- Source `extend_heap`; the result is the new state and the returned
`Node *` (the inner `none` is `NULL`).  The outer `none` means that the source
has no defined behaviour: the byte count `nunits * sizeof(Node)` is not
representable in `size_t`, the provider has granted the wrapped count, and the
addresses `bp + nunits` of the new tail sentinel and `bp + nunits - 1` of the
footer, which the source goes on to write through, lie beyond the address
space. -/
def extend_heap (C : Config) (s : Heap) (nunits : Nat) : Option (Heap × Option Nat) :=
  let min_alloc := byte_to_unit C C.pagesize
  let nunits := if nunits < min_alloc then min_alloc else nunits
  let nbytes := unit_to_byte C nunits
  match mem_sbrk C s nbytes with
  | (s1, none) => some (s1, none)
  | (s1, some ap) =>
    if WORD ≤ nunits * C.unit then none
    else
      let bp := ap_to_bp C ap
      let m1 := wrSize s1.mem bp nunits
      let footer := header_to_footer m1 bp
      let m2 := wrSize m1 footer nunits
      let m3 := wrAlloc (wrAlloc m2 footer 0) bp 0
      let tail := bp + nunits
      let m4 := wrAlloc m3 tail 1
      let m5 := wrSize m4 tail 1
      let s2 := free_block C { s1 with mem := m5 } bp
      some (s2, s2.freep)

/-- Source `get_block`, the branch that splits the free block `bp` and
allocates its tail end; the result is the memory and `alloc_block`. -/
def get_block_split (m : Nat → Nat) (bp nunits : Nat) : (Nat → Nat) × Nat :=
  let offset := rdSize m bp - nunits
  let alloc_block := bp + offset
  let m1 := wrSize m bp (rdSize m bp - nunits)
  let m2 := wrSize m1 (alloc_block - 1) (rdSize m1 bp)
  let m3 := wrSize m2 alloc_block nunits
  let alloc_footer := header_to_footer m3 alloc_block
  let m4 := wrSize m3 alloc_footer nunits
  (wrAlloc (wrAlloc m4 alloc_footer 1) alloc_block 1, alloc_block)

/-- Source `get_block`, the branch that takes the whole free block `bp`. -/
def get_block_take (C : Config) (s : Heap) (bp : Nat) : Heap :=
  let fp := if s.freep = some bp then some (rdP C s.mem (bp + 1)) else s.freep
  let m1 := unlink_from_flist C s.mem bp
  let footer := header_to_footer m1 bp
  { s with mem := wrAlloc (wrAlloc m1 footer 1) bp 1, freep := fp }

/-- Source `get_block`, the body of the `do ... while` loop entered with the
scan pointer `bp`; one unit of fuel per iteration.  `none` means the fuel ran
out, or `extend_heap` has no defined behaviour; otherwise the result is the
new state and the returned `Node *`.  A null `next` link ends the loop through
its `while (bp != NULL)` test. -/
def get_block_loop (C : Config) (nunits : Nat) : Nat → Heap → Nat → Option (Heap × Option Nat)
  | 0, _, _ => none
  | fuel + 1, s, bp =>
    if rdAlloc s.mem bp = 0 ∧ nunits ≤ rdSize s.mem bp then
      if wrap (nunits + MIN_BLOCK_SIZE) ≤ rdSize s.mem bp then
        let r := get_block_split s.mem bp nunits
        some ({ s with mem := r.1 }, some r.2)
      else
        some (get_block_take C s bp, some bp)
    else if get_p (s.mem (bp + 2)) = 0 then
      some (s, none)
    else
      let bp1 := rdP C s.mem (bp + 2)
      if some bp1 = s.freep then
        match extend_heap C s nunits with
        | none => none
        | some (s1, none) => some (s1, none)
        | some (s1, some b) => get_block_loop C nunits fuel s1 b
      else get_block_loop C nunits fuel s bp1

/-- Source `get_block`: the scan starts at the cursor.  A null cursor is
dereferenced by the source at once; the model gives no result then. -/
def get_block (C : Config) (fuel : Nat) (s : Heap) (nunits : Nat) : Option (Heap × Option Nat) :=
  match s.freep with
  | none => none
  | some fp => get_block_loop C nunits fuel s fp

/-- Source `find_block`, the `while` loop of the linear heap scan for the
address `ap`: `bp` is the block reached, `cur` the start of the next one.
`none` means the fuel ran out. -/
def find_block_scan (C : Config) (m : Nat → Nat) (ap : Nat) : Nat → Nat → Nat → Option Nat
  | 0, _, _ => none
  | fuel + 1, bp, cur =>
    if nodeAddr C cur ≤ ap then find_block_scan C m ap fuel cur (cur + rdSize m cur)
    else some bp

/-- Source `find_block`.  The outer `none` means the scan ran out of fuel, the
inner one is `NULL`. -/
def find_block (C : Config) (fuel : Nat) (s : Heap) (ap : Nat) : Option (Option Nat) :=
  if ap = 0 ∨ ap ≤ mem_heap_lo C ∨ ap ≥ mem_heap_hi C s then some none
  else
    let bp := ap_to_bp C ap
    if ap &&& (C.unit - 1) = 0 ∧ rdAlloc s.mem bp = 1 ∧ MIN_BLOCK_SIZE ≤ rdSize s.mem bp ∧
        rdAlloc s.mem bp = rdAlloc s.mem (header_to_footer s.mem bp) ∧
        rdSize s.mem bp = rdSize s.mem (header_to_footer s.mem bp) then
      some (some bp)
    else
      let bp0 := 0
      match find_block_scan C s.mem ap fuel bp0 (bp0 + rdSize s.mem bp0) with
      | none => none
      | some b => some (if rdAlloc s.mem b = 1 then some b else none)

/-- Source `mm_malloc`.  `none` means the search gave no result (it ran out
of fuel, or the growth has no defined behaviour); otherwise the result is the
new state and the returned address (`none` is `NULL`). -/
def mm_malloc (C : Config) (fuel : Nat) (s : Heap) (nbytes : Nat) : Option (Heap × Option Nat) :=
  let s0 := if s.freep = none then mm_init C s else s
  let nunits := wrap (byte_to_unit C nbytes + 2)
  let nunits := if nunits < MIN_BLOCK_SIZE then MIN_BLOCK_SIZE else nunits
  match get_block C fuel s0 nunits with
  | none => none
  | some (s1, none) => some ({ s1 with errno := ENOMEM }, none)
  | some (s1, some bp) => some (s1, some (bp_to_ap C bp))

/-- Source `mm_free`.  `none` means the heap scan ran out of fuel. -/
def mm_free (C : Config) (fuel : Nat) (s : Heap) (ap : Nat) : Option Heap :=
  if ap = 0 then some s
  else
    match find_block C fuel s ap with
    | none => none
    | some none => some { s with errno := EFAULT }
    | some (some bp) => some (free_block C s bp)

/-- Library `memcpy` of `k` whole units from unit `src` to unit `dst`. -/
def memcpy_units (m : Nat → Nat) (dst src k : Nat) : Nat → Nat :=
  fun j => if dst ≤ j ∧ j < dst + k then m (src + (j - dst)) else m j

/-- Source `mm_realloc`.  `none` means a loop ran out of fuel, or the search
gave no result, or the copy was reached with a source address that is not on a unit boundary (an interior
address resolved by the heap scan), which has no rendering at the unit
granularity of this memory model. -/
def mm_realloc (C : Config) (fuel : Nat) (s : Heap) (ap nbytes : Nat) : Option (Heap × Option Nat) :=
  if ap = 0 then mm_malloc C fuel s nbytes
  else
    match find_block C fuel s ap with
    | none => none
    | some none => some ({ s with errno := EFAULT }, none)
    | some (some bp) =>
      let cur_size := rdSize s.mem bp
      let requested_size := wrap (byte_to_unit C nbytes + 2)
      if requested_size ≤ cur_size then some (s, some ap)
      else
        match get_block C fuel s requested_size with
        | none => none
        | some (s1, none) => some (s1, none)
        | some (s1, some new_bp) =>
          let new_ap := bp_to_ap C new_bp
          let aligned_bytes := unit_to_byte C (wrap (cur_size + WORD - 2))
          if (ap - C.lo) % C.unit = 0 then
            let m1 := memcpy_units s1.mem (new_bp + 1) (nodeOfAddr C ap) (aligned_bytes / C.unit)
            some (free_block C { s1 with mem := m1 } bp, some new_ap)
          else none

/-- Source `mm_getfree`, the `while` loop: `tmp` is the walking pointer, `res`
the running total.  `none` means the fuel ran out. -/
def mm_getfree_loop (C : Config) (m : Nat → Nat) (fp : Nat) : Nat → Nat → Nat → Option Nat
  | 0, _, _ => none
  | fuel + 1, tmp, res =>
    if rdP C m (tmp + 1) ≠ fp then
      if rdAlloc m tmp = 0 then
        mm_getfree_loop C m fp fuel (rdP C m (tmp + 1)) (wrap (res + wrap (rdSize m tmp + WORD - 2)))
      else mm_getfree_loop C m fp fuel tmp res
    else some (unit_to_byte C res)

/-- Source `mm_getfree`.  `none` means the walk ran out of fuel. -/
def mm_getfree (C : Config) (fuel : Nat) (s : Heap) : Option Nat :=
  match s.freep with
  | none => some 0
  | some fp => mm_getfree_loop C s.mem fp fuel fp (rdSize s.mem fp)

/-! ## Well-formed heaps -/

/-- Requirements on the platform and the provider: `sizeof(Node)` is a power
of two of at least 8 bytes, the region starts at a non-null address aligned to
it, and every address of the region fits a 64-bit pointer. -/
structure Config.Valid (C : Config) : Prop where
  unit_pow : ∃ k, C.unit = 2 ^ k
  unit_ge : 8 ≤ C.unit
  lo_pos : 0 < C.lo
  lo_aligned : C.lo % C.unit = 0
  fits : C.lo + C.limit ≤ WORD

/-- Number of whole units in the region. -/
def Heap.units (C : Config) (s : Heap) : Nat := s.brk / C.unit

/-- The unit `i` holds, as its `p` field, the address of the unit `y`. -/
def LinkTo (C : Config) (m : Nat → Nat) (i y : Nat) : Prop := get_p (m i) = nodeAddr C y

instance (C : Config) (m : Nat → Nat) (i y : Nat) : Decidable (LinkTo C m i y) := by
  unfold LinkTo; infer_instance

/-- A block starting at `b`: at least the minimum size, the footer repeats the
size, and an allocated header has an allocated footer.  (The footer flag of a
free block is not constrained: `get_block` leaves it as it finds it when it
splits.) -/
def BlockOK (m : Nat → Nat) (b : Nat) : Prop :=
  MIN_BLOCK_SIZE ≤ rdSize m b ∧ rdSize m (b + rdSize m b - 1) = rdSize m b ∧
    (rdAlloc m b = 1 → rdAlloc m (b + rdSize m b - 1) = 1)

instance (m : Nat → Nat) (b : Nat) : Decidable (BlockOK m b) := by
  unfold BlockOK; infer_instance

/-- The blocks starting at the units of `l`, in this order, tile the units
from `a` up to `e`. -/
def Tiling (m : Nat → Nat) : Nat → List Nat → Nat → Prop
  | a, [], e => a = e
  | a, b :: l, e => b = a ∧ BlockOK m b ∧ Tiling m (b + rdSize m b) l e

instance Tiling.instDecidable (m : Nat → Nat) : ∀ a l e, Decidable (Tiling m a l e)
  | a, [], e => inferInstanceAs (Decidable (a = e))
  | a, b :: l, e =>
    have := Tiling.instDecidable m (b + rdSize m b) l e
    inferInstanceAs (Decidable (b = a ∧ BlockOK m b ∧ Tiling m (b + rdSize m b) l e))

/-- Every node of `l` is linked both ways with the node after it in `l`, the
last one with `e`: its `next` link holds the address of its successor and the
successor's `prev` link holds its own address. -/
def Seg (C : Config) (m : Nat → Nat) : List Nat → Nat → Prop
  | [], _ => True
  | x :: l, e => LinkTo C m (x + 2) (l.headD e) ∧ LinkTo C m (l.headD e + 1) x ∧ Seg C m l e

instance Seg.instDecidable (C : Config) (m : Nat → Nat) : ∀ l e, Decidable (Seg C m l e)
  | [], _ => inferInstanceAs (Decidable True)
  | x :: l, e =>
    have := Seg.instDecidable C m l e
    inferInstanceAs (Decidable (LinkTo C m (x + 2) (l.headD e) ∧
      LinkTo C m (l.headD e + 1) x ∧ Seg C m l e))

/-- Well-formed Ready heap, with its list `bl` of ordinary blocks (in address
order, between the dummy block and the tail sentinel) and its free list `fl`
(in `next` order, starting anywhere on the cycle). -/
structure WFg (C : Config) (s : Heap) (bl fl : List Nat) : Prop where
  units_ge : 5 ≤ s.units C
  brk_eq : s.brk = s.units C * C.unit
  brk_le : s.brk ≤ C.limit
  dummy_hdr : rdAlloc s.mem 0 = 1 ∧ rdSize s.mem 0 = MIN_BLOCK_SIZE
  dummy_ftr : rdAlloc s.mem 3 = 1 ∧ rdSize s.mem 3 = MIN_BLOCK_SIZE
  tail : rdAlloc s.mem (s.units C - 1) = 1 ∧ rdSize s.mem (s.units C - 1) = 1
  tiling : Tiling s.mem MIN_BLOCK_SIZE bl (s.units C - 1)
  cursor : ∃ f, s.freep = some f ∧ f ∈ fl
  cyc : Seg C s.mem fl (fl.headD 0)
  nodup : fl.Nodup
  dummy_mem : 0 ∈ fl
  fl_free : ∀ x ∈ fl, x ≠ 0 → x ∈ bl ∧ rdAlloc s.mem x = 0
  free_fl : ∀ b ∈ bl, rdAlloc s.mem b = 0 → b ∈ fl

/-- Well-formed Ready heap. -/
def WF (C : Config) (s : Heap) : Prop := ∃ bl fl, WFg C s bl fl

/-- The boundary tags of the block at `b` are the same in `m1` as in `m`. -/
def SameTags (m m1 : Nat → Nat) (b : Nat) : Prop :=
  rdSize m1 b = rdSize m b ∧ rdAlloc m1 b = rdAlloc m b ∧
    rdSize m1 (b + rdSize m b - 1) = rdSize m (b + rdSize m b - 1) ∧
    rdAlloc m1 (b + rdSize m b - 1) = rdAlloc m (b + rdSize m b - 1)

/-- Any two units of `l` are the same or at least a minimum block apart, as
the starts of different blocks are. -/
def Apart (l : List Nat) : Prop :=
  ∀ x ∈ l, ∀ y ∈ l, x = y ∨ x + MIN_BLOCK_SIZE ≤ y ∨ y + MIN_BLOCK_SIZE ≤ x

/-- No unit of the block at `c` differs between `m` and `m1`. -/
def Untouched (m m1 : Nat → Nat) (c : Nat) : Prop :=
  ∀ j, c ≤ j → j < c + rdSize m c → m1 j = m j

/-- The block at `c` differs between `m` and `m1` at most in its two link
units, and in those only when it is a node of the free list `fl`. -/
def Kept (m m1 : Nat → Nat) (fl : List Nat) (c : Nat) : Prop :=
  ∀ j, c ≤ j → j < c + rdSize m c → (c ∈ fl → j ≠ c + 1 ∧ j ≠ c + 2) → m1 j = m j

/-- What `free_block` does to a well-formed heap `s` with blocks `bl` and free
list `fl` when it releases the allocated block `b`: the result `t` is well
formed with blocks `bl1` and free list `fl1`; the cursor is the free block `x`
that covers `b` (`b` itself or the left neighbour that absorbed it), of the
stated size; every block other than `x` is a block of `s` that kept its units
(but for link units of free-list nodes). -/
structure FreePost (C : Config) (s t : Heap) (bl fl bl1 fl1 : List Nat) (b x : Nat) : Prop where
  wf : WFg C t bl1 fl1
  cursor : t.freep = some x
  x_mem : x ∈ fl1
  x_free : rdAlloc t.mem x = 0
  x_eq : x = if rdAlloc s.mem (b - 1) = 0 then b - rdSize s.mem (b - 1) else b
  x_size : rdSize t.mem x =
    (if rdAlloc s.mem (b - 1) = 0 then rdSize s.mem (b - 1) else 0) + rdSize s.mem b +
      (if rdAlloc s.mem (b + rdSize s.mem b) = 0 then rdSize s.mem (b + rdSize s.mem b) else 0)
  covers : x ≤ b ∧ b + rdSize s.mem b ≤ x + rdSize t.mem x
  hdr_free : rdAlloc t.mem b = 0
  ftr_free : rdAlloc t.mem (b + rdSize s.mem b - 1) = 0
  kept : ∀ c ∈ 0 :: bl1, c ≠ x → c ∈ 0 :: bl ∧ c ≠ b ∧ Kept s.mem t.mem fl c
  alloc_mem : ∀ c ∈ bl, rdAlloc s.mem c = 1 → c ≠ b → c ∈ bl1
  sub : ∀ c ∈ bl1, c ∈ bl
  fl_mem : ∀ y, y ∈ fl1 ↔
    (y = x ∨ (y ∈ fl ∧ ¬ (rdAlloc s.mem (b + rdSize s.mem b) = 0 ∧ y = b + rdSize s.mem b)))
  brk : t.brk = s.brk
  errno : t.errno = s.errno

/-- What a successful `get_block` for `n` units does to a well-formed heap `s`
with blocks `bl`: the result `t` is well formed with blocks `bl1` and free
list `fl1`; the returned block `b` is an allocated block of `t` of `n` to
`n + 3` units that was not an allocated block of `s`; the blocks allocated in
`s` are blocks of `t` with all their units unchanged, and they are the only
other allocated blocks of `t`. -/
structure AllocPost (C : Config) (s t : Heap) (bl bl1 fl1 : List Nat) (n b : Nat) : Prop where
  wf : WFg C t bl1 fl1
  b_mem : b ∈ bl1
  b_alloc : rdAlloc t.mem b = 1
  b_size : n ≤ rdSize t.mem b ∧ rdSize t.mem b < n + MIN_BLOCK_SIZE
  b_new : ∀ c ∈ bl, rdAlloc s.mem c = 1 → c ≠ b
  kept : ∀ c ∈ bl, rdAlloc s.mem c = 1 → c ∈ bl1 ∧ Untouched s.mem t.mem c
  alloc_old : ∀ c ∈ bl1, rdAlloc t.mem c = 1 → c ≠ b → c ∈ bl ∧ rdAlloc s.mem c = 1
  brk_le : s.brk ≤ t.brk
  errno : t.errno = s.errno

/-- The free-list node `x` satisfies a request of `n` units (`get_block`'s
first-fit test). -/
def Fits (m : Nat → Nat) (n x : Nat) : Prop := rdAlloc m x = 0 ∧ n ≤ rdSize m x

instance (m : Nat → Nat) (n x : Nat) : Decidable (Fits m n x) := by
  unfold Fits; infer_instance

/-- Number of units `extend_heap` asks the provider for on a request of `n`
units: at least a page. -/
def growUnits (C : Config) (n : Nat) : Nat :=
  if n < byte_to_unit C C.pagesize then byte_to_unit C C.pagesize else n

/-- Source `find_block`, the test of its fast path: the address is maximally
aligned and the unit before it is a valid allocated header. -/
def DirectOK (C : Config) (s : Heap) (ap : Nat) : Prop :=
  ap &&& (C.unit - 1) = 0 ∧ rdAlloc s.mem (ap_to_bp C ap) = 1 ∧
    MIN_BLOCK_SIZE ≤ rdSize s.mem (ap_to_bp C ap) ∧
    rdAlloc s.mem (ap_to_bp C ap) = rdAlloc s.mem (header_to_footer s.mem (ap_to_bp C ap)) ∧
    rdSize s.mem (ap_to_bp C ap) = rdSize s.mem (header_to_footer s.mem (ap_to_bp C ap))

instance (C : Config) (s : Heap) (ap : Nat) : Decidable (DirectOK C s ap) := by
  unfold DirectOK; infer_instance

/-- The address `ap` lies in the block that starts at unit `c`. -/
def InBlock (C : Config) (m : Nat → Nat) (c ap : Nat) : Prop :=
  nodeAddr C c ≤ ap ∧ ap < nodeAddr C (c + rdSize m c)

instance (C : Config) (m : Nat → Nat) (c ap : Nat) : Decidable (InBlock C m c ap) := by
  unfold InBlock; infer_instance

/-! ## Concrete heaps

A 64-bit platform with 16-byte units and 4096-byte pages, a provider that
grants up to one megabyte and leaves `errno` alone when it refuses. -/

/-- Example platform and provider. -/
def exConfig : Config :=
  { unit := 16, lo := 4096, pagesize := 4096, limit := 1048576, sbrkErrno := fun e => e }

/-- The allocator before `mm_init`, over zeroed memory. -/
def exEmpty : Heap := { mem := fun _ => 0, brk := 0, freep := none, errno := 0 }

/-- State after `mm_malloc(nbytes)` (the state itself when the model gives no result). -/
def afterMalloc (C : Config) (s : Heap) (nbytes : Nat) : Heap :=
  match mm_malloc C 16 s nbytes with
  | some (t, _) => t
  | none => s

/-- Address returned by `mm_malloc(nbytes)` (0 for `NULL`). -/
def addrMalloc (C : Config) (s : Heap) (nbytes : Nat) : Nat :=
  match mm_malloc C 16 s nbytes with
  | some (_, some p) => p
  | _ => 0

/-- State after `mm_free(ap)` (the state itself when the model gives no result). -/
def afterFree (C : Config) (s : Heap) (ap : Nat) : Heap :=
  match mm_free C 16 s ap with
  | some t => t
  | none => s

/-- The heap right after `mm_init`. -/
def exInit : Heap := mm_init exConfig exEmpty

/-- The heap after `A = mm_malloc(96)`: a free block of 248 units at unit 4 and
the allocated block `A` of 8 units at unit 252. -/
def exHeapA : Heap := afterMalloc exConfig exInit 96

/-- The heap after `A = mm_malloc(96); B = mm_malloc(32)`: free block of 244
units at unit 4, `B` (4 units) at unit 248, `A` (8 units) at unit 252. -/
def exHeapAB : Heap := afterMalloc exConfig exHeapA 32

/-- Source `mm_malloc`, the unit count it asks `get_block` for:
`byte_to_unit(nbytes) + 2`, raised to `MIN_BLOCK_SIZE`. -/
def mallocUnits (C : Config) (nbytes : Nat) : Nat :=
  if wrap (byte_to_unit C nbytes + 2) < MIN_BLOCK_SIZE then MIN_BLOCK_SIZE
  else wrap (byte_to_unit C nbytes + 2)

/-- Source `mm_realloc`, its `requested_size`: `byte_to_unit(nbytes) + 2`. -/
def reallocUnits (C : Config) (nbytes : Nat) : Nat := wrap (byte_to_unit C nbytes + 2)

/-- The example provider with a limit of 4176 bytes: the initial five units
and one page. -/
def exSmallConfig : Config := { exConfig with limit := 4176 }

/-- The heap after `mm_init` and `A = mm_malloc(96)` with the small provider:
the region is at the provider's limit. -/
def exSmallA : Heap := afterMalloc exSmallConfig (mm_init exSmallConfig exEmpty) 96

/-- In the heap `t` the units from `lo` up to `hi` are covered by exactly one
block: the free block at `x`, of `size` units in header and footer, which is a
node of the free list exactly once. -/
structure Coalesced (C : Config) (t : Heap) (x size lo hi : Nat) : Prop where
  heap : ∃ bl fl, WFg C t bl fl ∧ x ∈ bl ∧ fl.count x = 1 ∧
    ∀ c ∈ bl, c < hi → lo < c + rdSize t.mem c → c = x
  free : rdAlloc t.mem x = 0
  hdr : rdSize t.mem x = size
  ftr : rdSize t.mem (x + size - 1) = size
  covers : x ≤ lo ∧ hi ≤ x + size

/-- Source `free_block`, the left merge test: the size of the block on the left
of `b` when the footer before `b` is marked free, 0 otherwise. -/
def freeLeft (m : Nat → Nat) (b : Nat) : Nat :=
  if rdAlloc m (b - 1) = 0 then rdSize m (b - 1) else 0

/-- Source `free_block`, the right merge test: the size of the block on the
right of `b` when the header after `b` is marked free, 0 otherwise. -/
def freeRight (m : Nat → Nat) (b : Nat) : Nat :=
  if rdAlloc m (b + rdSize m b) = 0 then rdSize m (b + rdSize m b) else 0

/-- The heap after `A = mm_malloc(48); G = mm_malloc(16); mm_free(A)`: a free
block of 247 units at unit 4, `G` (4 units) at unit 251 and the released `A`,
a free block of 5 units at unit 255, which is the cursor. -/
def exFive : Heap :=
  afterFree exConfig (afterMalloc exConfig (afterMalloc exConfig exInit 48) 16)
    (addrMalloc exConfig exInit 48)

/-- The heap `exFive` after `p = mm_malloc(64); mm_free(p)`: the request is
split off the free block at unit 4, and its release merges it back into that
block, which becomes the cursor; the successor of the cursor in the free list
is the free block at unit 255. -/
def exStuck : Heap :=
  afterFree exConfig (afterMalloc exConfig exFive 64) (addrMalloc exConfig exFive 64)

/-- The allocator before `mm_init`, over provider memory that is zero but for
the lowest bit of unit 254. -/
def exDirty : Heap :=
  { mem := fun j => if j = 254 then 1 else 0, brk := 0, freep := none, errno := 0 }

/-- The heap after `mm_init` and `A = mm_malloc(48)` over the memory of
`exDirty`: a free block of 251 units at unit 4, whose footer is unit 254, and
`A` (5 units) at unit 255. -/
def exDirtyA : Heap := afterMalloc exConfig (mm_init exConfig exDirty) 48

/-! ## Postconditions of the two branches of the search -/

/-- What `get_block` leaves when it splits `r` units off the free block `z`
of the heap `s` with free list `fl`: the carved block `b` starts
`size z - r` units after `z` and is marked allocated with size `r` in header
and footer; `z` is still free, at the same unit, with the reduced size in
header and footer; no link unit of a free-list node and not the cursor has
changed, and the heap is well formed with the same free list. -/
structure SplitPost (C : Config) (s t : Heap) (fl : List Nat) (z r b : Nat) : Prop where
  b_eq : b = z + (rdSize s.mem z - r)
  b_hdr : rdAlloc t.mem b = 1 ∧ rdSize t.mem b = r
  b_ftr : rdAlloc t.mem (b + r - 1) = 1 ∧ rdSize t.mem (b + r - 1) = r
  z_hdr : rdAlloc t.mem z = 0 ∧ rdSize t.mem z = rdSize s.mem z - r
  z_ftr : rdSize t.mem (b - 1) = rdSize s.mem z - r
  z_min : MIN_BLOCK_SIZE ≤ rdSize s.mem z - r
  links : ∀ y ∈ fl, t.mem (y + 1) = s.mem (y + 1) ∧ t.mem (y + 2) = s.mem (y + 2)
  cursor : t.freep = s.freep
  wf : ∃ bl1, WFg C t bl1 fl

/-- What `get_block` leaves when it takes the whole free block `z` of the
heap `s` with blocks `bl` and free list `fl`: `z` is marked allocated in
header and footer with its size unchanged; the heap is well formed with the
same blocks and a free list that has lost `z` and nothing else; the cursor is
the predecessor of `z` when it was `z`, and unchanged otherwise. -/
structure TakePost (C : Config) (s t : Heap) (bl fl : List Nat) (z : Nat) : Prop where
  hdr : rdAlloc t.mem z = 1 ∧ rdSize t.mem z = rdSize s.mem z
  ftr : rdAlloc t.mem (z + rdSize s.mem z - 1) = 1 ∧
    rdSize t.mem (z + rdSize s.mem z - 1) = rdSize s.mem z
  wf : ∃ fl1, WFg C t bl fl1 ∧ ∀ y, y ∈ fl1 ↔ (y ∈ fl ∧ y ≠ z)
  cursor : t.freep = if s.freep = some z then some (rdP C s.mem (z + 1)) else s.freep
  pred : rdP C s.mem (z + 1) ∈ fl ∧ rdP C s.mem (z + 1) ≠ z ∧
    LinkTo C s.mem (rdP C s.mem (z + 1) + 2) z

/-! ## Reachable states -/

/-- Units a request of `n` bytes accounts for: `ceil(n / unit)`, at least 2,
plus the 2 overhead units of header and footer. -/
def reqUnits (C : Config) (n : Nat) : Nat := max ((n + C.unit - 1) / C.unit) 2 + 2

/-- A valid request: the size in bytes of the block it needs is representable
in `size_t`. -/
def ValidReq (C : Config) (n : Nat) : Prop := reqUnits C n * C.unit < WORD

instance (C : Config) (n : Nat) : Decidable (ValidReq C n) := by
  unfold ValidReq; infer_instance

/-- States reachable from `mm_init` by valid calls, with the live allocations
as ghost state: a pair `(b, n)` records that the block starting at unit `b`
was returned for a request of `n` bytes and has not been released.  The calls
are `mm_malloc` and `mm_realloc` with valid requests, `mm_free` and
`mm_realloc` on payload addresses of live allocations (or null), and writes
of the caller into the payload of a live allocation (`write`).  The provider
memory the allocator starts on is arbitrary. -/
inductive Reach (C : Config) : Heap → List (Nat × Nat) → Prop
  | init (s0 : Heap) (h0 : s0.freep = none) (hl : (MIN_BLOCK_SIZE + 1) * C.unit ≤ C.limit) :
      Reach C (mm_init C s0) []
  | malloc {s : Heap} {live : List (Nat × Nat)} (n fuel : Nat) (t : Heap) (b : Nat)
      (h : Reach C s live) (hv : ValidReq C n)
      (hm : mm_malloc C fuel s n = some (t, some (bp_to_ap C b))) :
      Reach C t ((b, n) :: live)
  | malloc_null {s : Heap} {live : List (Nat × Nat)} (n fuel : Nat) (t : Heap)
      (h : Reach C s live) (hv : ValidReq C n) (hm : mm_malloc C fuel s n = some (t, none)) :
      Reach C t live
  | free {s : Heap} {live : List (Nat × Nat)} (b n fuel : Nat) (t : Heap)
      (h : Reach C s live) (hb : (b, n) ∈ live)
      (hm : mm_free C fuel s (bp_to_ap C b) = some t) :
      Reach C t (live.filter (fun e => e.1 ≠ b))
  | free_null {s : Heap} {live : List (Nat × Nat)} (fuel : Nat) (t : Heap)
      (h : Reach C s live) (hm : mm_free C fuel s 0 = some t) :
      Reach C t live
  | realloc {s : Heap} {live : List (Nat × Nat)} (b n k fuel : Nat) (t : Heap) (q : Nat)
      (h : Reach C s live) (hb : (b, n) ∈ live) (hv : ValidReq C k)
      (hm : mm_realloc C fuel s (bp_to_ap C b) k = some (t, some (bp_to_ap C q))) :
      Reach C t ((q, k) :: live.filter (fun e => e.1 ≠ b))
  | realloc_null {s : Heap} {live : List (Nat × Nat)} (b n k fuel : Nat) (t : Heap)
      (h : Reach C s live) (hb : (b, n) ∈ live) (hv : ValidReq C k)
      (hm : mm_realloc C fuel s (bp_to_ap C b) k = some (t, none)) :
      Reach C t live
  | realloc_fresh {s : Heap} {live : List (Nat × Nat)} (k fuel : Nat) (t : Heap) (q : Nat)
      (h : Reach C s live) (hv : ValidReq C k)
      (hm : mm_realloc C fuel s 0 k = some (t, some (bp_to_ap C q))) :
      Reach C t ((q, k) :: live)
  | realloc_fresh_null {s : Heap} {live : List (Nat × Nat)} (k fuel : Nat) (t : Heap)
      (h : Reach C s live) (hv : ValidReq C k) (hm : mm_realloc C fuel s 0 k = some (t, none)) :
      Reach C t live
  | write {s : Heap} {live : List (Nat × Nat)} (b n : Nat) (m1 : Nat → Nat)
      (h : Reach C s live) (hb : (b, n) ∈ live)
      (hm : ∀ j, ¬ (b < j ∧ j < b + rdSize s.mem b - 1) → m1 j = s.mem j) :
      Reach C { s with mem := m1 } live

/-- The ghost list `live` agrees with the heap: its blocks are, each once, the
blocks of `bl` marked allocated, and each has at least the units its request
accounts for. -/
def LiveOK (C : Config) (s : Heap) (bl : List Nat) (live : List (Nat × Nat)) : Prop :=
  (live.map Prod.fst).Nodup ∧
    (∀ b, b ∈ live.map Prod.fst ↔ (b ∈ bl ∧ rdAlloc s.mem b = 1)) ∧
    ∀ e ∈ live, reqUnits C e.2 ≤ rdSize s.mem e.1

/-- The invariant of reachable states: a well-formed heap whose allocated
blocks are the live allocations. -/
def Inv (C : Config) (s : Heap) (live : List (Nat × Nat)) : Prop :=
  ∃ bl fl, WFg C s bl fl ∧ LiveOK C s bl live

/-! ## The search with ghost results -/

/-- Source `get_block`, the loop of `get_block_loop` with two ghost results
added: the nodes the loop tested, in order, and the number of calls of
`extend_heap`. -/
def get_block_trace (C : Config) (nunits : Nat) :
    Nat → Heap → Nat → List Nat → Nat → Option (Heap × Option Nat × List Nat × Nat)
  | 0, _, _, _, _ => none
  | fuel + 1, s, bp, vis, g =>
    if rdAlloc s.mem bp = 0 ∧ nunits ≤ rdSize s.mem bp then
      if wrap (nunits + MIN_BLOCK_SIZE) ≤ rdSize s.mem bp then
        let r := get_block_split s.mem bp nunits
        some ({ s with mem := r.1 }, some r.2, vis ++ [bp], g)
      else
        some (get_block_take C s bp, some bp, vis ++ [bp], g)
    else if get_p (s.mem (bp + 2)) = 0 then
      some (s, none, vis ++ [bp], g)
    else
      let bp1 := rdP C s.mem (bp + 2)
      if some bp1 = s.freep then
        match extend_heap C s nunits with
        | none => none
        | some (s1, none) => some (s1, none, vis ++ [bp], g + 1)
        | some (s1, some b) => get_block_trace C nunits fuel s1 b (vis ++ [bp]) (g + 1)
      else get_block_trace C nunits fuel s bp1 (vis ++ [bp]) g

/-! ## The free list as a cycle -/

/-- Successor of a node in the free list: its `next` link. -/
def flNext (C : Config) (m : Nat → Nat) (x : Nat) : Nat := rdP C m (x + 2)

/-- Predecessor of a node in the free list: its `prev` link. -/
def flPrev (C : Config) (m : Nat → Nat) (x : Nat) : Nat := rdP C m (x + 1)

/-- The heap `exFive` after `mm_malloc(0)`, which takes the whole free block
of 5 units at unit 255. -/
def exFiveZero : Heap := afterMalloc exConfig exFive 0

/-- The free list of the heap `s` with blocks `bl` is the circular doubly
linked list `fl`: its members are, each once, the dummy and the blocks marked
free; the dummy is marked allocated; the cursor is a member; the successor
and the predecessor of a member are members and inverse to each other; and
following the successor links from any member passes through every member and
comes back to the start after as many steps as the list has members, not
before. -/
structure FreeListOK (C : Config) (s : Heap) (bl fl : List Nat) : Prop where
  nodup : fl.Nodup
  members : ∀ x, x ∈ fl ↔ (x = 0 ∨ (x ∈ bl ∧ rdAlloc s.mem x = 0))
  dummy : rdAlloc s.mem 0 = 1
  cursor : ∃ f, s.freep = some f ∧ f ∈ fl
  next_mem : ∀ x ∈ fl, flNext C s.mem x ∈ fl
  prev_mem : ∀ x ∈ fl, flPrev C s.mem x ∈ fl
  prev_next : ∀ x ∈ fl, flPrev C s.mem (flNext C s.mem x) = x
  next_prev : ∀ x ∈ fl, flNext C s.mem (flPrev C s.mem x) = x
  cycle : ∀ x ∈ fl, (flNext C s.mem)^[fl.length] x = x
  cycle_min : ∀ x ∈ fl, ∀ k, 0 < k → k < fl.length → (flNext C s.mem)^[k] x ≠ x
  cycle_all : ∀ x ∈ fl, ∀ y ∈ fl, ∃ k, k < fl.length ∧ (flNext C s.mem)^[k] x = y

/-- The ways a search of `get_block` for `n` units ends on the heap `s` whose
free list, read from the cursor, is `fl`; the last four arguments are the
resulting state, the returned block, the nodes the loop tested, in order, and
the number of growth requests.

* `fit`: the first node `z` that fits is reached after the nodes `pre` before
  it, which do not fit, and the iteration at `z` returns a block; no growth.
* `refused`: no node fits, every node was tested once, the one growth request
  is refused and the search returns null.
* `grown`: no node fits, every node was tested once, the one growth request
  succeeds and leaves the cursor on a free block `x` of at least
  `growUnits n` units (the larger of `n` and a page); the next iteration, at
  `x`, returns a block. -/
inductive SearchEnd (C : Config) (s : Heap) (fl : List Nat) (n : Nat) :
    Heap → Option Nat → List Nat → Nat → Prop
  | fit (pre : List Nat) (z : Nat) (post : List Nat) (t : Heap) (b : Nat)
      (hl : fl = pre ++ z :: post) (hpre : ∀ w ∈ pre, ¬ Fits s.mem n w) (hz : Fits s.mem n z)
      (hret : get_block_loop C n 1 s z = some (t, some b)) :
      SearchEnd C s fl n t (some b) (pre ++ [z]) 0
  | refused (hno : ∀ w ∈ fl, ¬ Fits s.mem n w)
      (hext : extend_heap C s n = some ({ s with errno := C.sbrkErrno s.errno }, none)) :
      SearchEnd C s fl n { s with errno := C.sbrkErrno s.errno } none fl 1
  | grown (s1 : Heap) (x : Nat) (t : Heap) (b : Nat) (hno : ∀ w ∈ fl, ¬ Fits s.mem n w)
      (hext : extend_heap C s n = some (s1, some x)) (hcur : s1.freep = some x)
      (hfree : rdAlloc s1.mem x = 0) (hsize : growUnits C n ≤ rdSize s1.mem x)
      (hret : get_block_loop C n 1 s1 x = some (t, some b)) :
      SearchEnd C s fl n t (some b) (fl ++ [x]) 1

/-! ## Runs of the allocator -/

theorem is_alloc_set_is_alloc (w b : Nat) : is_alloc (set_is_alloc w b) = b % 2 := by
  unfold is_alloc set_is_alloc; omega

theorem blk_size_set_is_alloc (w b : Nat) : blk_size (set_is_alloc w b) = blk_size w := by
  unfold blk_size set_is_alloc
  have : (w / 2 * 2 + b % 2) / 2 = w / 2 := by omega
  rw [this]

theorem is_alloc_set_blk_size (w v : Nat) : is_alloc (set_blk_size w v) = is_alloc w := by
  unfold is_alloc set_blk_size WORD; omega

theorem blk_size_set_blk_size (w v : Nat) : blk_size (set_blk_size w v) = v % 2 ^ 63 := by
  unfold blk_size set_blk_size WORD
  have h : (w / 2 ^ 64 * 2 ^ 64 + v % 2 ^ 63 * 2 + w % 2) / 2
      = w / 2 ^ 64 * 2 ^ 63 + v % 2 ^ 63 := by omega
  rw [h]; omega

theorem get_p_set_p (w a : Nat) : get_p (set_p w a) = a % WORD := by
  unfold get_p set_p WORD; omega

theorem is_alloc_le_one (w : Nat) : is_alloc w ≤ 1 := by
  unfold is_alloc; omega

theorem rdAlloc_wrAlloc (m : Nat → Nat) (i b j : Nat) :
    rdAlloc (wrAlloc m i b) j = if j = i then b % 2 else rdAlloc m j := by
  unfold rdAlloc wrAlloc
  by_cases h : j = i <;> simp [h, is_alloc_set_is_alloc]

theorem rdSize_wrAlloc (m : Nat → Nat) (i b j : Nat) :
    rdSize (wrAlloc m i b) j = rdSize m j := by
  unfold rdSize wrAlloc
  by_cases h : j = i <;> simp [h, blk_size_set_is_alloc]

theorem rdAlloc_wrSize (m : Nat → Nat) (i v j : Nat) :
    rdAlloc (wrSize m i v) j = rdAlloc m j := by
  unfold rdAlloc wrSize
  by_cases h : j = i <;> simp [h, is_alloc_set_blk_size]

theorem rdSize_wrSize (m : Nat → Nat) (i v j : Nat) :
    rdSize (wrSize m i v) j = if j = i then v % 2 ^ 63 else rdSize m j := by
  unfold rdSize wrSize
  by_cases h : j = i <;> simp [h, blk_size_set_blk_size]

theorem wrAlloc_ne (m : Nat → Nat) (i b j : Nat) (h : j ≠ i) : wrAlloc m i b j = m j := by
  simp [wrAlloc, h]

theorem wrSize_ne (m : Nat → Nat) (i v j : Nat) (h : j ≠ i) : wrSize m i v j = m j := by
  simp [wrSize, h]

theorem wrP_ne (C : Config) (m : Nat → Nat) (i q j : Nat) (h : j ≠ i) : wrP C m i q j = m j := by
  simp [wrP, h]

theorem get_p_wrP (C : Config) (m : Nat → Nat) (i q : Nat) :
    get_p (wrP C m i q i) = nodeAddr C q % WORD := by
  simp [wrP, get_p_set_p]

theorem rdAlloc_congr {m m1 : Nat → Nat} {j : Nat} (h : m1 j = m j) : rdAlloc m1 j = rdAlloc m j := by
  simp [rdAlloc, h]

theorem rdSize_congr {m m1 : Nat → Nat} {j : Nat} (h : m1 j = m j) : rdSize m1 j = rdSize m j := by
  simp [rdSize, h]

theorem rdP_congr (C : Config) {m m1 : Nat → Nat} {j : Nat} (h : m1 j = m j) :
    rdP C m1 j = rdP C m j := by
  simp [rdP, h]

theorem LinkTo_congr (C : Config) {m m1 : Nat → Nat} {j y : Nat} (h : m1 j = m j) :
    LinkTo C m1 j y ↔ LinkTo C m j y := by
  simp [LinkTo, h]

/-! ## Addresses -/

theorem Config.Valid.unit_pos {C : Config} (hC : C.Valid) : 0 < C.unit := by
  have := hC.unit_ge; omega

theorem nodeOfAddr_nodeAddr {C : Config} (hC : C.Valid) (i : Nat) :
    nodeOfAddr C (nodeAddr C i) = i := by
  unfold nodeOfAddr nodeAddr
  rw [Nat.add_sub_cancel_left]
  exact Nat.mul_div_cancel i hC.unit_pos

theorem nodeAddr_lt_of_lt {C : Config} {i n : Nat} (h : i < n) (hn : n * C.unit ≤ C.limit)
    (hC : C.Valid) : nodeAddr C i < WORD := by
  unfold nodeAddr
  have h1 : i * C.unit < n * C.unit := Nat.mul_lt_mul_of_pos_right h hC.unit_pos
  have := hC.fits
  omega

theorem nodeAddr_pos {C : Config} (hC : C.Valid) (i : Nat) : nodeAddr C i ≠ 0 := by
  unfold nodeAddr; have := hC.lo_pos; omega

theorem nodeAddr_le_iff {C : Config} (hC : C.Valid) (i j : Nat) :
    nodeAddr C i ≤ nodeAddr C j ↔ i ≤ j := by
  unfold nodeAddr
  rw [Nat.add_le_add_iff_left]
  exact mul_le_mul_iff_of_pos_right hC.unit_pos

theorem nodeAddr_inj {C : Config} (hC : C.Valid) {i j : Nat} (h : nodeAddr C i = nodeAddr C j) :
    i = j := by
  have h1 := (nodeAddr_le_iff hC i j).1 (Nat.le_of_eq h)
  have h2 := (nodeAddr_le_iff hC j i).1 (Nat.le_of_eq h.symm)
  omega

theorem LinkTo.rdP {C : Config} (hC : C.Valid) {m : Nat → Nat} {i y : Nat}
    (h : LinkTo C m i y) : rdP C m i = y := by
  unfold HeapAllocator.rdP; rw [h]; exact nodeOfAddr_nodeAddr hC y

theorem LinkTo.ne_zero {C : Config} (hC : C.Valid) {m : Nat → Nat} {i y : Nat}
    (h : LinkTo C m i y) : get_p (m i) ≠ 0 := by
  rw [h]; exact nodeAddr_pos hC y

theorem LinkTo.unique {C : Config} (hC : C.Valid) {m : Nat → Nat} {i y z : Nat}
    (h : LinkTo C m i y) (h1 : LinkTo C m i z) : y = z := by
  unfold LinkTo at h h1
  exact nodeAddr_inj hC (h.symm.trans h1)

theorem LinkTo_wrP {C : Config} (m : Nat → Nat) (i q : Nat) (h : nodeAddr C q < WORD) :
    LinkTo C (wrP C m i q) i q := by
  unfold LinkTo; rw [get_p_wrP]; exact Nat.mod_eq_of_lt h

/-! ## Tilings -/

theorem Tiling.le {m : Nat → Nat} : ∀ {l : List Nat} {a e : Nat}, Tiling m a l e → a ≤ e
  | [], a, e, h => by simp only [Tiling] at h; omega
  | b :: l, a, e, h => by
    simp only [Tiling] at h
    have := Tiling.le h.2.2
    omega

theorem Tiling.append_iff {m : Nat → Nat} : ∀ {l1 l2 : List Nat} {a e : Nat},
    Tiling m a (l1 ++ l2) e ↔ ∃ c, Tiling m a l1 c ∧ Tiling m c l2 e
  | [], l2, a, e => by simp [Tiling]
  | b :: l1, l2, a, e => by
    have ih := @Tiling.append_iff m l1 l2 (b + rdSize m b) e
    show (b = a ∧ BlockOK m b ∧ Tiling m (b + rdSize m b) (l1 ++ l2) e) ↔
      ∃ c, (b = a ∧ BlockOK m b ∧ Tiling m (b + rdSize m b) l1 c) ∧ Tiling m c l2 e
    rw [ih]
    constructor
    · rintro ⟨h1, h2, c, h3, h4⟩
      exact ⟨c, ⟨h1, h2, h3⟩, h4⟩
    · rintro ⟨c, ⟨h1, h2, h3⟩, h4⟩
      exact ⟨h1, h2, c, h3, h4⟩

theorem Tiling.split_mem {m : Nat → Nat} {l : List Nat} {a e b : Nat}
    (h : Tiling m a l e) (hb : b ∈ l) :
    ∃ l1 l2, l = l1 ++ b :: l2 ∧ Tiling m a l1 b ∧ BlockOK m b ∧
      Tiling m (b + rdSize m b) l2 e := by
  obtain ⟨l1, l2, rfl⟩ := List.append_of_mem hb
  obtain ⟨c, h1, h2⟩ := Tiling.append_iff.1 h
  simp only [Tiling] at h2
  obtain ⟨rfl, h3, h4⟩ := h2
  exact ⟨l1, l2, rfl, h1, h3, h4⟩

theorem Tiling.mem_bounds {m : Nat → Nat} {l : List Nat} {a e b : Nat}
    (h : Tiling m a l e) (hb : b ∈ l) :
    a ≤ b ∧ b + rdSize m b ≤ e ∧ BlockOK m b := by
  obtain ⟨l1, l2, -, h1, h2, h3⟩ := h.split_mem hb
  exact ⟨h1.le, h3.le, h2⟩

theorem Tiling.lt_of_mem_left {m : Nat → Nat} {l : List Nat} {a e b : Nat}
    (h : Tiling m a l e) (hb : b ∈ l) : b < e := by
  have h1 := h.mem_bounds hb
  have := h1.2.2.1
  unfold MIN_BLOCK_SIZE at this
  omega

/-- Two different blocks of a tiling do not overlap. -/
theorem Tiling.disjoint {m : Nat → Nat} {l : List Nat} {a e b c : Nat}
    (h : Tiling m a l e) (hb : b ∈ l) (hc : c ∈ l) (hne : b ≠ c) :
    b + rdSize m b ≤ c ∨ c + rdSize m c ≤ b := by
  obtain ⟨l1, l2, rfl, h1, h2, h3⟩ := h.split_mem hb
  rcases List.mem_append.1 hc with hc | hc
  · right
    exact (h1.mem_bounds hc).2.1
  · rcases List.mem_cons.1 hc with hc | hc
    · exact absurd hc.symm hne
    · left
      exact (h3.mem_bounds hc).1

theorem Tiling.nodup {m : Nat → Nat} : ∀ {l : List Nat} {a e : Nat}, Tiling m a l e → l.Nodup
  | [], _, _, _ => List.nodup_nil
  | b :: l, a, e, h => by
    simp only [Tiling] at h
    refine List.nodup_cons.2 ⟨fun hb => ?_, Tiling.nodup h.2.2⟩
    have h1 := (h.2.2.mem_bounds hb).1
    have h2 := h.2.1.1
    unfold MIN_BLOCK_SIZE at h2
    omega

theorem BlockOK.block_congr {m m1 : Nat → Nat} {b : Nat} (h : SameTags m m1 b) (hb : BlockOK m b) :
    BlockOK m1 b := by
  obtain ⟨h1, h2, h3, h4⟩ := h
  unfold BlockOK at *
  rw [h1, h2, h3, h4]
  exact hb

theorem Tiling.tiling_congr {m m1 : Nat → Nat} : ∀ {l : List Nat} {a e : Nat},
    (∀ b ∈ l, SameTags m m1 b) → Tiling m a l e → Tiling m1 a l e
  | [], _, _, _, h => h
  | b :: l, a, e, hs, h => by
    simp only [Tiling] at h ⊢
    have hb := hs b (List.mem_cons_self _ _)
    refine ⟨h.1, h.2.1.block_congr hb, ?_⟩
    rw [hb.1]
    exact Tiling.tiling_congr (fun c hc => hs c (List.mem_cons_of_mem _ hc)) h.2.2

/-- Tags are the same when the two memories agree on header and footer. -/
theorem SameTags.of_eq {m m1 : Nat → Nat} {b : Nat} (h1 : m1 b = m b)
    (h2 : m1 (b + rdSize m b - 1) = m (b + rdSize m b - 1)) : SameTags m m1 b :=
  ⟨rdSize_congr h1, rdAlloc_congr h1, rdSize_congr h2, rdAlloc_congr h2⟩

/-! ## Doubly linked segments -/

theorem LinkTo_wrP_ne {C : Config} {m : Nat → Nat} {i q j y : Nat} (h : j ≠ i) :
    LinkTo C (wrP C m i q) j y ↔ LinkTo C m j y :=
  LinkTo_congr C (wrP_ne C m i q j h)

theorem LinkTo_wrSize_ne {C : Config} {m : Nat → Nat} {i v j y : Nat} (h : j ≠ i) :
    LinkTo C (wrSize m i v) j y ↔ LinkTo C m j y :=
  LinkTo_congr C (wrSize_ne m i v j h)

theorem LinkTo_wrAlloc_ne {C : Config} {m : Nat → Nat} {i v j y : Nat} (h : j ≠ i) :
    LinkTo C (wrAlloc m i v) j y ↔ LinkTo C m j y :=
  LinkTo_congr C (wrAlloc_ne m i v j h)

theorem headD_append (l1 l2 : List Nat) (e : Nat) :
    (l1 ++ l2).headD e = l1.headD (l2.headD e) := by
  cases l1 <;> rfl

theorem Seg.seg_append {C : Config} {m : Nat → Nat} : ∀ (l1 l2 : List Nat) {e : Nat},
    Seg C m (l1 ++ l2) e ↔ Seg C m l1 (l2.headD e) ∧ Seg C m l2 e
  | [], l2, e => by simp [Seg]
  | x :: l1, l2, e => by
    have ih := Seg.seg_append (C := C) (m := m) l1 l2 (e := e)
    show (LinkTo C m (x + 2) ((l1 ++ l2).headD e) ∧ LinkTo C m ((l1 ++ l2).headD e + 1) x ∧
      Seg C m (l1 ++ l2) e) ↔
      (LinkTo C m (x + 2) (l1.headD (l2.headD e)) ∧ LinkTo C m (l1.headD (l2.headD e) + 1) x ∧
        Seg C m l1 (l2.headD e)) ∧ Seg C m l2 e
    rw [ih, headD_append]
    tauto

/-- A cycle can be read starting from any of its nodes. -/
theorem Seg.seg_rotate {C : Config} {m : Nat → Nat} {l1 l2 : List Nat} {x : Nat}
    (h : Seg C m (l1 ++ x :: l2) ((l1 ++ x :: l2).headD 0)) :
    Seg C m (x :: (l2 ++ l1)) x := by
  cases l1 with
  | nil => simpa using h
  | cons y l1 =>
    have h1 := (Seg.seg_append (y :: l1) (x :: l2)).1 h
    simp only [List.cons_append, List.headD_cons] at h1
    have h2 : Seg C m ((x :: l2) ++ (y :: l1)) x :=
      (Seg.seg_append (x :: l2) (y :: l1)).2 ⟨by simpa using h1.2, by simpa using h1.1⟩
    simpa using h2

/-- A segment is unchanged when the link units it reads are. -/
theorem Seg.seg_congr {C : Config} {m m1 : Nat → Nat} : ∀ {l : List Nat} {e : Nat},
    (∀ x ∈ l, m1 (x + 2) = m (x + 2)) → (∀ y ∈ l.tail, m1 (y + 1) = m (y + 1)) →
    (l ≠ [] → m1 (e + 1) = m (e + 1)) → Seg C m l e → Seg C m1 l e
  | [], _, _, _, _, _ => trivial
  | x :: l, e, h2, h1, he, h => by
    obtain ⟨ha, hb, hc⟩ := h
    have hx : m1 (l.headD e + 1) = m (l.headD e + 1) := by
      cases l with
      | nil => exact he (by simp)
      | cons y l => exact h1 y (by simp)
    refine ⟨(LinkTo_congr C (h2 x (by simp))).2 ha, (LinkTo_congr C hx).2 hb, ?_⟩
    refine Seg.seg_congr (fun y hy => h2 y (List.mem_cons_of_mem _ hy)) (fun y hy => ?_)
      (fun _ => he (by simp)) hc
    cases l with
    | nil => simp at hy
    | cons z l => exact h1 y (by simp at hy ⊢; exact Or.inr hy)

/-- Every node of a cycle has its successor in the cycle. -/
theorem Seg.next_mem {C : Config} {m : Nat → Nat} {l : List Nat} {x : Nat}
    (h : Seg C m l (l.headD 0)) (hx : x ∈ l) :
    ∃ y ∈ l, LinkTo C m (x + 2) y ∧ LinkTo C m (y + 1) x := by
  obtain ⟨l1, l2, rfl⟩ := List.append_of_mem hx
  have h1 := h.seg_rotate
  obtain ⟨ha, hb, -⟩ := h1
  refine ⟨(l2 ++ l1).headD x, ?_, ha, hb⟩
  cases l2 with
  | nil =>
    cases l1 with
    | nil => simp
    | cons y l1 => simp
  | cons y l2 => simp

/-- Every node of a cycle has its predecessor in the cycle. -/
theorem Seg.prev_mem {C : Config} {m : Nat → Nat} {l : List Nat} {x : Nat}
    (h : Seg C m l (l.headD 0)) (hx : x ∈ l) :
    ∃ y ∈ l, LinkTo C m (y + 2) x ∧ LinkTo C m (x + 1) y := by
  obtain ⟨l1, l2, rfl⟩ := List.append_of_mem hx
  have h1 := h.seg_rotate
  rcases List.eq_nil_or_concat (l2 ++ l1) with h0 | ⟨l3, p, h3⟩
  · rw [h0] at h1
    obtain ⟨ha, hb, -⟩ := h1
    exact ⟨x, hx, ha, hb⟩
  · rw [h3, List.concat_eq_append] at h1
    have h4 : Seg C m ((x :: l3) ++ [p]) x := h1
    have h5 := (Seg.seg_append (x :: l3) [p]).1 h4
    obtain ⟨-, ha, hb, -⟩ := h5
    refine ⟨p, ?_, ha, hb⟩
    have : p ∈ l2 ++ l1 := by rw [h3, List.concat_eq_append]; simp
    rcases List.mem_append.1 this with h6 | h6
    · simp [h6]
    · simp [h6]

/-! ## Linking and unlinking on a cycle -/

theorem Seg.head_link {C : Config} {m : Nat → Nat} {x e : Nat} {l : List Nat}
    (h : Seg C m (x :: l) e) : LinkTo C m (x + 2) (l.headD e) ∧ LinkTo C m (l.headD e + 1) x :=
  ⟨h.1, h.2.1⟩

/-- Unlinking the node `x` of a cycle leaves the cycle of the other nodes. -/
theorem Seg.unlink {C : Config} (hC : C.Valid) {m : Nat → Nat} {x : Nat} {r : List Nat}
    (h : Seg C m (x :: r) x) (hnd : (x :: r).Nodup) (hap : Apart (x :: r))
    (hfit : ∀ y ∈ x :: r, nodeAddr C y < WORD) (hne : r ≠ []) :
    Seg C (unlink_from_flist C m x) r (r.headD 0) := by
  rcases List.eq_nil_or_concat r with h0 | ⟨r1, p, rfl⟩
  · exact absurd h0 hne
  rw [List.concat_eq_append] at *
  -- the successor and the predecessor of `x`
  have hn : LinkTo C m (x + 2) ((r1 ++ [p]).headD x) ∧ LinkTo C m ((r1 ++ [p]).headD x + 1) x :=
    h.head_link
  have h1 : Seg C m ((x :: r1) ++ [p]) x := h
  obtain ⟨h2, h3, h4, -⟩ := (Seg.seg_append (x :: r1) [p]).1 h1
  simp only [List.headD_cons] at h2 h3 h4
  have hnext : rdP C m (x + 2) = (r1 ++ [p]).headD x := hn.1.rdP hC
  have hprev : rdP C m (x + 1) = p := h4.rdP hC
  have hh : (r1 ++ [p]).headD 0 = (r1 ++ [p]).headD x := by cases r1 <;> rfl
  rw [hh]
  set n := (r1 ++ [p]).headD x with hn_def
  have hnmem : n ∈ r1 ++ [p] := by
    rw [hn_def]; cases r1 <;> simp
  have hpx : p ≠ x := by
    intro hpx
    have := (List.nodup_cons.1 hnd).1
    exact this (by simp [hpx])
  have hapn : ∀ y ∈ x :: (r1 ++ [p]), y = n ∨ y + MIN_BLOCK_SIZE ≤ n ∨ n + MIN_BLOCK_SIZE ≤ y :=
    fun y hy => hap y hy n (List.mem_cons_of_mem _ hnmem)
  have happ : ∀ y ∈ x :: (r1 ++ [p]), y = p ∨ y + MIN_BLOCK_SIZE ≤ p ∨ p + MIN_BLOCK_SIZE ≤ y :=
    fun y hy => hap y hy p (by simp)
  have hndr : (r1 ++ [p]).Nodup := (List.nodup_cons.1 hnd).2
  have hpr1 : p ∉ r1 := by
    intro hp
    have := List.nodup_append.1 hndr
    exact this.2.2 hp (by simp)
  unfold unlink_from_flist
  rw [hnext, hprev]
  unfold MIN_BLOCK_SIZE at hapn happ
  have hfp : nodeAddr C p < WORD := hfit p (by simp)
  have hfn : nodeAddr C n < WORD := hfit n (List.mem_cons_of_mem _ hnmem)
  refine (Seg.seg_append r1 [p]).2 ⟨?_, ?_, ?_, trivial⟩
  · -- the nodes before `p` keep their links
    have h5 : Seg C m r1 p := by
      have := (Seg.seg_append [x] r1 (e := p)).1 h2
      exact this.2
    show Seg C _ r1 p
    refine Seg.seg_congr (fun y hy => ?_) (fun y hy => ?_) (fun hr => ?_) h5
    · have hy1 : y ≠ p := fun e => hpr1 (e ▸ hy)
      have a1 := hapn y (by simp [hy])
      have a2 := happ y (by simp [hy])
      rw [wrP_ne, wrP_ne] <;> omega
    · cases r1 with
      | nil => simp at hy
      | cons z r2 =>
        have hz : n = z := rfl
        have hy2 : y ∈ r2 := by simpa using hy
        have hyz : y ≠ z := by
          intro e
          have := (List.nodup_cons.1 hndr).1
          exact this (by simp [← e, hy2])
        have a2 := happ y (by simp [hy2])
        rw [wrP_ne, wrP_ne] <;> omega
    · cases r1 with
      | nil => exact absurd rfl hr
      | cons z r2 =>
        have hz : n = z := rfl
        have hpz : p ≠ z := fun e => hpr1 (by simp [e])
        rw [wrP_ne, wrP_ne] <;> omega
  · -- the new `next` link of `p`
    show LinkTo C _ (p + 2) n
    have a1 := hapn p (by simp)
    rw [LinkTo_wrP_ne (by omega)]
    exact LinkTo_wrP _ _ _ hfn
  · show LinkTo C _ (n + 1) p
    exact LinkTo_wrP _ _ _ hfp

/-- Linking the node `b` right after the node `f` of a cycle. -/
theorem Seg.link {C : Config} (hC : C.Valid) {m : Nat → Nat} {f b : Nat} {r : List Nat}
    (h : Seg C m (f :: r) f) (hnd : (b :: f :: r).Nodup) (hap : Apart (b :: f :: r))
    (hfit : ∀ y ∈ b :: f :: r, nodeAddr C y < WORD) :
    Seg C (link_to_flist C m f b) (f :: b :: r) f := by
  obtain ⟨hn1, hn2, h3⟩ := h
  have hnext : rdP C m (f + 2) = r.headD f := hn1.rdP hC
  unfold link_to_flist
  rw [hnext]
  set n := r.headD f with hn_def
  have hnmem : n ∈ f :: r := by
    rw [hn_def]; cases r <;> simp
  have hapn : ∀ y ∈ b :: f :: r, y = n ∨ y + MIN_BLOCK_SIZE ≤ n ∨ n + MIN_BLOCK_SIZE ≤ y :=
    fun y hy => hap y hy n (List.mem_cons_of_mem _ hnmem)
  have hapf : ∀ y ∈ b :: f :: r, y = f ∨ y + MIN_BLOCK_SIZE ≤ f ∨ f + MIN_BLOCK_SIZE ≤ y :=
    fun y hy => hap y hy f (by simp)
  have hapb : ∀ y ∈ b :: f :: r, y = b ∨ y + MIN_BLOCK_SIZE ≤ b ∨ b + MIN_BLOCK_SIZE ≤ y :=
    fun y hy => hap y hy b (by simp)
  unfold MIN_BLOCK_SIZE at hapn hapf hapb
  have hb1 : b ∉ f :: r := (List.nodup_cons.1 hnd).1
  have hnd1 : (f :: r).Nodup := (List.nodup_cons.1 hnd).2
  have hfr : f ∉ r := (List.nodup_cons.1 hnd1).1
  have hbf : b ≠ f := fun e => hb1 (by simp [e])
  have hbn : b ≠ n := fun e => hb1 (e ▸ hnmem)
  have a1 := hapn b (by simp)
  have a2 := hapf b (by simp)
  have a3 := hapn f (by simp)
  have hfb : nodeAddr C b < WORD := hfit b (by simp)
  have hff : nodeAddr C f < WORD := hfit f (by simp)
  have hfn : nodeAddr C n < WORD := hfit n (List.mem_cons_of_mem _ hnmem)
  refine ⟨?_, ?_, ?_, ?_, ?_⟩
  · show LinkTo C _ (f + 2) b
    exact LinkTo_wrP _ _ _ hfb
  · show LinkTo C _ (b + 1) f
    rw [LinkTo_wrP_ne (by omega), LinkTo_wrP_ne (by omega), LinkTo_wrP_ne (by omega)]
    exact LinkTo_wrP _ _ _ hff
  · show LinkTo C _ (b + 2) n
    rw [LinkTo_wrP_ne (by omega), LinkTo_wrP_ne (by omega)]
    exact LinkTo_wrP _ _ _ hfn
  · show LinkTo C _ (n + 1) b
    rw [LinkTo_wrP_ne (by omega)]
    exact LinkTo_wrP _ _ _ hfb
  · refine Seg.seg_congr (fun y hy => ?_) (fun y hy => ?_) (fun hr => ?_) h3
    · have hyf : y ≠ f := fun e => hfr (e ▸ hy)
      have hyb : y ≠ b := fun e => hb1 (by simp [← e, hy])
      have b1 := hapn y (by simp [hy])
      have b2 := hapf y (by simp [hy])
      have b3 := hapb y (by simp [hy])
      rw [wrP_ne, wrP_ne, wrP_ne, wrP_ne] <;> omega
    · cases r with
      | nil => simp at hy
      | cons z r2 =>
        have hz : n = z := rfl
        have hy2 : y ∈ r2 := by simpa using hy
        have hyz : y ≠ z := by
          intro e
          have := (List.nodup_cons.1 (List.nodup_cons.1 hnd1).2).1
          exact this (by simp [← e, hy2])
        have hyb : y ≠ b := fun e => hb1 (by simp [← e, hy2])
        have b2 := hapf y (by simp [hy2])
        have b3 := hapb y (by simp [hy2])
        rw [wrP_ne, wrP_ne, wrP_ne, wrP_ne] <;> omega
    · cases r with
      | nil => exact absurd rfl hr
      | cons z r2 =>
        have hz : n = z := rfl
        have hfz : f ≠ z := fun e => hfr (by simp [e])
        rw [wrP_ne, wrP_ne, wrP_ne, wrP_ne] <;> omega

/-- The units `unlink_from_flist` writes. -/
theorem unlink_from_flist_ne (C : Config) (m : Nat → Nat) (x j : Nat)
    (h1 : j ≠ rdP C m (x + 1) + 2) (h2 : j ≠ rdP C m (x + 2) + 1) :
    unlink_from_flist C m x j = m j := by
  unfold unlink_from_flist
  rw [wrP_ne _ _ _ _ _ h2, wrP_ne _ _ _ _ _ h1]

/-- The units `link_to_flist` writes. -/
theorem link_to_flist_ne (C : Config) (m : Nat → Nat) (f b j : Nat)
    (h1 : j ≠ b + 1) (h2 : j ≠ b + 2) (h3 : j ≠ rdP C m (f + 2) + 1) (h4 : j ≠ f + 2) :
    link_to_flist C m f b j = m j := by
  unfold link_to_flist
  rw [wrP_ne _ _ _ _ _ h4, wrP_ne _ _ _ _ _ h3, wrP_ne _ _ _ _ _ h2, wrP_ne _ _ _ _ _ h1]

/-! ## Consequences of well-formedness -/

theorem Tiling.apart {m : Nat → Nat} {l : List Nat} {a e : Nat} (h : Tiling m a l e) :
    Apart l := by
  intro x hx y hy
  by_cases hxy : x = y
  · exact Or.inl hxy
  · have h1 := (h.mem_bounds hx).2.2.1
    have h2 := (h.mem_bounds hy).2.2.1
    rcases h.disjoint hx hy hxy with h3 | h3
    · right; left; omega
    · right; right; omega

theorem Apart.mono {l l1 : List Nat} (h : Apart l) (hs : ∀ x ∈ l1, x ∈ l) : Apart l1 :=
  fun x hx y hy => h x (hs x hx) y (hs y hy)

/-- In a tiling that does not start at `b`, the block `b` has a left neighbour. -/
theorem Tiling.left_neighbour {m : Nat → Nat} {l : List Nat} {a e b : Nat}
    (h : Tiling m a l e) (hb : b ∈ l) (hab : a ≠ b) :
    ∃ l1 l2 c, l = l1 ++ c :: b :: l2 ∧ c + rdSize m c = b := by
  obtain ⟨l1, l2, rfl, h1, -, -⟩ := h.split_mem hb
  rcases List.eq_nil_or_concat l1 with h0 | ⟨l3, c, rfl⟩
  · subst h0
    exact absurd h1 hab
  · rw [List.concat_eq_append] at h1 ⊢
    obtain ⟨d, -, h3⟩ := Tiling.append_iff.1 h1
    simp only [Tiling] at h3
    refine ⟨l3, l2, c, by simp, ?_⟩
    exact h3.2.2

/-- In a tiling, the block `b` ends where the tiling ends or where its right
neighbour starts. -/
theorem Tiling.right_neighbour {m : Nat → Nat} {l : List Nat} {a e b : Nat}
    (h : Tiling m a l e) (hb : b ∈ l) :
    b + rdSize m b = e ∨ ∃ l1 l2, l = l1 ++ b :: (b + rdSize m b) :: l2 := by
  obtain ⟨l1, l2, rfl, -, -, h3⟩ := h.split_mem hb
  cases l2 with
  | nil => left; exact h3
  | cons c l2 =>
    right
    simp only [Tiling] at h3
    exact ⟨l1, l2, by rw [h3.1]⟩

theorem WFg.tiling0 {C : Config} {s : Heap} {bl fl : List Nat} (h : WFg C s bl fl) :
    Tiling s.mem 0 (0 :: bl) (s.units C - 1) := by
  have h1 := h.dummy_hdr
  have h2 := h.dummy_ftr
  refine ⟨rfl, ⟨?_, ?_, ?_⟩, ?_⟩
  · rw [h1.2]
  · rw [h1.2]; exact h2.2
  · intro; rw [h1.2]; exact h2.1
  · rw [h1.2]; exact h.tiling

theorem WFg.fl_sub {C : Config} {s : Heap} {bl fl : List Nat} (h : WFg C s bl fl) :
    ∀ x ∈ fl, x ∈ 0 :: bl := by
  intro x hx
  by_cases h0 : x = 0
  · simp [h0]
  · exact List.mem_cons_of_mem _ (h.fl_free x hx h0).1

theorem WFg.apart_fl {C : Config} {s : Heap} {bl fl : List Nat} (h : WFg C s bl fl) :
    Apart fl :=
  h.tiling0.apart.mono h.fl_sub

theorem WFg.units_lt {C : Config} {s : Heap} {bl fl : List Nat} (h : WFg C s bl fl)
    (hC : C.Valid) : s.units C < 2 ^ 61 := by
  have h1 := h.brk_eq
  have h2 := h.brk_le
  have h3 := hC.fits
  have h4 := hC.unit_ge
  have h6 := hC.lo_pos
  have h5 : s.units C * 8 ≤ s.units C * C.unit := Nat.mul_le_mul_left _ h4
  unfold WORD at h3
  omega

theorem WFg.lt_units {C : Config} {s : Heap} {bl fl : List Nat} (h : WFg C s bl fl)
    {x : Nat} (hx : x ∈ 0 :: bl) : x + rdSize s.mem x ≤ s.units C - 1 :=
  (h.tiling0.mem_bounds hx).2.1

theorem WFg.fits {C : Config} {s : Heap} {bl fl : List Nat} (h : WFg C s bl fl)
    (hC : C.Valid) {x : Nat} (hx : x < s.units C) : nodeAddr C x < WORD := by
  refine nodeAddr_lt_of_lt hx ?_ hC
  rw [← h.brk_eq]; exact h.brk_le

theorem WFg.fits_fl {C : Config} {s : Heap} {bl fl : List Nat} (h : WFg C s bl fl)
    (hC : C.Valid) : ∀ x ∈ fl, nodeAddr C x < WORD := by
  intro x hx
  have := h.lt_units (h.fl_sub x hx)
  have h5 := h.units_ge
  exact h.fits hC (by omega)

theorem WFg.free_ne_zero {C : Config} {s : Heap} {bl fl : List Nat} (h : WFg C s bl fl)
    {x : Nat} (hx : rdAlloc s.mem x = 0) : x ≠ 0 := by
  rintro rfl
  have := h.dummy_hdr.1
  omega

theorem WFg.free_mem_bl {C : Config} {s : Heap} {bl fl : List Nat} (h : WFg C s bl fl)
    {x : Nat} (hx : x ∈ fl) (ha : rdAlloc s.mem x = 0) : x ∈ bl :=
  (h.fl_free x hx (h.free_ne_zero ha)).1

theorem WFg.not_mem_fl {C : Config} {s : Heap} {bl fl : List Nat} (h : WFg C s bl fl)
    {x : Nat} (ha : rdAlloc s.mem x = 1) (hx0 : x ≠ 0) : x ∉ fl := by
  intro hx
  have := (h.fl_free x hx hx0).2
  omega

theorem rdAlloc_cases (m : Nat → Nat) (i : Nat) : rdAlloc m i = 0 ∨ rdAlloc m i = 1 := by
  have := is_alloc_le_one (m i)
  unfold rdAlloc
  omega

theorem rdSize_lt (m : Nat → Nat) (i : Nat) : rdSize m i < 2 ^ 63 := by
  unfold rdSize blk_size
  exact Nat.mod_lt _ (by norm_num)

/-- Link units are not boundary tags: for blocks `p` and `b` of a tiling, the
units `p + 1` and `p + 2` are neither the header nor the footer of `b`. -/
theorem Tiling.link_ne_tag {m : Nat → Nat} {l : List Nat} {a e p b : Nat}
    (h : Tiling m a l e) (hp : p ∈ l) (hb : b ∈ l) (k : Nat) (hk : k = 1 ∨ k = 2) :
    b ≠ p + k ∧ b + rdSize m b - 1 ≠ p + k := by
  have h1 := (h.mem_bounds hp).2.2.1
  have h2 := (h.mem_bounds hb).2.2.1
  unfold MIN_BLOCK_SIZE at h1 h2
  by_cases hpb : p = b
  · subst hpb; omega
  · rcases h.disjoint hp hb hpb with h3 | h3 <;> omega

/-! ## `get_block`: splitting a free block -/

theorem mod63_of_lt {v : Nat} (h : v < 2 ^ 63) : v % 2 ^ 63 = v := Nat.mod_eq_of_lt h

theorem wrap_of_lt {v : Nat} (h : v < 2 ^ 64) : wrap v = v := Nat.mod_eq_of_lt h

theorem rdSize_wrSize_same (m : Nat → Nat) (i v : Nat) (h : v < 2 ^ 63) :
    rdSize (wrSize m i v) i = v := by
  rw [rdSize_wrSize, if_pos rfl, mod63_of_lt h]

/-- The memory the split branch leaves, with the block sizes made explicit. -/
theorem get_block_split_eq (m : Nat → Nat) (b n d : Nat) (hd : d = rdSize m b - n)
    (hsz : n ≤ rdSize m b) :
    get_block_split m b n =
      (wrAlloc (wrAlloc (wrSize (wrSize (wrSize (wrSize m b d) (b + d - 1) d) (b + d) n)
        (b + d + n - 1) n) (b + d + n - 1) 1) (b + d) 1, b + d) := by
  have hlt := rdSize_lt m b
  subst hd
  unfold get_block_split header_to_footer
  simp only []
  rw [rdSize_wrSize_same m b _ (by omega), rdSize_wrSize_same _ _ n (by omega)]

/-- What the split branch writes. -/
theorem get_block_split_spec (m : Nat → Nat) (b n d : Nat) (hd : d = rdSize m b - n)
    (hn : 1 ≤ n) (hsz : n + 1 ≤ rdSize m b) :
    (get_block_split m b n).2 = b + d ∧
    (∀ j, rdSize (get_block_split m b n).1 j =
      if j = b + d ∨ j = b + d + n - 1 then n
      else if j = b ∨ j = b + d - 1 then d else rdSize m j) ∧
    (∀ j, rdAlloc (get_block_split m b n).1 j =
      if j = b + d ∨ j = b + d + n - 1 then 1 else rdAlloc m j) ∧
    (∀ j, j ≠ b → j ≠ b + d - 1 → j ≠ b + d → j ≠ b + d + n - 1 →
      (get_block_split m b n).1 j = m j) := by
  have hlt := rdSize_lt m b
  rw [get_block_split_eq m b n d hd (by omega)]
  have e1 : d % 2 ^ 63 = d := mod63_of_lt (by omega)
  have e2 : n % 2 ^ 63 = n := mod63_of_lt (by omega)
  refine ⟨rfl, fun j => ?_, fun j => ?_, fun j h1 h2 h3 h4 => ?_⟩
  · simp only [rdSize_wrAlloc, rdSize_wrSize, e1, e2]
    split_ifs <;> first | rfl | omega
  · simp only [rdAlloc_wrAlloc, rdAlloc_wrSize]
    split_ifs <;> first | rfl | omega
  · simp only []
    rw [wrAlloc_ne _ _ _ _ h3, wrAlloc_ne _ _ _ _ h4, wrSize_ne _ _ _ _ h4, wrSize_ne _ _ _ _ h3,
      wrSize_ne _ _ _ _ h2, wrSize_ne _ _ _ _ h1]

theorem Heap.units_mem (C : Config) (s : Heap) (m : Nat → Nat) :
    Heap.units C { s with mem := m } = s.units C := rfl

/-- Splitting the free block `b` keeps the heap well formed: the block list
gains the carved block right after `b`, the free list is the same. -/
theorem WFg.split {C : Config} {s : Heap} {bl fl : List Nat} (h : WFg C s bl fl)
    {b n : Nat} (hb : b ∈ fl) (ha : rdAlloc s.mem b = 0) (hn : MIN_BLOCK_SIZE ≤ n)
    (hsz : n + MIN_BLOCK_SIZE ≤ rdSize s.mem b) :
    ∃ l1 l2, bl = l1 ++ b :: l2 ∧
      WFg C { s with mem := (get_block_split s.mem b n).1 }
        (l1 ++ b :: (b + (rdSize s.mem b - n)) :: l2) fl := by
  unfold MIN_BLOCK_SIZE at hn hsz
  have hbl : b ∈ bl := h.free_mem_bl hb ha
  obtain ⟨l1, l2, hl, t1, ok, t2⟩ := h.tiling.split_mem hbl
  refine ⟨l1, l2, hl, ?_⟩
  obtain ⟨-, hS, hA, hM⟩ := get_block_split_spec s.mem b n _ rfl (by omega) (by omega)
  set m1 := (get_block_split s.mem b n).1 with hm1
  set d := rdSize s.mem b - n with hd
  have hdn : d + n = rdSize s.mem b := by omega
  have b4 : MIN_BLOCK_SIZE ≤ b := t1.le
  unfold MIN_BLOCK_SIZE at b4
  have hbN := t2.le
  -- blocks other than `b` keep their tags
  have tags : ∀ c ∈ 0 :: bl, c ≠ b → SameTags s.mem m1 c := by
    intro c hc hcb
    have hcb2 := h.tiling0.disjoint hc (List.mem_cons_of_mem _ hbl) hcb
    have hc4 := (h.tiling0.mem_bounds hc).2.2.1
    unfold MIN_BLOCK_SIZE at hc4
    refine SameTags.of_eq (hM c ?_ ?_ ?_ ?_) (hM _ ?_ ?_ ?_ ?_) <;> omega
  have links : ∀ x ∈ fl, m1 (x + 1) = s.mem (x + 1) ∧ m1 (x + 2) = s.mem (x + 2) := by
    intro x hx
    have hxm := h.fl_sub x hx
    by_cases hxb : x = b
    · subst hxb
      constructor <;> refine hM _ ?_ ?_ ?_ ?_ <;> omega
    · have hcb2 := h.tiling0.disjoint hxm (List.mem_cons_of_mem _ hbl) hxb
      have hc4 := (h.tiling0.mem_bounds hxm).2.2.1
      unfold MIN_BLOCK_SIZE at hc4
      constructor <;> refine hM _ ?_ ?_ ?_ ?_ <;> omega
  have hmemfl : ∀ x ∈ fl, x ≠ b + d := by
    intro x hx e
    have hxm := h.fl_sub x hx
    by_cases hxb : x = b
    · omega
    · have hcb2 := h.tiling0.disjoint hxm (List.mem_cons_of_mem _ hbl) hxb
      have hc4 := (h.tiling0.mem_bounds hxm).2.2.1
      unfold MIN_BLOCK_SIZE at hc4
      omega
  have hAfl : ∀ x ∈ 0 :: bl, rdAlloc m1 x = rdAlloc s.mem x := by
    intro x hx
    rw [hA, if_neg]
    by_cases hxb : x = b
    · omega
    · have hcb2 := h.tiling0.disjoint hx (List.mem_cons_of_mem _ hbl) hxb
      have hc4 := (h.tiling0.mem_bounds hx).2.2.1
      unfold MIN_BLOCK_SIZE at hc4
      omega
  have hd0 := h.dummy_hdr
  have hd3 := h.dummy_ftr
  have htl := h.tail
  have hu := h.units_ge
  refine
    { units_ge := h.units_ge
      brk_eq := h.brk_eq
      brk_le := h.brk_le
      dummy_hdr := ?_
      dummy_ftr := ?_
      tail := ?_
      tiling := ?_
      cursor := h.cursor
      cyc := ?_
      nodup := h.nodup
      dummy_mem := h.dummy_mem
      fl_free := ?_
      free_fl := ?_ }
  · show rdAlloc m1 0 = 1 ∧ rdSize m1 0 = MIN_BLOCK_SIZE
    rw [rdAlloc_congr (hM 0 (by omega) (by omega) (by omega) (by omega)),
      rdSize_congr (hM 0 (by omega) (by omega) (by omega) (by omega))]
    exact hd0
  · show rdAlloc m1 3 = 1 ∧ rdSize m1 3 = MIN_BLOCK_SIZE
    rw [rdAlloc_congr (hM 3 (by omega) (by omega) (by omega) (by omega)),
      rdSize_congr (hM 3 (by omega) (by omega) (by omega) (by omega))]
    exact hd3
  · show rdAlloc m1 (s.units C - 1) = 1 ∧ rdSize m1 (s.units C - 1) = 1
    rw [rdAlloc_congr (hM _ (by omega) (by omega) (by omega) (by omega)),
      rdSize_congr (hM _ (by omega) (by omega) (by omega) (by omega))]
    exact htl
  · show Tiling m1 MIN_BLOCK_SIZE (l1 ++ b :: (b + d) :: l2) (s.units C - 1)
    refine Tiling.append_iff.2 ⟨b, ?_, ?_⟩
    · refine Tiling.tiling_congr (fun c hc => tags c ?_ ?_) t1
      · rw [hl]; simp [hc]
      · intro e
        have := t1.lt_of_mem_left hc
        omega
    · have s1 : rdSize m1 b = d := by rw [hS]; split_ifs <;> omega
      have s2 : rdSize m1 (b + d - 1) = d := by rw [hS]; split_ifs <;> omega
      have s3 : rdSize m1 (b + d) = n := by rw [hS]; split_ifs <;> omega
      have s4 : rdSize m1 (b + d + n - 1) = n := by rw [hS]; split_ifs <;> omega
      have a1 : rdAlloc m1 b = 0 := by rw [hA, if_neg (by omega)]; exact ha
      have a4 : rdAlloc m1 (b + d + n - 1) = 1 := by rw [hA, if_pos (by omega)]
      refine ⟨rfl, ⟨?_, ?_, ?_⟩, ?_⟩
      · rw [s1]; unfold MIN_BLOCK_SIZE; omega
      · rw [s1]; exact s2
      · intro hh; omega
      · rw [s1]
        refine ⟨rfl, ⟨?_, ?_, ?_⟩, ?_⟩
        · rw [s3]; unfold MIN_BLOCK_SIZE; omega
        · rw [s3]; exact s4
        · intro _; rw [s3]; exact a4
        · rw [s3, show b + d + n = b + rdSize s.mem b by omega]
          refine Tiling.tiling_congr (fun c hc => tags c ?_ ?_) t2
          · rw [hl]; simp [hc]
          · intro e
            have := (t2.mem_bounds hc).1
            have := ok.1
            unfold MIN_BLOCK_SIZE at this
            omega
  · show Seg C m1 fl (fl.headD 0)
    have hhd : fl ≠ [] → fl.headD 0 ∈ fl := by
      intro hne; cases fl with
      | nil => exact absurd rfl hne
      | cons y l => simp
    exact Seg.seg_congr (fun x hx => (links x hx).2)
      (fun y hy => (links y (List.mem_of_mem_tail hy)).1)
      (fun hne => (links _ (hhd hne)).1) h.cyc
  · intro x hx hx0
    have := h.fl_free x hx hx0
    refine ⟨?_, ?_⟩
    · have h1 := this.1
      rw [hl] at h1
      simp only [List.mem_append, List.mem_cons] at h1 ⊢
      tauto
    · show rdAlloc m1 x = 0
      rw [hAfl x (h.fl_sub x hx)]; exact this.2
  · intro c hc hca
    have hca : rdAlloc m1 c = 0 := hca
    by_cases hcd : c = b + d
    · subst hcd
      rw [hA, if_pos (Or.inl rfl)] at hca
      omega
    · have hc1 : c ∈ bl := by
        rw [hl]
        simp only [List.mem_append, List.mem_cons] at hc ⊢
        tauto
      rw [hAfl c (List.mem_cons_of_mem _ hc1)] at hca
      exact h.free_fl c hc1 hca

/-! ## `get_block`: taking a whole free block -/

theorem Tiling.congr_ok {m m1 : Nat → Nat} : ∀ {l : List Nat} {a e : Nat},
    (∀ c ∈ l, rdSize m1 c = rdSize m c) → (∀ c ∈ l, BlockOK m c → BlockOK m1 c) →
    Tiling m a l e → Tiling m1 a l e
  | [], _, _, _, _, h => h
  | b :: l, a, e, hs, hk, h => by
    simp only [Tiling] at h ⊢
    refine ⟨h.1, hk b (List.mem_cons_self _ _) h.2.1, ?_⟩
    rw [hs b (List.mem_cons_self _ _)]
    exact Tiling.congr_ok (fun c hc => hs c (List.mem_cons_of_mem _ hc))
      (fun c hc => hk c (List.mem_cons_of_mem _ hc)) h.2.2

/-- In a cycle of at least two nodes read from `x`, the two links of `x` lead
to other nodes of the cycle. -/
theorem Seg.ends {C : Config} (hC : C.Valid) {m : Nat → Nat} {x : Nat} {r : List Nat}
    (h : Seg C m (x :: r) x) (hne : r ≠ []) :
    rdP C m (x + 2) ∈ r ∧ rdP C m (x + 1) ∈ r := by
  constructor
  · rw [h.1.rdP hC]
    cases r with
    | nil => exact absurd rfl hne
    | cons y r => simp
  · rcases List.eq_nil_or_concat r with h0 | ⟨r1, p, rfl⟩
    · exact absurd h0 hne
    rw [List.concat_eq_append] at *
    have h1 : Seg C m ((x :: r1) ++ [p]) x := h
    obtain ⟨-, -, h4, -⟩ := (Seg.seg_append (x :: r1) [p]).1 h1
    have h5 : LinkTo C m (x + 1) p := h4
    rw [h5.rdP hC]
    simp

theorem mem_rotate {l1 l2 : List Nat} {b x : Nat} :
    x ∈ b :: (l2 ++ l1) ↔ x ∈ l1 ++ b :: l2 := by
  simp only [List.mem_cons, List.mem_append]
  tauto

theorem nodup_rotate {l1 l2 : List Nat} {b : Nat} (h : (l1 ++ b :: l2).Nodup) :
    (b :: (l2 ++ l1)).Nodup := by
  have hp : (b :: (l2 ++ l1)).Perm (l1 ++ b :: l2) := by
    have h1 : (l1 ++ b :: l2).Perm (b :: (l1 ++ l2)) := List.perm_middle
    have h2 : (b :: (l2 ++ l1)).Perm (b :: (l1 ++ l2)) := List.Perm.cons b List.perm_append_comm
    exact h2.trans h1.symm
  exact hp.nodup_iff.2 h

/-- A well-formed heap read with its free list starting at the free block `b`. -/
theorem WFg.rotate {C : Config} {s : Heap} {bl fl : List Nat} (h : WFg C s bl fl)
    {b : Nat} (hb : b ∈ fl) :
    ∃ r, WFg C s bl (b :: r) ∧ (∀ x, x ∈ b :: r ↔ x ∈ fl) := by
  obtain ⟨l1, l2, rfl⟩ := List.append_of_mem hb
  refine ⟨l2 ++ l1, ?_, fun x => mem_rotate⟩
  obtain ⟨f, hf, hfm⟩ := h.cursor
  exact
    { units_ge := h.units_ge
      brk_eq := h.brk_eq
      brk_le := h.brk_le
      dummy_hdr := h.dummy_hdr
      dummy_ftr := h.dummy_ftr
      tail := h.tail
      tiling := h.tiling
      cursor := ⟨f, hf, mem_rotate.2 hfm⟩
      cyc := h.cyc.seg_rotate
      nodup := nodup_rotate h.nodup
      dummy_mem := mem_rotate.2 h.dummy_mem
      fl_free := fun x hx => h.fl_free x (mem_rotate.1 hx)
      free_fl := fun c hc ha => mem_rotate.2 (h.free_fl c hc ha) }

/-- Taking the whole free block `b` keeps the heap well formed: same blocks,
the free list loses `b`. -/
theorem WFg.take {C : Config} (hC : C.Valid) {s : Heap} {bl r : List Nat} {b : Nat}
    (h : WFg C s bl (b :: r)) (ha : rdAlloc s.mem b = 0) :
    WFg C (get_block_take C s b) bl r := by
  have hb0 : b ≠ 0 := h.free_ne_zero ha
  have h0r : 0 ∈ r := by
    have := h.dummy_mem
    simp only [List.mem_cons] at this
    rcases this with e | e
    · exact absurd e.symm hb0
    · exact e
  have hne : r ≠ [] := List.ne_nil_of_mem h0r
  have hseg : Seg C s.mem (b :: r) b := h.cyc
  obtain ⟨hn, hp⟩ := hseg.ends hC hne
  have hunl := Seg.unlink hC hseg h.nodup h.apart_fl (h.fits_fl hC) hne
  have hbl : b ∈ bl := h.free_mem_bl (List.mem_cons_self _ _) ha
  have hbl0 : b ∈ 0 :: bl := List.mem_cons_of_mem _ hbl
  have hpm : rdP C s.mem (b + 1) ∈ 0 :: bl := h.fl_sub _ (List.mem_cons_of_mem _ hp)
  have hnm : rdP C s.mem (b + 2) ∈ 0 :: bl := h.fl_sub _ (List.mem_cons_of_mem _ hn)
  have hbr : b ∉ r := (List.nodup_cons.1 h.nodup).1
  set m1 := unlink_from_flist C s.mem b with hm1
  have hM : ∀ j, j ≠ rdP C s.mem (b + 1) + 2 → j ≠ rdP C s.mem (b + 2) + 1 → m1 j = s.mem j :=
    fun j => unlink_from_flist_ne C s.mem b j
  have tag1 : ∀ c ∈ 0 :: bl, m1 c = s.mem c ∧
      m1 (c + rdSize s.mem c - 1) = s.mem (c + rdSize s.mem c - 1) := by
    intro c hc
    have e1 := h.tiling0.link_ne_tag hpm hc 2 (Or.inr rfl)
    have e2 := h.tiling0.link_ne_tag hnm hc 1 (Or.inl rfl)
    exact ⟨hM _ e1.1 e2.1, hM _ e1.2 e2.2⟩
  have hsb : rdSize m1 b = rdSize s.mem b := rdSize_congr (tag1 b hbl0).1
  have hft : header_to_footer m1 b = b + rdSize s.mem b - 1 := by
    unfold header_to_footer; rw [hsb]
  have hm2 : (get_block_take C s b).mem =
      wrAlloc (wrAlloc m1 (b + rdSize s.mem b - 1) 1) b 1 := by
    unfold get_block_take
    simp only []
    rw [← hm1, hft]
  have hbrk : (get_block_take C s b).brk = s.brk := rfl
  have hun : (get_block_take C s b).units C = s.units C := rfl
  set m2 := (get_block_take C s b).mem with hm2d
  have hS : ∀ c ∈ 0 :: bl, rdSize m2 c = rdSize s.mem c ∧
      rdSize m2 (c + rdSize s.mem c - 1) = rdSize s.mem (c + rdSize s.mem c - 1) := by
    intro c hc
    rw [hm2]
    simp only [rdSize_wrAlloc]
    exact ⟨rdSize_congr (tag1 c hc).1, rdSize_congr (tag1 c hc).2⟩
  have hA : ∀ c ∈ 0 :: bl, c ≠ b → rdAlloc m2 c = rdAlloc s.mem c ∧
      rdAlloc m2 (c + rdSize s.mem c - 1) = rdAlloc s.mem (c + rdSize s.mem c - 1) := by
    intro c hc hcb
    have d1 := h.tiling0.disjoint hc hbl0 hcb
    have d2 := (h.tiling0.mem_bounds hc).2.2.1
    have d3 := (h.tiling0.mem_bounds hbl0).2.2.1
    unfold MIN_BLOCK_SIZE at d2 d3
    rw [hm2]
    simp only [rdAlloc_wrAlloc]
    rw [if_neg hcb, if_neg (by omega), if_neg (by omega), if_neg (by omega)]
    exact ⟨rdAlloc_congr (tag1 c hc).1, rdAlloc_congr (tag1 c hc).2⟩
  have hAb : rdAlloc m2 b = 1 ∧ rdAlloc m2 (b + rdSize s.mem b - 1) = 1 := by
    rw [hm2]
    constructor <;> simp [rdAlloc_wrAlloc]
  have hu := h.units_ge
  have hd0 := hA 0 (by simp) (Ne.symm hb0)
  have hs0 := hS 0 (by simp)
  rw [h.dummy_hdr.2] at hd0 hs0
  have e3 : (0 : Nat) + MIN_BLOCK_SIZE - 1 = 3 := rfl
  rw [e3] at hd0 hs0
  have hlink : ∀ x ∈ r, m2 (x + 1) = m1 (x + 1) ∧ m2 (x + 2) = m1 (x + 2) := by
    intro x hx
    have hxm := h.fl_sub x (List.mem_cons_of_mem _ hx)
    have e1 := h.tiling0.link_ne_tag hxm hbl0 1 (Or.inl rfl)
    have e2 := h.tiling0.link_ne_tag hxm hbl0 2 (Or.inr rfl)
    rw [hm2]
    constructor
    · rw [wrAlloc_ne _ _ _ _ (Ne.symm e1.1), wrAlloc_ne _ _ _ _ (Ne.symm e1.2)]
    · rw [wrAlloc_ne _ _ _ _ (Ne.symm e2.1), wrAlloc_ne _ _ _ _ (Ne.symm e2.2)]
  have hbN := h.lt_units hbl0
  have hb4 := (h.tiling.mem_bounds hbl).1
  have hbk := (h.tiling.mem_bounds hbl).2.2.1
  unfold MIN_BLOCK_SIZE at hb4 hbk
  refine
    { units_ge := h.units_ge
      brk_eq := h.brk_eq
      brk_le := h.brk_le
      dummy_hdr := ⟨hd0.1.trans h.dummy_hdr.1, hs0.1⟩
      dummy_ftr := ⟨hd0.2.trans h.dummy_ftr.1, hs0.2.trans h.dummy_ftr.2⟩
      tail := ?_
      tiling := ?_
      cursor := ?_
      cyc := ?_
      nodup := (List.nodup_cons.1 h.nodup).2
      dummy_mem := h0r
      fl_free := ?_
      free_fl := ?_ }
  · show rdAlloc m2 (s.units C - 1) = 1 ∧ rdSize m2 (s.units C - 1) = 1
    have e1 := Nat.lt_of_lt_of_le (Nat.lt_add_of_pos_right (n := rdP C s.mem (b + 1)) (k := rdSize s.mem (rdP C s.mem (b + 1))) (by
      have := (h.tiling0.mem_bounds hpm).2.2.1; unfold MIN_BLOCK_SIZE at this; omega)) (h.lt_units hpm)
    have e2 := h.lt_units hnm
    have e4 := (h.tiling0.mem_bounds hpm).2.2.1
    have e5 := (h.tiling0.mem_bounds hnm).2.2.1
    have e6 := h.lt_units hpm
    unfold MIN_BLOCK_SIZE at e4 e5
    have e7 : m2 (s.units C - 1) = s.mem (s.units C - 1) := by
      rw [hm2, wrAlloc_ne _ _ _ _ (by omega), wrAlloc_ne _ _ _ _ (by omega)]
      exact hM _ (by omega) (by omega)
    rw [rdAlloc_congr e7, rdSize_congr e7]
    exact h.tail
  · show Tiling m2 MIN_BLOCK_SIZE bl (s.units C - 1)
    refine Tiling.congr_ok (fun c hc => (hS c (List.mem_cons_of_mem _ hc)).1) (fun c hc ok => ?_) h.tiling
    have hc0 := List.mem_cons_of_mem 0 hc
    unfold BlockOK at ok ⊢
    rw [(hS c hc0).1, (hS c hc0).2]
    refine ⟨ok.1, ok.2.1, fun hh => ?_⟩
    by_cases hcb : c = b
    · subst hcb; exact hAb.2
    · rw [(hA c hc0 hcb).2]
      rw [(hA c hc0 hcb).1] at hh
      exact ok.2.2 hh
  · obtain ⟨f, hf, hfm⟩ := h.cursor
    show ∃ f, (get_block_take C s b).freep = some f ∧ f ∈ r
    unfold get_block_take
    simp only []
    by_cases hfb : f = b
    · subst hfb
      rw [if_pos hf]
      exact ⟨_, rfl, hp⟩
    · rw [if_neg (by rw [hf]; simpa using hfb)]
      refine ⟨f, hf, ?_⟩
      simp only [List.mem_cons] at hfm
      rcases hfm with e | e
      · exact absurd e hfb
      · exact e
  · show Seg C m2 r (r.headD 0)
    have hhd : r.headD 0 ∈ r := by
      cases r with
      | nil => exact absurd rfl hne
      | cons y l => simp
    exact Seg.seg_congr (fun x hx => (hlink x hx).2)
      (fun y hy => (hlink y (List.mem_of_mem_tail hy)).1)
      (fun _ => (hlink _ hhd).1) hunl
  · intro x hx hx0
    have h1 := h.fl_free x (List.mem_cons_of_mem _ hx) hx0
    refine ⟨h1.1, ?_⟩
    have hxb : x ≠ b := fun e => hbr (e ▸ hx)
    show rdAlloc m2 x = 0
    rw [(hA x (List.mem_cons_of_mem _ h1.1) hxb).1]
    exact h1.2
  · intro c hc hca
    have hca : rdAlloc m2 c = 0 := hca
    by_cases hcb : c = b
    · subst hcb
      rw [hAb.1] at hca
      omega
    · rw [(hA c (List.mem_cons_of_mem _ hc) hcb).1] at hca
      have := h.free_fl c hc hca
      simp only [List.mem_cons] at this
      rcases this with e | e
      · exact absurd e hcb
      · exact e

/-! ## `free_block`: first half -/

theorem free_block_left_fst_of_link (C : Config) (m : Nat → Nat) (fp b : Nat)
    (h : rdAlloc m (b - 1) ≠ 0) (h1 : b - 1 ≠ b) (h2 : b - 1 ≠ header_to_footer m b) :
    free_block_left C m fp b =
      (link_to_flist C (wrAlloc (wrAlloc m (header_to_footer m b) 0) b 0) fp b, b, rdSize m b) := by
  unfold free_block_left
  simp only []
  rw [if_neg]
  rw [rdAlloc_wrAlloc, if_neg h1, rdAlloc_wrAlloc, if_neg h2]
  exact h

theorem free_block_left_fst_of_merge (C : Config) (m : Nat → Nat) (fp b : Nat)
    (h : rdAlloc m (b - 1) = 0) (h1 : b - 1 ≠ b) (h2 : b - 1 ≠ header_to_footer m b) :
    free_block_left C m fp b =
      (wrSize (wrSize (wrAlloc (wrAlloc m (header_to_footer m b) 0) b 0) (header_to_footer m b)
        (wrap (rdSize m b + rdSize m (b - 1)))) (b - rdSize m (b - 1))
          (wrap (rdSize m b + rdSize m (b - 1))),
        b - rdSize m (b - 1), wrap (rdSize m b + rdSize m (b - 1))) := by
  unfold free_block_left
  simp only [rdSize_wrAlloc]
  rw [if_pos]
  rw [rdAlloc_wrAlloc, if_neg h1, rdAlloc_wrAlloc, if_neg h2]
  exact h

/-- Releasing the allocated block `b` whose left neighbour's footer is marked
allocated: `b` is linked right after the cursor and becomes the cursor. -/
theorem WFg.free_link {C : Config} (hC : C.Valid) {s : Heap} {bl r : List Nat} {fp b : Nat}
    (h : WFg C s bl (fp :: r)) (hb : b ∈ bl) (ha : rdAlloc s.mem b = 1)
    (hl : rdAlloc s.mem (b - 1) ≠ 0) :
    WFg C { s with mem := (free_block_left C s.mem fp b).1, freep := some b } bl
      (fp :: b :: r) := by
  have hb0 : b ∈ 0 :: bl := List.mem_cons_of_mem _ hb
  have hb4 := (h.tiling.mem_bounds hb).1
  have hbk := (h.tiling.mem_bounds hb).2.2.1
  have hbN := h.lt_units hb0
  unfold MIN_BLOCK_SIZE at hb4 hbk
  have hne0 : b ≠ 0 := by omega
  rw [free_block_left_fst_of_link C s.mem fp b hl (by omega) (by unfold header_to_footer; omega)]
  simp only []
  unfold header_to_footer
  set m1 := wrAlloc (wrAlloc s.mem (b + rdSize s.mem b - 1) 0) b 0 with hm1
  have hbfl : b ∉ fp :: r := h.not_mem_fl ha hne0
  have hS1 : ∀ j, rdSize m1 j = rdSize s.mem j := fun j => by
    rw [hm1, rdSize_wrAlloc, rdSize_wrAlloc]
  have hA1 : ∀ j, rdAlloc m1 j = if j = b ∨ j = b + rdSize s.mem b - 1 then 0 else rdAlloc s.mem j := by
    intro j
    rw [hm1, rdAlloc_wrAlloc, rdAlloc_wrAlloc]
    split_ifs <;> first | rfl | omega
  have hM1 : ∀ j, j ≠ b → j ≠ b + rdSize s.mem b - 1 → m1 j = s.mem j := fun j e1 e2 => by
    rw [hm1, wrAlloc_ne _ _ _ _ e1, wrAlloc_ne _ _ _ _ e2]
  have hlink1 : ∀ x ∈ fp :: r, m1 (x + 1) = s.mem (x + 1) ∧ m1 (x + 2) = s.mem (x + 2) := by
    intro x hx
    have hxm := h.fl_sub x hx
    have e1 := h.tiling0.link_ne_tag hxm hb0 1 (Or.inl rfl)
    have e2 := h.tiling0.link_ne_tag hxm hb0 2 (Or.inr rfl)
    exact ⟨hM1 _ (Ne.symm e1.1) (Ne.symm e1.2), hM1 _ (Ne.symm e2.1) (Ne.symm e2.2)⟩
  have hseg1 : Seg C m1 (fp :: r) fp :=
    Seg.seg_congr (fun x hx => (hlink1 x hx).2)
      (fun y hy => (hlink1 y (List.mem_cons_of_mem _ hy)).1)
      (fun _ => (hlink1 fp (List.mem_cons_self _ _)).1) h.cyc
  have hnd : (b :: fp :: r).Nodup := List.nodup_cons.2 ⟨hbfl, h.nodup⟩
  have hsub : ∀ x ∈ b :: fp :: r, x ∈ 0 :: bl := by
    intro x hx
    rcases List.mem_cons.1 hx with e | e
    · exact e ▸ hb0
    · exact h.fl_sub x e
  have hap : Apart (b :: fp :: r) := h.tiling0.apart.mono hsub
  have hfit : ∀ y ∈ b :: fp :: r, nodeAddr C y < WORD := by
    intro y hy
    have := h.lt_units (hsub y hy)
    have := h.units_ge
    exact h.fits hC (by omega)
  have hseg2 := Seg.link hC hseg1 hnd hap hfit
  have hnx : rdP C m1 (fp + 2) ∈ fp :: r := by
    rw [hseg1.1.rdP hC]
    cases r <;> simp
  set m2 := link_to_flist C m1 fp b with hm2
  have hM2 : ∀ j, j ≠ b + 1 → j ≠ b + 2 → j ≠ rdP C m1 (fp + 2) + 1 → j ≠ fp + 2 → m2 j = m1 j :=
    fun j => link_to_flist_ne C m1 fp b j
  have hnm := h.fl_sub _ hnx
  have hfm := h.fl_sub fp (List.mem_cons_self _ _)
  have tag2 : ∀ c ∈ 0 :: bl, m2 c = m1 c ∧
      m2 (c + rdSize s.mem c - 1) = m1 (c + rdSize s.mem c - 1) := by
    intro c hc
    have e1 := h.tiling0.link_ne_tag hb0 hc 1 (Or.inl rfl)
    have e2 := h.tiling0.link_ne_tag hb0 hc 2 (Or.inr rfl)
    have e3 := h.tiling0.link_ne_tag hnm hc 1 (Or.inl rfl)
    have e4 := h.tiling0.link_ne_tag hfm hc 2 (Or.inr rfl)
    exact ⟨hM2 _ e1.1 e2.1 e3.1 e4.1, hM2 _ e1.2 e2.2 e3.2 e4.2⟩
  have hS : ∀ c ∈ 0 :: bl, rdSize m2 c = rdSize s.mem c ∧
      rdSize m2 (c + rdSize s.mem c - 1) = rdSize s.mem (c + rdSize s.mem c - 1) := by
    intro c hc
    exact ⟨(rdSize_congr (tag2 c hc).1).trans (hS1 _), (rdSize_congr (tag2 c hc).2).trans (hS1 _)⟩
  have hA : ∀ c ∈ 0 :: bl, c ≠ b → rdAlloc m2 c = rdAlloc s.mem c ∧
      rdAlloc m2 (c + rdSize s.mem c - 1) = rdAlloc s.mem (c + rdSize s.mem c - 1) := by
    intro c hc hcb
    have d1 := h.tiling0.disjoint hc hb0 hcb
    have d2 := (h.tiling0.mem_bounds hc).2.2.1
    unfold MIN_BLOCK_SIZE at d2
    refine ⟨(rdAlloc_congr (tag2 c hc).1).trans ?_, (rdAlloc_congr (tag2 c hc).2).trans ?_⟩
    · rw [hA1, if_neg (by omega)]
    · rw [hA1, if_neg (by omega)]
  have hAb : rdAlloc m2 b = 0 := by
    rw [rdAlloc_congr (tag2 b hb0).1, hA1, if_pos (Or.inl rfl)]
  have hd0 := hA 0 (by simp) (Ne.symm hne0)
  have hs0 := hS 0 (by simp)
  rw [h.dummy_hdr.2] at hd0 hs0
  have e3 : (0 : Nat) + MIN_BLOCK_SIZE - 1 = 3 := rfl
  rw [e3] at hd0 hs0
  have hu := h.units_ge
  refine
    { units_ge := h.units_ge
      brk_eq := h.brk_eq
      brk_le := h.brk_le
      dummy_hdr := ⟨hd0.1.trans h.dummy_hdr.1, hs0.1⟩
      dummy_ftr := ⟨hd0.2.trans h.dummy_ftr.1, hs0.2.trans h.dummy_ftr.2⟩
      tail := ?_
      tiling := ?_
      cursor := ⟨b, rfl, by simp⟩
      cyc := hseg2
      nodup := ?_
      dummy_mem := ?_
      fl_free := ?_
      free_fl := ?_ }
  · show rdAlloc m2 (s.units C - 1) = 1 ∧ rdSize m2 (s.units C - 1) = 1
    have e4 := (h.tiling0.mem_bounds hnm).2.2.1
    have e5 := (h.tiling0.mem_bounds hfm).2.2.1
    have e6 := h.lt_units hnm
    have e7 := h.lt_units hfm
    unfold MIN_BLOCK_SIZE at e4 e5
    have e8 : m2 (s.units C - 1) = s.mem (s.units C - 1) := by
      rw [hM2 _ (by omega) (by omega) (by omega) (by omega)]
      exact hM1 _ (by omega) (by omega)
    rw [rdAlloc_congr e8, rdSize_congr e8]
    exact h.tail
  · show Tiling m2 MIN_BLOCK_SIZE bl (s.units C - 1)
    refine Tiling.congr_ok (fun c hc => (hS c (List.mem_cons_of_mem _ hc)).1) (fun c hc ok => ?_) h.tiling
    have hc0 := List.mem_cons_of_mem 0 hc
    unfold BlockOK at ok ⊢
    rw [(hS c hc0).1, (hS c hc0).2]
    refine ⟨ok.1, ok.2.1, fun hh => ?_⟩
    by_cases hcb : c = b
    · subst hcb; rw [hAb] at hh; omega
    · rw [(hA c hc0 hcb).2]
      rw [(hA c hc0 hcb).1] at hh
      exact ok.2.2 hh
  · have : (fp :: b :: r).Perm (b :: fp :: r) := List.Perm.swap _ _ _
    exact this.nodup_iff.2 hnd
  · have := h.dummy_mem
    simp only [List.mem_cons] at this ⊢
    tauto
  · intro x hx hx0
    by_cases hxb : x = b
    · subst hxb; exact ⟨hb, hAb⟩
    · have hx1 : x ∈ fp :: r := by
        simp only [List.mem_cons] at hx ⊢
        tauto
      have h1 := h.fl_free x hx1 hx0
      refine ⟨h1.1, ?_⟩
      show rdAlloc m2 x = 0
      rw [(hA x (List.mem_cons_of_mem _ h1.1) hxb).1]
      exact h1.2
  · intro c hc hca
    have hca : rdAlloc m2 c = 0 := hca
    by_cases hcb : c = b
    · subst hcb; simp
    · rw [(hA c (List.mem_cons_of_mem _ hc) hcb).1] at hca
      have := h.free_fl c hc hca
      simp only [List.mem_cons] at this ⊢
      tauto

/-- Releasing the allocated block `b` whose left neighbour's footer is marked
free: the left neighbour absorbs `b` and becomes the cursor. -/
theorem WFg.free_merge {C : Config} (hC : C.Valid) {s : Heap} {bl fl : List Nat} {b : Nat}
    (h : WFg C s bl fl) (fp : Nat) (hb : b ∈ bl) (ha : rdAlloc s.mem b = 1)
    (hl : rdAlloc s.mem (b - 1) = 0) :
    ∃ l1 l2 c, bl = l1 ++ c :: b :: l2 ∧ c + rdSize s.mem c = b ∧
      rdSize s.mem (b - 1) = rdSize s.mem c ∧ rdAlloc s.mem c = 0 ∧
      WFg C { s with mem := (free_block_left C s.mem fp b).1, freep := some c }
        (l1 ++ c :: l2) fl := by
  have hb0 : b ∈ 0 :: bl := List.mem_cons_of_mem _ hb
  have hb4 := (h.tiling.mem_bounds hb).1
  have hbk := (h.tiling.mem_bounds hb).2.2.1
  have hbN := h.lt_units hb0
  have hN := h.units_lt hC
  unfold MIN_BLOCK_SIZE at hb4 hbk
  have hne0 : b ≠ 0 := by omega
  have hb4' : MIN_BLOCK_SIZE ≠ b := by
    intro e
    have := h.dummy_ftr.1
    rw [← e] at hl
    have e3 : MIN_BLOCK_SIZE - 1 = 3 := rfl
    rw [e3] at hl
    omega
  obtain ⟨l1, l2, c, hbl, hcb⟩ := h.tiling.left_neighbour hb hb4'
  have hc : c ∈ bl := by rw [hbl]; simp
  have hc0 : c ∈ 0 :: bl := List.mem_cons_of_mem _ hc
  have hck := (h.tiling.mem_bounds hc).2.2
  have hc4 := (h.tiling.mem_bounds hc).1
  have hcs := hck.2.1
  have hck1 := hck.1
  unfold MIN_BLOCK_SIZE at hck1 hc4
  have hfc : b - 1 = c + rdSize s.mem c - 1 := by omega
  have hsz : rdSize s.mem (b - 1) = rdSize s.mem c := by rw [hfc]; exact hcs
  have hac : rdAlloc s.mem c = 0 := by
    rcases rdAlloc_cases s.mem c with e | e
    · exact e
    · have := hck.2.2 e
      rw [← hfc] at this
      omega
  have hcfl : c ∈ fl := h.free_fl c hc hac
  refine ⟨l1, l2, c, hbl, hcb, hsz, hac, ?_⟩
  rw [free_block_left_fst_of_merge C s.mem fp b hl (by omega) (by unfold header_to_footer; omega)]
  simp only []
  unfold header_to_footer
  rw [hsz, show b - rdSize s.mem c = c by omega, wrap_of_lt (by omega)]
  set m1 := wrAlloc (wrAlloc s.mem (b + rdSize s.mem b - 1) 0) b 0 with hm1
  set k := rdSize s.mem b + rdSize s.mem c with hk
  set m2 := wrSize (wrSize m1 (b + rdSize s.mem b - 1) k) c k with hm2
  have hS : ∀ j, rdSize m2 j = if j = c ∨ j = b + rdSize s.mem b - 1 then k else rdSize s.mem j := by
    intro j
    rw [hm2, rdSize_wrSize, rdSize_wrSize, hm1, rdSize_wrAlloc, rdSize_wrAlloc,
      mod63_of_lt (show k < 2 ^ 63 by omega)]
    split_ifs <;> first | rfl | omega
  have hA : ∀ j, rdAlloc m2 j = if j = b ∨ j = b + rdSize s.mem b - 1 then 0 else rdAlloc s.mem j := by
    intro j
    rw [hm2, rdAlloc_wrSize, rdAlloc_wrSize, hm1, rdAlloc_wrAlloc, rdAlloc_wrAlloc]
    split_ifs <;> first | rfl | omega
  have hM : ∀ j, j ≠ b → j ≠ b + rdSize s.mem b - 1 → j ≠ c → m2 j = s.mem j := fun j e1 e2 e3 => by
    rw [hm2, wrSize_ne _ _ _ _ e3, wrSize_ne _ _ _ _ e2, hm1, wrAlloc_ne _ _ _ _ e1,
      wrAlloc_ne _ _ _ _ e2]
  have hbfl : b ∉ fl := h.not_mem_fl ha hne0
  -- blocks other than `c` and `b` keep their tags
  have tags : ∀ x ∈ 0 :: bl, x ≠ b → x ≠ c → SameTags s.mem m2 x := by
    intro x hx hxb hxc
    have d1 := h.tiling0.disjoint hx hb0 hxb
    have d2 := h.tiling0.disjoint hx hc0 hxc
    have d3 := (h.tiling0.mem_bounds hx).2.2.1
    unfold MIN_BLOCK_SIZE at d3
    refine SameTags.of_eq (hM x ?_ ?_ ?_) (hM _ ?_ ?_ ?_) <;> omega
  have links : ∀ x ∈ fl, m2 (x + 1) = s.mem (x + 1) ∧ m2 (x + 2) = s.mem (x + 2) := by
    intro x hx
    have hxm := h.fl_sub x hx
    have e1 := h.tiling0.link_ne_tag hxm hb0 1 (Or.inl rfl)
    have e2 := h.tiling0.link_ne_tag hxm hb0 2 (Or.inr rfl)
    have e3 := h.tiling0.link_ne_tag hxm hc0 1 (Or.inl rfl)
    have e4 := h.tiling0.link_ne_tag hxm hc0 2 (Or.inr rfl)
    exact ⟨hM _ (Ne.symm e1.1) (Ne.symm e1.2) (Ne.symm e3.1),
      hM _ (Ne.symm e2.1) (Ne.symm e2.2) (Ne.symm e4.1)⟩
  have hAx : ∀ x ∈ 0 :: bl, x ≠ b → rdAlloc m2 x = rdAlloc s.mem x := by
    intro x hx hxb
    have d1 := h.tiling0.disjoint hx hb0 hxb
    have d3 := (h.tiling0.mem_bounds hx).2.2.1
    unfold MIN_BLOCK_SIZE at d3
    rw [hA, if_neg (by omega)]
  have hu := h.units_ge
  have hd := h.tiling
  rw [hbl] at hd
  obtain ⟨e, t1, t2⟩ := Tiling.append_iff.1 hd
  obtain ⟨he, ok1, -, ok2, t3⟩ := t2
  subst he
  have hmem : ∀ x, x ∈ l1 ++ c :: l2 → x ∈ bl ∧ x ≠ b := by
    intro x hx
    have hnd := h.tiling.nodup
    rw [hbl] at hnd ⊢
    have hx1 : x ∈ l1 ++ c :: b :: l2 := by
      simp only [List.mem_append, List.mem_cons] at hx ⊢
      tauto
    refine ⟨hx1, ?_⟩
    rintro rfl
    have h5 := List.nodup_append.1 hnd
    have h6 := List.nodup_cons.1 h5.2.1
    have h7 := List.nodup_cons.1 h6.2
    simp only [List.mem_append, List.mem_cons] at hx
    rcases hx with e1 | e1 | e1
    · exact h5.2.2 e1 (by simp)
    · omega
    · exact h7.1 e1
  refine
    { units_ge := h.units_ge
      brk_eq := h.brk_eq
      brk_le := h.brk_le
      dummy_hdr := ?_
      dummy_ftr := ?_
      tail := ?_
      tiling := ?_
      cursor := ⟨c, rfl, hcfl⟩
      cyc := ?_
      nodup := h.nodup
      dummy_mem := h.dummy_mem
      fl_free := ?_
      free_fl := ?_ }
  · show rdAlloc m2 0 = 1 ∧ rdSize m2 0 = MIN_BLOCK_SIZE
    rw [rdAlloc_congr (hM 0 (by omega) (by omega) (by omega)),
      rdSize_congr (hM 0 (by omega) (by omega) (by omega))]
    exact h.dummy_hdr
  · show rdAlloc m2 3 = 1 ∧ rdSize m2 3 = MIN_BLOCK_SIZE
    rw [rdAlloc_congr (hM 3 (by omega) (by omega) (by omega)),
      rdSize_congr (hM 3 (by omega) (by omega) (by omega))]
    exact h.dummy_ftr
  · show rdAlloc m2 (s.units C - 1) = 1 ∧ rdSize m2 (s.units C - 1) = 1
    rw [rdAlloc_congr (hM _ (by omega) (by omega) (by omega)),
      rdSize_congr (hM _ (by omega) (by omega) (by omega))]
    exact h.tail
  · show Tiling m2 MIN_BLOCK_SIZE (l1 ++ c :: l2) (s.units C - 1)
    refine Tiling.append_iff.2 ⟨c, ?_, ?_⟩
    · refine Tiling.tiling_congr (fun x hx => tags x ?_ ?_ ?_) t1
      · rw [hbl]; simp [hx]
      · have := t1.lt_of_mem_left hx; omega
      · have := t1.lt_of_mem_left hx; omega
    · have s1 : rdSize m2 c = k := by rw [hS, if_pos (Or.inl rfl)]
      have s2 : rdSize m2 (c + k - 1) = k := by rw [hS, if_pos (Or.inr (by omega))]
      have a1 : rdAlloc m2 c = 0 := by rw [hAx c hc0 (by omega)]; exact hac
      refine ⟨rfl, ⟨?_, ?_, ?_⟩, ?_⟩
      · rw [s1]; unfold MIN_BLOCK_SIZE; omega
      · rw [s1]; exact s2
      · intro hh; omega
      · rw [s1, show c + k = b + rdSize s.mem b by omega]
        refine Tiling.tiling_congr (fun x hx => tags x ?_ ?_ ?_) t3
        · rw [hbl]; simp [hx]
        · have := (t3.mem_bounds hx).1; omega
        · have := (t3.mem_bounds hx).1; omega
  · show Seg C m2 fl (fl.headD 0)
    have hhd : fl ≠ [] → fl.headD 0 ∈ fl := by
      intro hne; cases fl with
      | nil => exact absurd rfl hne
      | cons y l => simp
    exact Seg.seg_congr (fun x hx => (links x hx).2)
      (fun y hy => (links y (List.mem_of_mem_tail hy)).1)
      (fun hne => (links _ (hhd hne)).1) h.cyc
  · intro x hx hx0
    have h1 := h.fl_free x hx hx0
    have hxb : x ≠ b := fun e => hbfl (e ▸ hx)
    refine ⟨?_, ?_⟩
    · have h2 := h1.1
      rw [hbl] at h2
      simp only [List.mem_append, List.mem_cons] at h2 ⊢
      rcases h2 with e1 | e1 | e1 | e1
      · exact Or.inl e1
      · exact Or.inr (Or.inl e1)
      · exact absurd e1 hxb
      · exact Or.inr (Or.inr e1)
    · show rdAlloc m2 x = 0
      rw [hAx x (h.fl_sub x hx) hxb]; exact h1.2
  · intro x hx hxa
    have hxa : rdAlloc m2 x = 0 := hxa
    obtain ⟨hx1, hxb⟩ := hmem x hx
    rw [hAx x (List.mem_cons_of_mem _ hx1) hxb] at hxa
    exact h.free_fl x hx1 hxa

/-! ## `free_block`: second half -/

theorem free_block_right_of_alloc (C : Config) (m : Nat → Nat) (x footer k : Nat)
    (h : rdAlloc m (footer + 1) ≠ 0) : free_block_right C m x footer k = m := by
  unfold free_block_right
  simp only []
  rw [if_neg h]

/-- The free block `x` absorbs its free right neighbour, which leaves the
free list. -/
theorem WFg.free_right {C : Config} (hC : C.Valid) {s : Heap} {bl fl : List Nat} {x : Nat}
    (h : WFg C s bl fl) (hx : x ∈ fl) (hxa : rdAlloc s.mem x = 0)
    (hr : rdAlloc s.mem (x + rdSize s.mem x) = 0) :
    ∃ l1 l2 r, bl = l1 ++ x :: (x + rdSize s.mem x) :: l2 ∧
      (∀ y, y ∈ r ↔ y ∈ fl ∧ y ≠ x + rdSize s.mem x) ∧
      rdSize (free_block_right C s.mem x (x + rdSize s.mem x - 1) (rdSize s.mem x)) x =
        rdSize s.mem x + rdSize s.mem (x + rdSize s.mem x) ∧
      WFg C { s with mem := free_block_right C s.mem x (x + rdSize s.mem x - 1) (rdSize s.mem x),
                     freep := some x } (l1 ++ x :: l2) r := by
  have hxb : x ∈ bl := h.free_mem_bl hx hxa
  have hx0 : x ∈ 0 :: bl := List.mem_cons_of_mem _ hxb
  have hx4 := (h.tiling.mem_bounds hxb).1
  have hxk := (h.tiling.mem_bounds hxb).2.2.1
  have hN := h.units_lt hC
  unfold MIN_BLOCK_SIZE at hx4 hxk
  set R := x + rdSize s.mem x with hR
  have hRb : ∃ l1 l2, bl = l1 ++ x :: R :: l2 := by
    rcases h.tiling.right_neighbour hxb with e | e
    · have := h.tail.1
      rw [← e, ← hR] at this
      omega
    · exact e
  obtain ⟨l1, l2, hbl⟩ := hRb
  have hRbl : R ∈ bl := by rw [hbl]; simp
  have hR0 : R ∈ 0 :: bl := List.mem_cons_of_mem _ hRbl
  have hRfl : R ∈ fl := h.free_fl R hRbl hr
  have hRk := (h.tiling.mem_bounds hRbl).2.2
  have hRs := hRk.2.1
  have hRk1 := hRk.1
  have hRN := h.lt_units hR0
  unfold MIN_BLOCK_SIZE at hRk1
  obtain ⟨r, hrot, hmemr⟩ := h.rotate hRfl
  have hRx : R ≠ x := by omega
  have hRne0 : R ≠ 0 := by omega
  have h0r : 0 ∈ r := by
    have := hrot.dummy_mem
    simp only [List.mem_cons] at this
    rcases this with e | e
    · exact absurd e.symm hRne0
    · exact e
  have hne : r ≠ [] := List.ne_nil_of_mem h0r
  have hseg : Seg C s.mem (R :: r) R := hrot.cyc
  obtain ⟨hn, hp⟩ := hseg.ends hC hne
  have hunl := Seg.unlink hC hseg hrot.nodup hrot.apart_fl (hrot.fits_fl hC) hne
  have hRr : R ∉ r := (List.nodup_cons.1 hrot.nodup).1
  have hmr : ∀ y, y ∈ r ↔ y ∈ fl ∧ y ≠ R := by
    intro y
    rw [← hmemr y]
    simp only [List.mem_cons]
    constructor
    · intro hy
      exact ⟨Or.inr hy, fun e => hRr (e ▸ hy)⟩
    · rintro ⟨e | e, hne⟩
      · exact absurd e hne
      · exact e
  have hrsub : ∀ y ∈ r, y ∈ 0 :: bl := fun y hy => h.fl_sub y ((hmr y).1 hy).1
  have hpm := hrsub _ hp
  have hnm := hrsub _ hn
  have hfr : free_block_right C s.mem x (R - 1) (rdSize s.mem x) =
      wrSize (wrSize (unlink_from_flist C s.mem R) (R + rdSize s.mem R - 1)
        (rdSize s.mem x + rdSize s.mem R)) x (rdSize s.mem x + rdSize s.mem R) := by
    have e1 : R - 1 + 1 = R := by omega
    have e2 : rdSize (unlink_from_flist C s.mem R) R = rdSize s.mem R := by
      have e3 := h.tiling0.link_ne_tag hpm hR0 2 (Or.inr rfl)
      have e4 := h.tiling0.link_ne_tag hnm hR0 1 (Or.inl rfl)
      exact rdSize_congr (unlink_from_flist_ne C s.mem R R e3.1 e4.1)
    unfold free_block_right header_to_footer
    simp only []
    rw [e1, if_pos hr, e2, wrap_of_lt (by omega)]
  refine ⟨l1, l2, r, hbl, hmr, ?_, ?_⟩
  · rw [hfr, rdSize_wrSize_same _ _ _ (by omega)]
  rw [hfr]
  set m1 := unlink_from_flist C s.mem R with hm1
  set k := rdSize s.mem x + rdSize s.mem R with hk
  set m2 := wrSize (wrSize m1 (R + rdSize s.mem R - 1) k) x k with hm2
  have hM1 : ∀ j, j ≠ rdP C s.mem (R + 1) + 2 → j ≠ rdP C s.mem (R + 2) + 1 → m1 j = s.mem j :=
    fun j => unlink_from_flist_ne C s.mem R j
  have tag1 : ∀ c ∈ 0 :: bl, m1 c = s.mem c ∧
      m1 (c + rdSize s.mem c - 1) = s.mem (c + rdSize s.mem c - 1) := by
    intro c hc
    have e1 := h.tiling0.link_ne_tag hpm hc 2 (Or.inr rfl)
    have e2 := h.tiling0.link_ne_tag hnm hc 1 (Or.inl rfl)
    exact ⟨hM1 _ e1.1 e2.1, hM1 _ e1.2 e2.2⟩
  have hA : ∀ j, rdAlloc m2 j = rdAlloc m1 j := fun j => by
    rw [hm2, rdAlloc_wrSize, rdAlloc_wrSize]
  have hS : ∀ j, rdSize m2 j = if j = x ∨ j = R + rdSize s.mem R - 1 then k else rdSize m1 j := by
    intro j
    rw [hm2, rdSize_wrSize, rdSize_wrSize, mod63_of_lt (show k < 2 ^ 63 by omega)]
    split_ifs <;> first | rfl | omega
  have hM2 : ∀ j, j ≠ x → j ≠ R + rdSize s.mem R - 1 → m2 j = m1 j := fun j e1 e2 => by
    rw [hm2, wrSize_ne _ _ _ _ e1, wrSize_ne _ _ _ _ e2]
  have tags : ∀ c ∈ 0 :: bl, c ≠ x → c ≠ R → SameTags s.mem m2 c := by
    intro c hc hcx hcR
    have d1 := h.tiling0.disjoint hc hx0 hcx
    have d2 := h.tiling0.disjoint hc hR0 hcR
    have d3 := (h.tiling0.mem_bounds hc).2.2.1
    unfold MIN_BLOCK_SIZE at d3
    refine SameTags.of_eq ((hM2 c ?_ ?_).trans (tag1 c hc).1) ((hM2 _ ?_ ?_).trans (tag1 c hc).2)
      <;> omega
  have hAx : ∀ c ∈ 0 :: bl, rdAlloc m2 c = rdAlloc s.mem c := fun c hc => by
    rw [hA]; exact rdAlloc_congr (tag1 c hc).1
  have links : ∀ y ∈ r, m2 (y + 1) = m1 (y + 1) ∧ m2 (y + 2) = m1 (y + 2) := by
    intro y hy
    have hym := hrsub y hy
    have e1 := h.tiling0.link_ne_tag hym hx0 1 (Or.inl rfl)
    have e2 := h.tiling0.link_ne_tag hym hx0 2 (Or.inr rfl)
    have e3 := h.tiling0.link_ne_tag hym hR0 1 (Or.inl rfl)
    have e4 := h.tiling0.link_ne_tag hym hR0 2 (Or.inr rfl)
    exact ⟨hM2 _ (Ne.symm e1.1) (Ne.symm e3.2), hM2 _ (Ne.symm e2.1) (Ne.symm e4.2)⟩
  have hu := h.units_ge
  have hd := h.tiling
  rw [hbl] at hd
  obtain ⟨e, t1, t2⟩ := Tiling.append_iff.1 hd
  obtain ⟨he, ok1, -, ok2, t3⟩ := t2
  subst he
  have hmem : ∀ y, y ∈ l1 ++ x :: l2 → y ∈ bl ∧ y ≠ R := by
    intro y hy
    have hnd := h.tiling.nodup
    rw [hbl] at hnd ⊢
    have hy1 : y ∈ l1 ++ x :: R :: l2 := by
      simp only [List.mem_append, List.mem_cons] at hy ⊢
      tauto
    refine ⟨hy1, ?_⟩
    intro e
    have h5 := List.nodup_append.1 hnd
    have h6 := List.nodup_cons.1 h5.2.1
    have h7 := List.nodup_cons.1 h6.2
    simp only [List.mem_append, List.mem_cons] at hy
    rcases hy with e1 | e1 | e1
    · exact h5.2.2 e1 (by simp [e])
    · omega
    · exact h7.1 (e ▸ e1)
  have e4 := (h.tiling0.mem_bounds hpm).2.2.1
  have e5 := (h.tiling0.mem_bounds hnm).2.2.1
  have e6 := h.lt_units hpm
  have e7 := h.lt_units hnm
  unfold MIN_BLOCK_SIZE at e4 e5
  refine
    { units_ge := h.units_ge
      brk_eq := h.brk_eq
      brk_le := h.brk_le
      dummy_hdr := ?_
      dummy_ftr := ?_
      tail := ?_
      tiling := ?_
      cursor := ⟨x, rfl, (hmr x).2 ⟨hx, hRx.symm⟩⟩
      cyc := ?_
      nodup := (List.nodup_cons.1 hrot.nodup).2
      dummy_mem := h0r
      fl_free := ?_
      free_fl := ?_ }
  · show rdAlloc m2 0 = 1 ∧ rdSize m2 0 = MIN_BLOCK_SIZE
    have e8 : m2 0 = s.mem 0 := (hM2 0 (by omega) (by omega)).trans (tag1 0 (by simp)).1
    rw [rdAlloc_congr e8, rdSize_congr e8]
    exact h.dummy_hdr
  · show rdAlloc m2 3 = 1 ∧ rdSize m2 3 = MIN_BLOCK_SIZE
    have e9 := (tag1 0 (by simp)).2
    rw [h.dummy_hdr.2] at e9
    have e8 : m2 3 = s.mem 3 := (hM2 3 (by omega) (by omega)).trans e9
    rw [rdAlloc_congr e8, rdSize_congr e8]
    exact h.dummy_ftr
  · show rdAlloc m2 (s.units C - 1) = 1 ∧ rdSize m2 (s.units C - 1) = 1
    have e8 : m2 (s.units C - 1) = s.mem (s.units C - 1) :=
      (hM2 _ (by omega) (by omega)).trans (hM1 _ (by omega) (by omega))
    rw [rdAlloc_congr e8, rdSize_congr e8]
    exact h.tail
  · show Tiling m2 MIN_BLOCK_SIZE (l1 ++ x :: l2) (s.units C - 1)
    refine Tiling.append_iff.2 ⟨x, ?_, ?_⟩
    · refine Tiling.tiling_congr (fun c hc => tags c ?_ ?_ ?_) t1
      · rw [hbl]; simp [hc]
      · have := t1.lt_of_mem_left hc; omega
      · have := t1.lt_of_mem_left hc; omega
    · have s1 : rdSize m2 x = k := by rw [hS, if_pos (Or.inl rfl)]
      have s2 : rdSize m2 (x + k - 1) = k := by rw [hS, if_pos (Or.inr (by omega))]
      have a1 : rdAlloc m2 x = 0 := by rw [hAx x hx0]; exact hxa
      refine ⟨rfl, ⟨?_, ?_, ?_⟩, ?_⟩
      · rw [s1]; unfold MIN_BLOCK_SIZE; omega
      · rw [s1]; exact s2
      · intro hh; omega
      · rw [s1, show x + k = R + rdSize s.mem R by omega]
        refine Tiling.tiling_congr (fun c hc => tags c ?_ ?_ ?_) t3
        · rw [hbl]; simp [hc]
        · have := (t3.mem_bounds hc).1; omega
        · have := (t3.mem_bounds hc).1; omega
  · show Seg C m2 r (r.headD 0)
    have hhd : r.headD 0 ∈ r := by
      cases r with
      | nil => exact absurd rfl hne
      | cons y l => simp
    exact Seg.seg_congr (fun y hy => (links y hy).2)
      (fun y hy => (links y (List.mem_of_mem_tail hy)).1)
      (fun _ => (links _ hhd).1) hunl
  · intro y hy hy0
    obtain ⟨hyfl, hyR⟩ := (hmr y).1 hy
    have h1 := h.fl_free y hyfl hy0
    refine ⟨?_, ?_⟩
    · have h2 := h1.1
      rw [hbl] at h2
      simp only [List.mem_append, List.mem_cons] at h2 ⊢
      rcases h2 with e1 | e1 | e1 | e1
      · exact Or.inl e1
      · exact Or.inr (Or.inl e1)
      · exact absurd e1 hyR
      · exact Or.inr (Or.inr e1)
    · show rdAlloc m2 y = 0
      rw [hAx y (h.fl_sub y hyfl)]; exact h1.2
  · intro y hy hya
    have hya : rdAlloc m2 y = 0 := hya
    obtain ⟨hy1, hyR⟩ := hmem y hy
    rw [hAx y (List.mem_cons_of_mem _ hy1)] at hya
    exact (hmr y).2 ⟨h.free_fl y hy1 hya, hyR⟩

/-! ## Frames: allocated blocks are not written -/

/-- Units of two different blocks of a tiling are different units. -/
theorem Tiling.cell_ne {m : Nat → Nat} {l : List Nat} {a e c d j k : Nat}
    (h : Tiling m a l e) (hc : c ∈ l) (hd : d ∈ l) (hne : c ≠ d)
    (hj : c ≤ j ∧ j < c + rdSize m c) (hk : d ≤ k ∧ k < d + rdSize m d) : j ≠ k := by
  rcases h.disjoint hc hd hne with h1 | h1 <;> omega

theorem Untouched.same_tags {m m1 : Nat → Nat} {c : Nat} (h : Untouched m m1 c)
    (hk : MIN_BLOCK_SIZE ≤ rdSize m c) : SameTags m m1 c := by
  unfold MIN_BLOCK_SIZE at hk
  exact SameTags.of_eq (h c (by omega) (by omega)) (h _ (by omega) (by omega))

theorem Untouched.trans_untouched {m m1 m2 : Nat → Nat} {c : Nat} (h : Untouched m m1 c)
    (h1 : Untouched m1 m2 c) (hk : 1 ≤ rdSize m c) : Untouched m m2 c := by
  intro j hj1 hj2
  have e : rdSize m1 c = rdSize m c := rdSize_congr (h c (by omega) (by omega))
  rw [h1 j hj1 (by rw [e]; exact hj2), h j hj1 hj2]

/-- The split writes inside the free block it splits only. -/
theorem WFg.split_frame {C : Config} {s : Heap} {bl fl : List Nat} (h : WFg C s bl fl)
    {b n : Nat} (hb : b ∈ fl) (hn : MIN_BLOCK_SIZE ≤ n)
    (hsz : n + MIN_BLOCK_SIZE ≤ rdSize s.mem b) :
    ∀ c ∈ 0 :: bl, c ≠ b → Untouched s.mem (get_block_split s.mem b n).1 c := by
  intro c hc hcb j hj1 hj2
  unfold MIN_BLOCK_SIZE at hn hsz
  have hbl : b ∈ 0 :: bl := h.fl_sub b hb
  obtain ⟨-, -, -, hM⟩ := get_block_split_spec s.mem b n _ rfl (by omega) (by omega)
  have d1 := h.tiling0.disjoint hc hbl hcb
  refine hM j ?_ ?_ ?_ ?_ <;> omega

theorem Untouched.kept {m m1 : Nat → Nat} {c : Nat} (h : Untouched m m1 c) (fl : List Nat) :
    Kept m m1 fl c :=
  fun j h1 h2 _ => h j h1 h2

theorem Kept.untouched {m m1 : Nat → Nat} {fl : List Nat} {c : Nat} (h : Kept m m1 fl c)
    (hc : c ∉ fl) : Untouched m m1 c :=
  fun j h1 h2 => h j h1 h2 (fun hh => absurd hh hc)

theorem Kept.tags {m m1 : Nat → Nat} {fl : List Nat} {c : Nat} (h : Kept m m1 fl c)
    (hk : MIN_BLOCK_SIZE ≤ rdSize m c) : SameTags m m1 c := by
  unfold MIN_BLOCK_SIZE at hk
  exact SameTags.of_eq (h c (by omega) (by omega) (fun _ => by omega))
    (h _ (by omega) (by omega) (fun _ => by omega))

/-- Taking a whole free block writes, outside that block, link units of other
free-list nodes only. -/
theorem WFg.take_frame {C : Config} (hC : C.Valid) {s : Heap} {bl r : List Nat} {b : Nat}
    (h : WFg C s bl (b :: r)) (ha : rdAlloc s.mem b = 0) :
    ∀ c ∈ 0 :: bl, c ≠ b → Kept s.mem (get_block_take C s b).mem (b :: r) c := by
  intro c hc0 hcb j hj1 hj2 hlk
  have hb0 : b ≠ 0 := h.free_ne_zero ha
  have h0r : 0 ∈ r := by
    have := h.dummy_mem
    simp only [List.mem_cons] at this
    rcases this with e | e
    · exact absurd e.symm hb0
    · exact e
  have hne : r ≠ [] := List.ne_nil_of_mem h0r
  have hseg : Seg C s.mem (b :: r) b := h.cyc
  obtain ⟨hn, hp⟩ := hseg.ends hC hne
  have hbl : b ∈ bl := h.free_mem_bl (List.mem_cons_self _ _) ha
  have hbl0 : b ∈ 0 :: bl := List.mem_cons_of_mem _ hbl
  have hpm : rdP C s.mem (b + 1) ∈ 0 :: bl := h.fl_sub _ (List.mem_cons_of_mem _ hp)
  have hnm : rdP C s.mem (b + 2) ∈ 0 :: bl := h.fl_sub _ (List.mem_cons_of_mem _ hn)
  have e1 := (h.tiling0.mem_bounds hpm).2.2.1
  have e2 := (h.tiling0.mem_bounds hnm).2.2.1
  have e3 := (h.tiling0.mem_bounds hbl0).2.2.1
  unfold MIN_BLOCK_SIZE at e1 e2 e3
  have c1 : j ≠ rdP C s.mem (b + 1) + 2 := by
    by_cases e : c = rdP C s.mem (b + 1)
    · have := hlk (e ▸ List.mem_cons_of_mem _ hp)
      rw [← e]; exact this.2
    · exact h.tiling0.cell_ne hc0 hpm e ⟨hj1, hj2⟩ (by omega)
  have c2 : j ≠ rdP C s.mem (b + 2) + 1 := by
    by_cases e : c = rdP C s.mem (b + 2)
    · have := hlk (e ▸ List.mem_cons_of_mem _ hn)
      rw [← e]; exact this.1
    · exact h.tiling0.cell_ne hc0 hnm e ⟨hj1, hj2⟩ (by omega)
  have c3 := h.tiling0.cell_ne hc0 hbl0 hcb ⟨hj1, hj2⟩ (k := b) (by omega)
  have c4 := h.tiling0.cell_ne hc0 hbl0 hcb ⟨hj1, hj2⟩ (k := b + rdSize s.mem b - 1) (by omega)
  have hsb : rdSize (unlink_from_flist C s.mem b) b = rdSize s.mem b := by
    have e4 := h.tiling0.link_ne_tag hpm hbl0 2 (Or.inr rfl)
    have e5 := h.tiling0.link_ne_tag hnm hbl0 1 (Or.inl rfl)
    exact rdSize_congr (unlink_from_flist_ne C s.mem b b e4.1 e5.1)
  unfold get_block_take header_to_footer
  simp only []
  rw [hsb, wrAlloc_ne _ _ _ _ c3, wrAlloc_ne _ _ _ _ c4]
  exact unlink_from_flist_ne C s.mem b j c1 c2

/-- The link case of `free_block` writes, outside the released block, link
units of free-list nodes only. -/
theorem WFg.free_link_frame {C : Config} (hC : C.Valid) {s : Heap} {bl r : List Nat} {fp b : Nat}
    (h : WFg C s bl (fp :: r)) (hb : b ∈ bl) (hl : rdAlloc s.mem (b - 1) ≠ 0) :
    ∀ c ∈ 0 :: bl, c ≠ b → Kept s.mem (free_block_left C s.mem fp b).1 (fp :: r) c := by
  intro c hc0 hcb j hj1 hj2 hlk
  have hb0 : b ∈ 0 :: bl := List.mem_cons_of_mem _ hb
  have hb4 := (h.tiling.mem_bounds hb).1
  have hbk := (h.tiling.mem_bounds hb).2.2.1
  unfold MIN_BLOCK_SIZE at hb4 hbk
  rw [free_block_left_fst_of_link C s.mem fp b hl (by omega) (by unfold header_to_footer; omega)]
  simp only []
  unfold header_to_footer
  set m1 := wrAlloc (wrAlloc s.mem (b + rdSize s.mem b - 1) 0) b 0 with hm1
  have hM1 : ∀ j, j ≠ b → j ≠ b + rdSize s.mem b - 1 → m1 j = s.mem j := fun j e1 e2 => by
    rw [hm1, wrAlloc_ne _ _ _ _ e1, wrAlloc_ne _ _ _ _ e2]
  have hfm := h.fl_sub fp (List.mem_cons_self _ _)
  have e1 := h.tiling0.link_ne_tag hfm hb0 2 (Or.inr rfl)
  have hseg : Seg C s.mem (fp :: r) fp := h.cyc
  have hnx : rdP C m1 (fp + 2) ∈ fp :: r := by
    rw [rdP_congr C (hM1 _ (Ne.symm e1.1) (Ne.symm e1.2)), hseg.1.rdP hC]
    cases r <;> simp
  have hnm := h.fl_sub _ hnx
  have e2 := (h.tiling0.mem_bounds hfm).2.2.1
  have e3 := (h.tiling0.mem_bounds hnm).2.2.1
  unfold MIN_BLOCK_SIZE at e2 e3
  have c1 := h.tiling0.cell_ne hc0 hb0 hcb ⟨hj1, hj2⟩ (k := b) (by omega)
  have c2 := h.tiling0.cell_ne hc0 hb0 hcb ⟨hj1, hj2⟩ (k := b + rdSize s.mem b - 1) (by omega)
  have c3 := h.tiling0.cell_ne hc0 hb0 hcb ⟨hj1, hj2⟩ (k := b + 1) (by omega)
  have c4 := h.tiling0.cell_ne hc0 hb0 hcb ⟨hj1, hj2⟩ (k := b + 2) (by omega)
  have c5 : j ≠ rdP C m1 (fp + 2) + 1 := by
    by_cases e : c = rdP C m1 (fp + 2)
    · have := hlk (e ▸ hnx)
      rw [← e]; exact this.1
    · exact h.tiling0.cell_ne hc0 hnm e ⟨hj1, hj2⟩ (by omega)
  have c6 : j ≠ fp + 2 := by
    by_cases e : c = fp
    · have := hlk (e ▸ List.mem_cons_self _ _)
      rw [← e]; exact this.2
    · exact h.tiling0.cell_ne hc0 hfm e ⟨hj1, hj2⟩ (by omega)
  rw [link_to_flist_ne C m1 fp b j c3 c4 c5 c6]
  exact hM1 j c1 c2

/-- The left merge of `free_block` writes inside the released block and its
free left neighbour only. -/
theorem WFg.free_merge_frame {C : Config} (hC : C.Valid) {s : Heap} {bl fl : List Nat} {b : Nat}
    (h : WFg C s bl fl) (fp : Nat) (hb : b ∈ bl) (ha : rdAlloc s.mem b = 1)
    (hl : rdAlloc s.mem (b - 1) = 0) :
    ∀ c ∈ 0 :: bl, c ≠ b → c ≠ b - rdSize s.mem (b - 1) →
      Untouched s.mem (free_block_left C s.mem fp b).1 c := by
  intro c hc0 hcb hcd j hj1 hj2
  obtain ⟨l1, l2, d, hbl, hdb, hsz, hda, -⟩ := h.free_merge hC fp hb ha hl
  have hb0 : b ∈ 0 :: bl := List.mem_cons_of_mem _ hb
  have hd0 : d ∈ 0 :: bl := by rw [hbl]; simp
  have hb4 := (h.tiling.mem_bounds hb).1
  have hbk := (h.tiling.mem_bounds hb).2.2.1
  have hdk := (h.tiling0.mem_bounds hd0).2.2.1
  unfold MIN_BLOCK_SIZE at hb4 hbk hdk
  rw [free_block_left_fst_of_merge C s.mem fp b hl (by omega) (by unfold header_to_footer; omega)]
  simp only []
  unfold header_to_footer
  rw [hsz, show b - rdSize s.mem d = d by omega]
  rw [hsz, show b - rdSize s.mem d = d by omega] at hcd
  have c1 := h.tiling0.cell_ne hc0 hb0 hcb ⟨hj1, hj2⟩ (k := b) (by omega)
  have c2 := h.tiling0.cell_ne hc0 hb0 hcb ⟨hj1, hj2⟩ (k := b + rdSize s.mem b - 1) (by omega)
  have c3 := h.tiling0.cell_ne hc0 hd0 hcd ⟨hj1, hj2⟩ (k := d) (by omega)
  rw [wrSize_ne _ _ _ _ c3, wrSize_ne _ _ _ _ c2, wrAlloc_ne _ _ _ _ c1, wrAlloc_ne _ _ _ _ c2]

/-- The right merge of `free_block` writes, outside the two merged blocks,
link units of free-list nodes only; inside the left one it writes the header
and the link units at most. -/
theorem WFg.free_right_frame {C : Config} (hC : C.Valid) {s : Heap} {bl fl : List Nat} {x : Nat}
    (h : WFg C s bl fl) (hx : x ∈ fl) (hxa : rdAlloc s.mem x = 0)
    (hr : rdAlloc s.mem (x + rdSize s.mem x) = 0) :
    (∀ c ∈ 0 :: bl, c ≠ x → c ≠ x + rdSize s.mem x →
      Kept s.mem (free_block_right C s.mem x (x + rdSize s.mem x - 1) (rdSize s.mem x)) fl c) ∧
    (∀ j, x + 3 ≤ j → j < x + rdSize s.mem x →
      free_block_right C s.mem x (x + rdSize s.mem x - 1) (rdSize s.mem x) j = s.mem j) := by
  have hxb : x ∈ bl := h.free_mem_bl hx hxa
  have hx0 : x ∈ 0 :: bl := List.mem_cons_of_mem _ hxb
  have hxk := (h.tiling.mem_bounds hxb).2.2.1
  have hN := h.units_lt hC
  unfold MIN_BLOCK_SIZE at hxk
  obtain ⟨l1, l2, r0, hbl, -, -, -⟩ := h.free_right hC hx hxa hr
  set R := x + rdSize s.mem x with hR
  have hRbl : R ∈ bl := by rw [hbl]; simp
  have hR0 : R ∈ 0 :: bl := List.mem_cons_of_mem _ hRbl
  have hRfl : R ∈ fl := h.free_fl R hRbl hr
  have hRk := (h.tiling.mem_bounds hRbl).2.2.1
  have hRN := h.lt_units hR0
  unfold MIN_BLOCK_SIZE at hRk
  obtain ⟨r, hrot, hmemr⟩ := h.rotate hRfl
  have hRne0 : R ≠ 0 := by omega
  have h0r : 0 ∈ r := by
    have := hrot.dummy_mem
    simp only [List.mem_cons] at this
    rcases this with e | e
    · exact absurd e.symm hRne0
    · exact e
  have hne : r ≠ [] := List.ne_nil_of_mem h0r
  have hseg : Seg C s.mem (R :: r) R := hrot.cyc
  obtain ⟨hn, hp⟩ := hseg.ends hC hne
  have hpm := hrot.fl_sub _ (List.mem_cons_of_mem _ hp)
  have hnm := hrot.fl_sub _ (List.mem_cons_of_mem _ hn)
  have hpfl : rdP C s.mem (R + 1) ∈ fl := (hmemr _).1 (List.mem_cons_of_mem _ hp)
  have hnfl : rdP C s.mem (R + 2) ∈ fl := (hmemr _).1 (List.mem_cons_of_mem _ hn)
  have e1 : R - 1 + 1 = R := by omega
  have e2 : rdSize (unlink_from_flist C s.mem R) R = rdSize s.mem R := by
    have e3 := h.tiling0.link_ne_tag hpm hR0 2 (Or.inr rfl)
    have e4 := h.tiling0.link_ne_tag hnm hR0 1 (Or.inl rfl)
    exact rdSize_congr (unlink_from_flist_ne C s.mem R R e3.1 e4.1)
  have e5 := (h.tiling0.mem_bounds hpm).2.2.1
  have e6 := (h.tiling0.mem_bounds hnm).2.2.1
  unfold MIN_BLOCK_SIZE at e5 e6
  have hfr : free_block_right C s.mem x (R - 1) (rdSize s.mem x) =
      wrSize (wrSize (unlink_from_flist C s.mem R) (R + rdSize s.mem R - 1)
        (wrap (rdSize s.mem x + rdSize s.mem R))) x (wrap (rdSize s.mem x + rdSize s.mem R)) := by
    unfold free_block_right header_to_footer
    simp only []
    rw [e1, if_pos hr, e2]
  rw [hfr]
  constructor
  · intro c hc0 hcx hcR j hj1 hj2 hlk
    have c1 : j ≠ rdP C s.mem (R + 1) + 2 := by
      by_cases e : c = rdP C s.mem (R + 1)
      · have := hlk (e ▸ hpfl)
        rw [← e]; exact this.2
      · exact h.tiling0.cell_ne hc0 hpm e ⟨hj1, hj2⟩ (by omega)
    have c2 : j ≠ rdP C s.mem (R + 2) + 1 := by
      by_cases e : c = rdP C s.mem (R + 2)
      · have := hlk (e ▸ hnfl)
        rw [← e]; exact this.1
      · exact h.tiling0.cell_ne hc0 hnm e ⟨hj1, hj2⟩ (by omega)
    have c3 := h.tiling0.cell_ne hc0 hR0 hcR ⟨hj1, hj2⟩ (k := R + rdSize s.mem R - 1) (by omega)
    have c4 := h.tiling0.cell_ne hc0 hx0 hcx ⟨hj1, hj2⟩ (k := x) (by omega)
    rw [wrSize_ne _ _ _ _ c4, wrSize_ne _ _ _ _ c3]
    exact unlink_from_flist_ne C s.mem R j c1 c2
  · intro j hj1 hj2
    have c1 : j ≠ rdP C s.mem (R + 1) + 2 := by
      by_cases e : x = rdP C s.mem (R + 1)
      · omega
      · exact h.tiling0.cell_ne hx0 hpm e (j := j) ⟨by omega, hj2⟩ (by omega)
    have c2 : j ≠ rdP C s.mem (R + 2) + 1 := by
      by_cases e : x = rdP C s.mem (R + 2)
      · omega
      · exact h.tiling0.cell_ne hx0 hnm e (j := j) ⟨by omega, hj2⟩ (by omega)
    rw [wrSize_ne _ _ _ _ (by omega), wrSize_ne _ _ _ _ (by omega)]
    exact unlink_from_flist_ne C s.mem R j c1 c2

/-! ## `free_block`: the two halves, summarised -/

/-- Second half of `free_block` on the free block `x` of a well-formed heap. -/
theorem WFg.free_right_post {C : Config} (hC : C.Valid) {s : Heap} {bl fl : List Nat} {x : Nat}
    (h : WFg C s bl fl) (hx : x ∈ fl) (hxa : rdAlloc s.mem x = 0) (hfp : s.freep = some x) :
    ∃ bl2 fl2,
      WFg C { s with
        mem := free_block_right C s.mem x (x + rdSize s.mem x - 1) (rdSize s.mem x) } bl2 fl2 ∧
      x ∈ fl2 ∧
      rdAlloc (free_block_right C s.mem x (x + rdSize s.mem x - 1) (rdSize s.mem x)) x = 0 ∧
      rdSize (free_block_right C s.mem x (x + rdSize s.mem x - 1) (rdSize s.mem x)) x =
        rdSize s.mem x + (if rdAlloc s.mem (x + rdSize s.mem x) = 0
          then rdSize s.mem (x + rdSize s.mem x) else 0) ∧
      (∀ c ∈ 0 :: bl2, c ≠ x → c ∈ 0 :: bl ∧
        Kept s.mem (free_block_right C s.mem x (x + rdSize s.mem x - 1) (rdSize s.mem x)) fl c) ∧
      (∀ c ∈ bl, ¬ (rdAlloc s.mem (x + rdSize s.mem x) = 0 ∧ c = x + rdSize s.mem x) → c ∈ bl2) ∧
      (∀ c ∈ bl2, c ∈ bl) ∧
      (∀ y, y ∈ fl2 ↔ (y ∈ fl ∧
        ¬ (rdAlloc s.mem (x + rdSize s.mem x) = 0 ∧ y = x + rdSize s.mem x))) ∧
      (∀ j, x + 3 ≤ j → j < x + rdSize s.mem x →
        free_block_right C s.mem x (x + rdSize s.mem x - 1) (rdSize s.mem x) j = s.mem j) := by
  have hxb : x ∈ bl := h.free_mem_bl hx hxa
  have hxk := (h.tiling.mem_bounds hxb).2.2.1
  unfold MIN_BLOCK_SIZE at hxk
  by_cases hr : rdAlloc s.mem (x + rdSize s.mem x) = 0
  · obtain ⟨l1, l2, r, hbl, hmr, hsz, hwf⟩ := h.free_right hC hx hxa hr
    obtain ⟨hk1, hk2⟩ := h.free_right_frame hC hx hxa hr
    have hs1 : ∀ M : Nat → Nat, ({ s with mem := M, freep := some x } : Heap) = { s with mem := M } := by
      intro M
      cases s; simp only [Heap.mk.injEq, true_and] at hfp ⊢; simp [hfp]
    rw [hs1] at hwf
    have hxfl2 : x ∈ r := (hmr x).2 ⟨hx, by omega⟩
    refine ⟨_, _, hwf, hxfl2, ?_, ?_, ?_, ?_, ?_, ?_, hk2⟩
    · have := hwf.fl_free x hxfl2 (h.free_ne_zero hxa)
      exact this.2
    · rw [hsz, if_pos hr]
    · intro c hc hcx
      have hcR : c ≠ x + rdSize s.mem x := by
        intro e
        have hnd := h.tiling.nodup
        rw [hbl] at hnd
        have h5 := List.nodup_append.1 hnd
        have h6 := List.nodup_cons.1 h5.2.1
        have h7 := List.nodup_cons.1 h6.2
        simp only [List.mem_cons, List.mem_append] at hc
        rcases hc with e1 | e1 | e1 | e1
        · omega
        · exact h5.2.2 e1 (by simp [← e])
        · exact hcx e1
        · exact h7.1 (e ▸ e1)
      have hc0 : c ∈ 0 :: bl := by
        rw [hbl]
        simp only [List.mem_cons, List.mem_append] at hc ⊢
        tauto
      exact ⟨hc0, hk1 c hc0 hcx hcR⟩
    · intro c hc hne
      rw [hbl] at hc
      simp only [List.mem_cons, List.mem_append] at hc ⊢
      rcases hc with e1 | e1 | e1 | e1
      · exact Or.inl e1
      · exact Or.inr (Or.inl e1)
      · exact absurd ⟨hr, e1⟩ hne
      · exact Or.inr (Or.inr e1)
    · intro c hc
      rw [hbl]
      simp only [List.mem_cons, List.mem_append] at hc ⊢
      tauto
    · intro y
      rw [hmr y]
      constructor
      · rintro ⟨h1, h2⟩
        exact ⟨h1, fun hh => h2 hh.2⟩
      · rintro ⟨h1, h2⟩
        exact ⟨h1, fun hh => h2 ⟨hr, hh⟩⟩
  · have e1 : free_block_right C s.mem x (x + rdSize s.mem x - 1) (rdSize s.mem x) = s.mem := by
      rw [free_block_right_of_alloc]
      rw [show x + rdSize s.mem x - 1 + 1 = x + rdSize s.mem x by omega]
      exact hr
    rw [e1]
    refine ⟨bl, fl, h, hx, hxa, ?_, ?_, ?_, ?_, ?_, ?_⟩
    · rw [if_neg hr]; rfl
    · intro c hc _
      exact ⟨hc, fun j _ _ _ => rfl⟩
    · intro c hc _; exact hc
    · intro c hc; exact hc
    · intro y
      constructor
      · intro hy; exact ⟨hy, fun hh => hr hh.1⟩
      · intro hy; exact hy.1
    · intro j _ _; rfl

theorem Kept.congr_mem {m m1 : Nat → Nat} {fl fl1 : List Nat} {c : Nat} (h : Kept m m1 fl c)
    (hm : c ∈ fl → c ∈ fl1) : Kept m m1 fl1 c :=
  fun j h1 h2 h3 => h j h1 h2 (fun hc => h3 (hm hc))

/-- First half of `free_block` on the allocated block `b` of a well-formed
heap with cursor `fp`: the block `x` that `bp` ends up at is a free block of
a well-formed heap and ends where `b` ended. -/
theorem WFg.free_left_post {C : Config} (hC : C.Valid) {s : Heap} {bl fl : List Nat} {fp b : Nat}
    (h : WFg C s bl fl) (hfp : s.freep = some fp) (hb : b ∈ bl) (ha : rdAlloc s.mem b = 1) :
    ∃ bl1 fl1 x,
      (free_block_left C s.mem fp b).2.1 = x ∧
      (free_block_left C s.mem fp b).2.2 = rdSize (free_block_left C s.mem fp b).1 x ∧
      x + rdSize (free_block_left C s.mem fp b).1 x = b + rdSize s.mem b ∧
      WFg C { s with mem := (free_block_left C s.mem fp b).1, freep := some x } bl1 fl1 ∧
      x ∈ fl1 ∧ rdAlloc (free_block_left C s.mem fp b).1 x = 0 ∧
      x = (if rdAlloc s.mem (b - 1) = 0 then b - rdSize s.mem (b - 1) else b) ∧
      rdSize (free_block_left C s.mem fp b).1 x =
        (if rdAlloc s.mem (b - 1) = 0 then rdSize s.mem (b - 1) else 0) + rdSize s.mem b ∧
      rdAlloc (free_block_left C s.mem fp b).1 b = 0 ∧
      rdAlloc (free_block_left C s.mem fp b).1 (b + rdSize s.mem b - 1) = 0 ∧
      (b = x ∨ x + MIN_BLOCK_SIZE ≤ b) ∧
      (∀ c ∈ 0 :: bl1, c ≠ x → c ∈ 0 :: bl ∧ c ≠ b ∧
        Kept s.mem (free_block_left C s.mem fp b).1 fl c) ∧
      (∀ c ∈ bl, rdAlloc s.mem c = 1 → c ≠ b → c ∈ bl1) ∧ (∀ c ∈ bl1, c ∈ bl) ∧
      (∀ y, y ∈ fl1 ↔ (y = x ∨ y ∈ fl)) := by
  have hb0 : b ∈ 0 :: bl := List.mem_cons_of_mem _ hb
  have hb4 := (h.tiling.mem_bounds hb).1
  have hbk := (h.tiling.mem_bounds hb).2.2.1
  have hbN := h.lt_units hb0
  have hN := h.units_lt hC
  unfold MIN_BLOCK_SIZE at hb4 hbk
  have hfpm : fp ∈ fl := by
    obtain ⟨f, hf, hfm⟩ := h.cursor
    rw [hfp] at hf
    cases hf
    exact hfm
  by_cases hl : rdAlloc s.mem (b - 1) = 0
  · -- left merge
    obtain ⟨l1, l2, c, hbl, hcb, hsz, hca, hwf⟩ := h.free_merge hC fp hb ha hl
    have hfr := h.free_merge_frame hC fp hb ha hl
    have hc : c ∈ bl := by rw [hbl]; simp
    have hck := (h.tiling.mem_bounds hc).2.2.1
    unfold MIN_BLOCK_SIZE at hck
    have hcx : b - rdSize s.mem (b - 1) = c := by rw [hsz]; omega
    rw [hcx] at hfr
    have hcfl : c ∈ fl := h.free_fl c hc hca
    have heq := free_block_left_fst_of_merge C s.mem fp b hl (by omega)
      (by unfold header_to_footer; omega)
    rw [hsz, show b - rdSize s.mem c = c by omega, wrap_of_lt (by omega)] at heq
    unfold header_to_footer at heq
    have hm1 : (free_block_left C s.mem fp b).1 =
        wrSize (wrSize (wrAlloc (wrAlloc s.mem (b + rdSize s.mem b - 1) 0) b 0)
          (b + rdSize s.mem b - 1) (rdSize s.mem b + rdSize s.mem c)) c
          (rdSize s.mem b + rdSize s.mem c) := by rw [heq]
    have hsx : rdSize (free_block_left C s.mem fp b).1 c = rdSize s.mem b + rdSize s.mem c := by
      rw [hm1, rdSize_wrSize_same _ _ _ (by omega)]
    have hnd := h.tiling.nodup
    rw [hbl] at hnd
    have h5 := List.nodup_append.1 hnd
    have h6 := List.nodup_cons.1 h5.2.1
    have h7 := List.nodup_cons.1 h6.2
    refine ⟨l1 ++ c :: l2, fl, c, by rw [heq], ?_, ?_, hwf, hcfl, ?_, ?_, ?_, ?_, ?_,
      Or.inr (by unfold MIN_BLOCK_SIZE; omega), ?_, ?_, ?_, ?_⟩
    · rw [hsx, heq]
    · rw [hsx]; omega
    · exact (hwf.fl_free c hcfl (h.free_ne_zero hca)).2
    · rw [if_pos hl, hcx]
    · rw [hsx, if_pos hl, hsz]; omega
    · rw [hm1, rdAlloc_wrSize, rdAlloc_wrSize, rdAlloc_wrAlloc, if_pos rfl]
    · rw [hm1, rdAlloc_wrSize, rdAlloc_wrSize, rdAlloc_wrAlloc, rdAlloc_wrAlloc]
      simp
    · intro y hy hyc
      have hyb : y ≠ b := by
        intro e
        simp only [List.mem_cons, List.mem_append] at hy
        rcases hy with e1 | e1 | e1 | e1
        · omega
        · exact h5.2.2 e1 (by simp [← e])
        · exact hyc e1
        · exact h7.1 (e ▸ e1)
      have hy0 : y ∈ 0 :: bl := by
        rw [hbl]
        simp only [List.mem_cons, List.mem_append] at hy ⊢
        tauto
      exact ⟨hy0, hyb, (hfr y hy0 hyb hyc).kept fl⟩
    · intro y hy _ hyb
      rw [hbl] at hy
      simp only [List.mem_cons, List.mem_append] at hy ⊢
      rcases hy with e1 | e1 | e1 | e1
      · exact Or.inl e1
      · exact Or.inr (Or.inl e1)
      · exact absurd e1 hyb
      · exact Or.inr (Or.inr e1)
    · intro y hy
      rw [hbl]
      simp only [List.mem_cons, List.mem_append] at hy ⊢
      tauto
    · intro y
      constructor
      · exact fun hy => Or.inr hy
      · rintro (e | e)
        · exact e ▸ hcfl
        · exact e
  · -- link after the cursor
    obtain ⟨r, hrot, hmemr⟩ := h.rotate hfpm
    have hwf := hrot.free_link hC hb ha hl
    have hfr := hrot.free_link_frame hC hb hl
    have heq := free_block_left_fst_of_link C s.mem fp b hl (by omega)
      (by unfold header_to_footer; omega)
    have hbfl : b ∈ fp :: b :: r := by simp
    have hk := hwf.fl_free b hbfl (by omega)
    have hsb : rdSize (free_block_left C s.mem fp b).1 b = rdSize s.mem b := by
      have e1 := (hwf.tiling.mem_bounds hb).2.2
      -- the size of `b` is not written: compare through the link case memory
      rw [heq]
      simp only []
      have e2 := hrot.tiling0.link_ne_tag hb0 hb0 1 (Or.inl rfl)
      have e3 := hrot.tiling0.link_ne_tag hb0 hb0 2 (Or.inr rfl)
      have hfm := hrot.fl_sub fp (List.mem_cons_self _ _)
      have e4 := hrot.tiling0.link_ne_tag hfm hb0 2 (Or.inr rfl)
      set m1 := wrAlloc (wrAlloc s.mem (header_to_footer s.mem b) 0) b 0 with hm1
      have hseg : Seg C s.mem (fp :: r) fp := hrot.cyc
      have hM1 : m1 (fp + 2) = s.mem (fp + 2) := by
        rw [hm1, wrAlloc_ne _ _ _ _ (Ne.symm e4.1), wrAlloc_ne _ _ _ _ (by
          unfold header_to_footer; exact Ne.symm e4.2)]
      have hnx : rdP C m1 (fp + 2) ∈ fp :: r := by
        rw [rdP_congr C hM1, hseg.1.rdP hC]
        cases r <;> simp
      have e5 := hrot.tiling0.link_ne_tag (hrot.fl_sub _ hnx) hb0 1 (Or.inl rfl)
      rw [rdSize_congr (link_to_flist_ne C m1 fp b b e2.1 e3.1 e5.1 e4.1), hm1, rdSize_wrAlloc,
        rdSize_wrAlloc]
    refine ⟨bl, fp :: b :: r, b, by rw [heq], ?_, ?_, hwf, hbfl, hk.2, ?_, ?_, hk.2, ?_,
      Or.inl rfl, ?_, ?_, ?_, ?_⟩
    · rw [hsb, heq]
    · rw [hsb]
    · rw [if_neg hl]
    · rw [hsb, if_neg hl]; omega
    · -- the footer flag
      rw [heq]
      simp only []
      have e2 := hrot.tiling0.link_ne_tag hb0 hb0 1 (Or.inl rfl)
      have e3 := hrot.tiling0.link_ne_tag hb0 hb0 2 (Or.inr rfl)
      have hfm := hrot.fl_sub fp (List.mem_cons_self _ _)
      have e4 := hrot.tiling0.link_ne_tag hfm hb0 2 (Or.inr rfl)
      set m1 := wrAlloc (wrAlloc s.mem (header_to_footer s.mem b) 0) b 0 with hm1
      have hseg : Seg C s.mem (fp :: r) fp := hrot.cyc
      have hM1 : m1 (fp + 2) = s.mem (fp + 2) := by
        rw [hm1, wrAlloc_ne _ _ _ _ (Ne.symm e4.1), wrAlloc_ne _ _ _ _ (by
          unfold header_to_footer; exact Ne.symm e4.2)]
      have hnx : rdP C m1 (fp + 2) ∈ fp :: r := by
        rw [rdP_congr C hM1, hseg.1.rdP hC]
        cases r <;> simp
      have e5 := hrot.tiling0.link_ne_tag (hrot.fl_sub _ hnx) hb0 1 (Or.inl rfl)
      rw [rdAlloc_congr (link_to_flist_ne C m1 fp b _ e2.2 e3.2 e5.2 e4.2), hm1, rdAlloc_wrAlloc,
        rdAlloc_wrAlloc]
      unfold header_to_footer
      simp
    · intro y hy hyb
      exact ⟨hy, hyb, (hfr y hy hyb).congr_mem (fun hh => (hmemr y).1 hh)⟩
    · intro y hy _ _; exact hy
    · intro y hy; exact hy
    · intro y
      rw [← hmemr y]
      simp only [List.mem_cons]
      tauto

/-! ## `free_block` -/

theorem Kept.trans_kept {m m1 m2 : Nat → Nat} {fl fl1 : List Nat} {c : Nat} (h : Kept m m1 fl c)
    (h1 : Kept m1 m2 fl1 c) (hk : 1 ≤ rdSize m c) (hm : c ∈ fl1 → c ∈ fl) : Kept m m2 fl c := by
  intro j hj1 hj2 hj3
  have e : rdSize m1 c = rdSize m c :=
    rdSize_congr (h c (by omega) (by omega) (fun _ => by omega))
  rw [h1 j hj1 (by rw [e]; exact hj2) (fun hc => hj3 (hm hc)), h j hj1 hj2 hj3]

theorem free_block_eq (C : Config) (s : Heap) (fp b : Nat) (hfp : s.freep = some fp) :
    free_block C s b =
      { s with
        mem := free_block_right C (free_block_left C s.mem fp b).1 (free_block_left C s.mem fp b).2.1
          (header_to_footer s.mem b) (free_block_left C s.mem fp b).2.2,
        freep := some (free_block_left C s.mem fp b).2.1 } := by
  unfold free_block
  rw [hfp]

/-- `free_block` on an allocated block of a well-formed heap. -/
theorem WFg.free_block {C : Config} (hC : C.Valid) {s : Heap} {bl fl : List Nat} {b : Nat}
    (h : WFg C s bl fl) (hb : b ∈ bl) (ha : rdAlloc s.mem b = 1) :
    ∃ bl1 fl1 x, FreePost C s (free_block C s b) bl fl bl1 fl1 b x := by
  obtain ⟨fp, hfp, hfpm⟩ := h.cursor
  obtain ⟨bl1, fl1, x, e1, e2, e3, hwf1, hx1, hxa1, hxeq, hxs1, hhdr1, hftr1, hbx, hkept1, ham1,
    hsub1, hfl1⟩ := h.free_left_post hC hfp hb ha
  have hb0 : b ∈ 0 :: bl := List.mem_cons_of_mem _ hb
  have hbk := (h.tiling.mem_bounds hb).2.2.1
  have hb4 := (h.tiling.mem_bounds hb).1
  unfold MIN_BLOCK_SIZE at hbk hb4 hbx
  set m1 := (free_block_left C s.mem fp b).1 with hm1
  obtain ⟨bl2, fl2, hwf2, hx2, hxa2, hxs2, hkept2, ham2, hsub2, hfl2, hint2⟩ :=
    hwf1.free_right_post hC hx1 hxa1 rfl
  dsimp only at hwf2 hxa2 hxs2 hkept2 hfl2 ham2 hint2
  set M := free_block_right C m1 x (x + rdSize m1 x - 1) (rdSize m1 x) with hM
  have hft : header_to_footer s.mem b = x + rdSize m1 x - 1 := by
    unfold header_to_footer; omega
  have hfb : HeapAllocator.free_block C s b = { s with mem := M, freep := some x } := by
    rw [free_block_eq C s fp b hfp, e1, e2, hft]
  rw [hfb]
  have hxb1 : x ∈ bl1 := hwf1.free_mem_bl hx1 hxa1
  have hxk1 := (hwf1.tiling.mem_bounds hxb1).2.2.1
  unfold MIN_BLOCK_SIZE at hxk1
  -- the unit after the released block is not written by the first half
  have hR : rdAlloc m1 (b + rdSize s.mem b) = rdAlloc s.mem (b + rdSize s.mem b) ∧
      (rdAlloc s.mem (b + rdSize s.mem b) = 0 →
        rdSize m1 (b + rdSize s.mem b) = rdSize s.mem (b + rdSize s.mem b)) := by
    rcases hwf1.tiling.right_neighbour hxb1 with e | ⟨l1, l2, e⟩
    · have e4 : b + rdSize s.mem b = s.units C - 1 := by
        rw [← e3]; exact e
      rw [e4]
      have t1 := hwf1.tail.1
      have t2 := h.tail.1
      have t1 : rdAlloc m1 (s.units C - 1) = 1 := t1
      rw [t1, t2]
      exact ⟨rfl, fun hh => by omega⟩
    · have hRm : b + rdSize s.mem b ∈ 0 :: bl1 := by
        rw [e, ← e3]
        show x + rdSize m1 x ∈ 0 :: (l1 ++ x :: (x + rdSize m1 x) :: l2)
        simp
      obtain ⟨hR0, -, hRk⟩ := hkept1 _ hRm (by omega)
      have := hRk (b + rdSize s.mem b) (Nat.le_refl _) (by
        have := (h.tiling0.mem_bounds hR0).2.2.1
        unfold MIN_BLOCK_SIZE at this
        omega) (fun _ => by omega)
      exact ⟨rdAlloc_congr this, fun _ => rdSize_congr this⟩
  rw [e3] at hxs2 hfl2 ham2
  rw [hR.1] at hxs2 hfl2 ham2
  refine ⟨bl2, fl2, x, ?_⟩
  refine
    { wf := ?_
      cursor := rfl
      x_mem := hx2
      x_free := hxa2
      x_eq := hxeq
      x_size := ?_
      covers := ?_
      hdr_free := ?_
      ftr_free := ?_
      kept := ?_
      alloc_mem := ?_
      sub := fun c hc => hsub1 c (hsub2 c hc)
      fl_mem := ?_
      brk := rfl
      errno := rfl }
  · exact hwf2
  · show rdSize M x = _
    rw [hxs2, hxs1]
    by_cases hr : rdAlloc s.mem (b + rdSize s.mem b) = 0
    · rw [if_pos hr, if_pos hr, hR.2 hr]
    · rw [if_neg hr, if_neg hr]
  · show x ≤ b ∧ b + rdSize s.mem b ≤ x + rdSize M x
    rw [hxs2]
    omega
  · show rdAlloc M b = 0
    rcases hbx with e | e
    · rw [e]; exact hxa2
    · rw [rdAlloc_congr (hint2 b (by omega) (by omega))]
      exact hhdr1
  · show rdAlloc M (b + rdSize s.mem b - 1) = 0
    rw [rdAlloc_congr (hint2 _ (by omega) (by omega))]
    exact hftr1
  · intro c hc hcx
    obtain ⟨hc1, hk2⟩ := hkept2 c hc hcx
    obtain ⟨hc0, hcb, hk1⟩ := hkept1 c hc1 hcx
    refine ⟨hc0, hcb, hk1.trans_kept hk2 ?_ ?_⟩
    · have := (h.tiling0.mem_bounds hc0).2.2.1
      unfold MIN_BLOCK_SIZE at this
      omega
    · intro hh
      rcases (hfl1 c).1 hh with e | e
      · exact absurd e hcx
      · exact e
  · intro c hc hca hcb
    refine ham2 c (ham1 c hc hca hcb) ?_
    rintro ⟨hr, rfl⟩
    omega
  · intro y
    rw [hfl2 y, hfl1 y]
    constructor
    · rintro ⟨e | e, hn⟩
      · exact Or.inl e
      · exact Or.inr ⟨e, hn⟩
    · rintro (e | ⟨e, hn⟩)
      · refine ⟨Or.inl e, ?_⟩
        rintro ⟨-, e5⟩
        omega
      · exact ⟨Or.inr e, hn⟩

/-! ## `extend_heap` -/

theorem set_is_alloc_set_is_alloc (w a b : Nat) :
    set_is_alloc (set_is_alloc w a) b = set_is_alloc w b := by
  unfold set_is_alloc; omega

theorem wrAlloc_congr_marked (m : Nat → Nat) (f b : Nat) :
    wrAlloc (wrAlloc (wrAlloc (wrAlloc m f 1) b 1) f 0) b 0 = wrAlloc (wrAlloc m f 0) b 0 := by
  funext j
  unfold wrAlloc
  by_cases h1 : j = b <;> by_cases h2 : j = f <;> by_cases h3 : b = f <;>
    simp [h1, h2, h3, set_is_alloc_set_is_alloc]
  all_goals simp_all [set_is_alloc_set_is_alloc]

/-- `free_block` starts by marking the block free, so it does the same on a
block that is marked allocated as on one that is not. -/
theorem free_block_marked (C : Config) (s : Heap) (fp b : Nat) (hfp : s.freep = some fp) :
    free_block C { s with mem := wrAlloc (wrAlloc s.mem (header_to_footer s.mem b) 1) b 1 } b =
      free_block C s b := by
  have hs : ∀ j, rdSize (wrAlloc (wrAlloc s.mem (header_to_footer s.mem b) 1) b 1) j =
      rdSize s.mem j := fun j => by rw [rdSize_wrAlloc, rdSize_wrAlloc]
  have hf : header_to_footer (wrAlloc (wrAlloc s.mem (header_to_footer s.mem b) 1) b 1) b =
      header_to_footer s.mem b := by
    show b + rdSize (wrAlloc (wrAlloc s.mem (header_to_footer s.mem b) 1) b 1) b - 1 = _
    rw [hs]; rfl
  have hl : free_block_left C (wrAlloc (wrAlloc s.mem (header_to_footer s.mem b) 1) b 1) fp b =
      free_block_left C s.mem fp b := by
    unfold free_block_left
    simp only [hf, hs, wrAlloc_congr_marked]
  rw [free_block_eq C s fp b hfp]
  rw [free_block_eq C { s with mem := wrAlloc (wrAlloc s.mem (header_to_footer s.mem b) 1) b 1 }
    fp b hfp]
  simp only [hl, hf]

theorem ap_to_bp_brk {C : Config} (hC : C.Valid) (N : Nat) (hN : 1 ≤ N) :
    ap_to_bp C (C.lo + N * C.unit) = N - 1 := by
  unfold ap_to_bp nodeOfAddr
  have hu := hC.unit_pos
  have e : C.lo + N * C.unit - C.unit - C.lo = (N - 1) * C.unit := by
    rw [Nat.sub_mul, Nat.one_mul]
    have : C.unit ≤ N * C.unit := Nat.le_mul_of_pos_left _ hN
    omega
  rw [e]
  exact Nat.mul_div_cancel _ hu

theorem units_grow {C : Config} (hC : C.Valid) (N k : Nat) :
    (N * C.unit + k * C.unit) / C.unit = N + k := by
  rw [← Nat.add_mul]
  exact Nat.mul_div_cancel _ hC.unit_pos

/-- Number of units `extend_heap` asks the provider for. -/
theorem extend_units_bytes {C : Config} (n : Nat) (hnu : n * C.unit < WORD) :
    (if n < byte_to_unit C C.pagesize then byte_to_unit C C.pagesize else n) * C.unit < WORD := by
  split_ifs
  · unfold byte_to_unit wrap
    have h1 := Nat.div_mul_le_self ((C.pagesize + C.unit - 1) % WORD) C.unit
    have h2 : (C.pagesize + C.unit - 1) % WORD < WORD := Nat.mod_lt _ (by unfold WORD; norm_num)
    omega
  · exact hnu

/-- A successful `extend_heap`: the region grows by `k` units, which are
formatted as one block in place of the old tail sentinel, and that block is
released with `free_block`.  The state `s0` is the grown heap with the new
block still marked allocated. -/
theorem WFg.extend_grow {C : Config} (hC : C.Valid) {s : Heap} {bl fl : List Nat} {n k : Nat}
    (h : WFg C s bl fl) (hn : MIN_BLOCK_SIZE ≤ n) (hnu : n * C.unit < WORD)
    (hk : k = if n < byte_to_unit C C.pagesize then byte_to_unit C C.pagesize else n)
    (hgrow : s.brk + k * C.unit ≤ C.limit) :
    ∃ s0, WFg C s0 (bl ++ [s.units C - 1]) fl ∧ rdAlloc s0.mem (s.units C - 1) = 1 ∧
      rdSize s0.mem (s.units C - 1) = k ∧ s0.brk = s.brk + k * C.unit ∧
      s0.freep = s.freep ∧ s0.errno = s.errno ∧
      (∀ j, j < s.units C - 1 → s0.mem j = s.mem j) ∧
      extend_heap C s n =
        some (HeapAllocator.free_block C s0 (s.units C - 1),
          (HeapAllocator.free_block C s0 (s.units C - 1)).freep) := by
  have hkw : k * C.unit < WORD := by rw [hk]; exact extend_units_bytes n hnu
  have hu := h.units_ge
  have hbrk := h.brk_eq
  set N := s.units C with hNd
  have hN' : (s.brk + k * C.unit) / C.unit = N + k := by
    rw [hbrk]; exact units_grow hC N k
  have hNk : N + k < 2 ^ 61 := by
    have h1 := hC.fits
    have h2 := hC.unit_ge
    have h3 := hC.lo_pos
    have h4 : (N + k) * 8 ≤ (N + k) * C.unit := Nat.mul_le_mul_left _ h2
    have h5 : (N + k) * C.unit = s.brk + k * C.unit := by rw [Nat.add_mul, ← hbrk]
    unfold WORD at h1
    omega
  have hk4 : 4 ≤ k := by
    unfold MIN_BLOCK_SIZE at hn
    rw [hk]; split_ifs <;> omega
  obtain ⟨fp, hfp, hfpm⟩ := h.cursor
  -- the memory `extend_heap` hands to `free_block`
  set m5 := wrSize (wrAlloc (wrAlloc (wrAlloc (wrSize (wrSize s.mem (N - 1) k) (N - 1 + k - 1) k)
    (N - 1 + k - 1) 0) (N - 1) 0) (N - 1 + k) 1) (N - 1 + k) 1 with hm5
  have hext : extend_heap C s n =
      some (HeapAllocator.free_block C { s with mem := m5, brk := s.brk + k * C.unit } (N - 1),
        (HeapAllocator.free_block C { s with mem := m5, brk := s.brk + k * C.unit } (N - 1)).freep) := by
    unfold extend_heap mem_sbrk unit_to_byte
    simp only []
    rw [← hk, wrap_of_lt hkw, if_pos hgrow]
    simp only []
    rw [if_neg (by omega), hbrk, ap_to_bp_brk hC N (by omega)]
    unfold header_to_footer
    rw [rdSize_wrSize_same _ _ _ (by omega)]
  have hS5 : ∀ j, rdSize m5 j =
      if j = N - 1 + k then 1 else if j = N - 1 ∨ j = N - 1 + k - 1 then k else rdSize s.mem j := by
    intro j
    rw [hm5]
    simp only [rdSize_wrSize, rdSize_wrAlloc, mod63_of_lt (show k < 2 ^ 63 by omega)]
    split_ifs <;> first | rfl | omega
  have hA5 : ∀ j, rdAlloc m5 j =
      if j = N - 1 + k then 1 else if j = N - 1 ∨ j = N - 1 + k - 1 then 0 else rdAlloc s.mem j := by
    intro j
    rw [hm5]
    simp only [rdAlloc_wrSize, rdAlloc_wrAlloc]
    split_ifs <;> first | rfl | omega
  have hM5 : ∀ j, j < N - 1 → m5 j = s.mem j := by
    intro j hj
    rw [hm5, wrSize_ne _ _ _ _ (by omega), wrAlloc_ne _ _ _ _ (by omega),
      wrAlloc_ne _ _ _ _ (by omega), wrAlloc_ne _ _ _ _ (by omega), wrSize_ne _ _ _ _ (by omega),
      wrSize_ne _ _ _ _ (by omega)]
  have hf5 : header_to_footer m5 (N - 1) = N - 1 + k - 1 := by
    unfold header_to_footer
    rw [hS5, if_neg (by omega), if_pos (Or.inl rfl)]
  set m6 := wrAlloc (wrAlloc m5 (N - 1 + k - 1) 1) (N - 1) 1 with hm6
  have hmark := free_block_marked C { s with mem := m5, brk := s.brk + k * C.unit } fp (N - 1) hfp
  simp only [hf5] at hmark
  rw [← hmark] at hext
  have hS6 : ∀ j, rdSize m6 j =
      if j = N - 1 + k then 1 else if j = N - 1 ∨ j = N - 1 + k - 1 then k else rdSize s.mem j := by
    intro j; rw [hm6, rdSize_wrAlloc, rdSize_wrAlloc, hS5]
  have hA6 : ∀ j, rdAlloc m6 j =
      if j = N - 1 + k ∨ j = N - 1 ∨ j = N - 1 + k - 1 then 1 else rdAlloc s.mem j := by
    intro j
    rw [hm6, rdAlloc_wrAlloc, rdAlloc_wrAlloc, hA5]
    split_ifs <;> first | rfl | omega
  have hM6 : ∀ j, j < N - 1 → m6 j = s.mem j := by
    intro j hj
    rw [hm6, wrAlloc_ne _ _ _ _ (by omega), wrAlloc_ne _ _ _ _ (by omega)]
    exact hM5 j hj
  refine ⟨{ s with mem := m6, brk := s.brk + k * C.unit }, ?_, ?_, ?_, rfl, rfl, rfl, hM6, hext⟩
  · have hlt : ∀ x ∈ 0 :: bl, x + rdSize s.mem x ≤ N - 1 := fun x hx => h.lt_units hx
    have tags : ∀ c ∈ 0 :: bl, SameTags s.mem m6 c := by
      intro c hc
      have := hlt c hc
      have hc4 := (h.tiling0.mem_bounds hc).2.2.1
      unfold MIN_BLOCK_SIZE at hc4
      exact SameTags.of_eq (hM6 c (by omega)) (hM6 _ (by omega))
    refine
      { units_ge := ?_
        brk_eq := ?_
        brk_le := hgrow
        dummy_hdr := ?_
        dummy_ftr := ?_
        tail := ?_
        tiling := ?_
        cursor := ⟨fp, hfp, hfpm⟩
        cyc := ?_
        nodup := h.nodup
        dummy_mem := h.dummy_mem
        fl_free := ?_
        free_fl := ?_ }
    · show 5 ≤ (s.brk + k * C.unit) / C.unit
      rw [hN']; omega
    · show s.brk + k * C.unit = (s.brk + k * C.unit) / C.unit * C.unit
      rw [hN', Nat.add_mul, ← hbrk]
    · show rdAlloc m6 0 = 1 ∧ rdSize m6 0 = MIN_BLOCK_SIZE
      rw [rdAlloc_congr (hM6 0 (by omega)), rdSize_congr (hM6 0 (by omega))]
      exact h.dummy_hdr
    · show rdAlloc m6 3 = 1 ∧ rdSize m6 3 = MIN_BLOCK_SIZE
      rw [rdAlloc_congr (hM6 3 (by omega)), rdSize_congr (hM6 3 (by omega))]
      exact h.dummy_ftr
    · show rdAlloc m6 ((s.brk + k * C.unit) / C.unit - 1) = 1 ∧
        rdSize m6 ((s.brk + k * C.unit) / C.unit - 1) = 1
      rw [hN', show N + k - 1 = N - 1 + k by omega, hA6, hS6, if_pos (Or.inl rfl), if_pos rfl]
      exact ⟨rfl, rfl⟩
    · show Tiling m6 MIN_BLOCK_SIZE (bl ++ [N - 1]) ((s.brk + k * C.unit) / C.unit - 1)
      rw [hN']
      refine Tiling.append_iff.2 ⟨N - 1, ?_, ?_⟩
      · exact Tiling.tiling_congr (fun c hc => tags c (List.mem_cons_of_mem _ hc)) h.tiling
      · have s1 : rdSize m6 (N - 1) = k := by
          rw [hS6, if_neg (by omega), if_pos (Or.inl rfl)]
        refine ⟨rfl, ⟨?_, ?_, ?_⟩, ?_⟩
        · rw [s1]; exact hk4
        · rw [s1, hS6, if_neg (by omega), if_pos (Or.inr rfl)]
        · intro _; rw [s1, hA6, if_pos (Or.inr (Or.inr rfl))]
        · rw [s1]; show N - 1 + k = N + k - 1; omega
    · show Seg C m6 fl (fl.headD 0)
      have links : ∀ x ∈ fl, m6 (x + 1) = s.mem (x + 1) ∧ m6 (x + 2) = s.mem (x + 2) := by
        intro x hx
        have := hlt x (h.fl_sub x hx)
        have hc4 := (h.tiling0.mem_bounds (h.fl_sub x hx)).2.2.1
        unfold MIN_BLOCK_SIZE at hc4
        exact ⟨hM6 _ (by omega), hM6 _ (by omega)⟩
      have hhd : fl ≠ [] → fl.headD 0 ∈ fl := by
        intro hne; cases fl with
        | nil => exact absurd rfl hne
        | cons y l => simp
      exact Seg.seg_congr (fun x hx => (links x hx).2)
        (fun y hy => (links y (List.mem_of_mem_tail hy)).1)
        (fun hne => (links _ (hhd hne)).1) h.cyc
    · intro x hx hx0
      have h1 := h.fl_free x hx hx0
      refine ⟨List.mem_append_left _ h1.1, ?_⟩
      show rdAlloc m6 x = 0
      rw [(tags x (h.fl_sub x hx)).2.1]; exact h1.2
    · intro c hc hca
      have hca : rdAlloc m6 c = 0 := hca
      rcases List.mem_append.1 hc with e | e
      · rw [(tags c (List.mem_cons_of_mem _ e)).2.1] at hca
        exact h.free_fl c e hca
      · simp only [List.mem_singleton] at e
        rw [e, hA6, if_pos (Or.inr (Or.inl rfl))] at hca
        omega
  · show rdAlloc m6 (N - 1) = 1
    rw [hA6, if_pos (Or.inr (Or.inl rfl))]
  · show rdSize m6 (N - 1) = k
    rw [hS6, if_neg (by omega), if_pos (Or.inl rfl)]

/-- A refused `extend_heap` changes `errno` at most. -/
theorem extend_heap_fail (C : Config) (s : Heap) (n : Nat)
    (h : ¬ s.brk + unit_to_byte C
      (if n < byte_to_unit C C.pagesize then byte_to_unit C C.pagesize else n) ≤ C.limit) :
    extend_heap C s n = some ({ s with errno := C.sbrkErrno s.errno }, none) := by
  unfold extend_heap mem_sbrk
  simp only []
  rw [if_neg h]

/-! ## `get_block`: the search -/

theorem get_block_loop_split (C : Config) (n fuel : Nat) (s : Heap) (bp : Nat)
    (ha : rdAlloc s.mem bp = 0) (hsz : n + MIN_BLOCK_SIZE ≤ rdSize s.mem bp) :
    get_block_loop C n (fuel + 1) s bp =
      some ({ s with mem := (get_block_split s.mem bp n).1 }, some (get_block_split s.mem bp n).2) := by
  have hlt := rdSize_lt s.mem bp
  unfold MIN_BLOCK_SIZE at hsz
  unfold get_block_loop
  rw [if_pos ⟨ha, by omega⟩, wrap_of_lt (by unfold MIN_BLOCK_SIZE; omega),
    if_pos (by unfold MIN_BLOCK_SIZE; omega)]

theorem get_block_loop_take (C : Config) (n fuel : Nat) (s : Heap) (bp : Nat)
    (ha : rdAlloc s.mem bp = 0) (hn : n ≤ rdSize s.mem bp)
    (hsz : rdSize s.mem bp < n + MIN_BLOCK_SIZE) :
    get_block_loop C n (fuel + 1) s bp = some (get_block_take C s bp, some bp) := by
  have hlt := rdSize_lt s.mem bp
  unfold MIN_BLOCK_SIZE at hsz
  unfold get_block_loop
  rw [if_pos ⟨ha, hn⟩, wrap_of_lt (by unfold MIN_BLOCK_SIZE; omega),
    if_neg (by unfold MIN_BLOCK_SIZE; omega)]

/-- The search at a free block that fits: it returns at once, by a split or by
taking the whole block. -/
theorem WFg.get_fit {C : Config} (hC : C.Valid) {s : Heap} {bl fl : List Nat} {n x : Nat}
    (h : WFg C s bl fl) (hx : x ∈ fl) (ha : rdAlloc s.mem x = 0) (hn : MIN_BLOCK_SIZE ≤ n)
    (hfit : n ≤ rdSize s.mem x) (fuel : Nat) :
    ∃ t b bl1 fl1, get_block_loop C n (fuel + 1) s x = some (t, some b) ∧
      AllocPost C s t bl bl1 fl1 n b ∧ t.brk = s.brk := by
  have hxb : x ∈ bl := h.free_mem_bl hx ha
  have hx0 : x ∈ 0 :: bl := List.mem_cons_of_mem _ hxb
  have hxk := (h.tiling.mem_bounds hxb).2.2.1
  have hx4 := (h.tiling.mem_bounds hxb).1
  have hn4 := hn
  unfold MIN_BLOCK_SIZE at hxk hx4 hn4
  have hne : ∀ c ∈ bl, rdAlloc s.mem c = 1 → c ≠ x := by
    intro c _ hc e
    rw [e] at hc; omega
  by_cases hsz : n + MIN_BLOCK_SIZE ≤ rdSize s.mem x
  · -- split
    obtain ⟨l1, l2, hbl, hwf⟩ := h.split hx ha hn hsz
    have hfr := h.split_frame hx hn hsz
    unfold MIN_BLOCK_SIZE at hsz
    obtain ⟨hb, hS, hA, -⟩ := get_block_split_spec s.mem x n _ rfl (by omega) (by omega)
    refine ⟨_, _, l1 ++ x :: (x + (rdSize s.mem x - n)) :: l2, fl,
      get_block_loop_split C n fuel s x ha hsz, ?_, rfl⟩
    rw [hb]
    set d := rdSize s.mem x - n with hd
    refine
      { wf := hwf
        b_mem := by simp
        b_alloc := ?_
        b_size := ?_
        b_new := ?_
        kept := ?_
        alloc_old := ?_
        brk_le := Nat.le_refl _
        errno := rfl }
    · show rdAlloc (get_block_split s.mem x n).1 (x + d) = 1
      rw [hA, if_pos (Or.inl rfl)]
    · show n ≤ rdSize (get_block_split s.mem x n).1 (x + d) ∧
        rdSize (get_block_split s.mem x n).1 (x + d) < n + MIN_BLOCK_SIZE
      rw [hS, if_pos (Or.inl rfl)]
      unfold MIN_BLOCK_SIZE; omega
    · intro c hc hca e
      have := h.tiling.disjoint hc hxb (hne c hc hca)
      have hck := (h.tiling.mem_bounds hc).2.2.1
      unfold MIN_BLOCK_SIZE at hck
      omega
    · intro c hc hca
      refine ⟨?_, hfr c (List.mem_cons_of_mem _ hc) (hne c hc hca)⟩
      rw [hbl] at hc
      simp only [List.mem_append, List.mem_cons] at hc ⊢
      tauto
    · intro c hc hca hcb
      have hca : rdAlloc (get_block_split s.mem x n).1 c = 1 := hca
      have hcx : c ≠ x := by
        rintro rfl
        rw [hA, if_neg (by omega), ha] at hca
        omega
      have hc1 : c ∈ bl := by
        rw [hbl]
        simp only [List.mem_append, List.mem_cons] at hc ⊢
        tauto
      refine ⟨hc1, ?_⟩
      have hck := (h.tiling.mem_bounds hc1).2.2.1
      rw [← ((hfr c (List.mem_cons_of_mem _ hc1) hcx).same_tags hck).2.1]
      exact hca
  · -- whole block
    have hsz : rdSize s.mem x < n + MIN_BLOCK_SIZE := by omega
    obtain ⟨r, hrot, hmemr⟩ := h.rotate hx
    have hwf := hrot.take hC ha
    have hfr := hrot.take_frame hC ha
    refine ⟨_, _, bl, r, get_block_loop_take C n fuel s x ha hfit hsz, ?_, rfl⟩
    have hAx : rdAlloc (get_block_take C s x).mem x = 1 := by
      unfold get_block_take
      simp only []
      rw [rdAlloc_wrAlloc, if_pos rfl]
    have hSx : rdSize (get_block_take C s x).mem x = rdSize s.mem x := by
      have hb0 : x ≠ 0 := h.free_ne_zero ha
      have h0r : 0 ∈ r := by
        have := hrot.dummy_mem
        simp only [List.mem_cons] at this
        rcases this with e | e
        · exact absurd e.symm hb0
        · exact e
      have hseg : Seg C s.mem (x :: r) x := hrot.cyc
      obtain ⟨hn1, hp1⟩ := hseg.ends hC (List.ne_nil_of_mem h0r)
      have hpm := hrot.fl_sub _ (List.mem_cons_of_mem _ hp1)
      have hnm := hrot.fl_sub _ (List.mem_cons_of_mem _ hn1)
      have e4 := h.tiling0.link_ne_tag hpm hx0 2 (Or.inr rfl)
      have e5 := h.tiling0.link_ne_tag hnm hx0 1 (Or.inl rfl)
      unfold get_block_take
      simp only []
      rw [rdSize_wrAlloc, rdSize_wrAlloc]
      exact rdSize_congr (unlink_from_flist_ne C s.mem x x e4.1 e5.1)
    have hun : ∀ c ∈ bl, rdAlloc s.mem c = 1 → Untouched s.mem (get_block_take C s x).mem c := by
      intro c hc hca
      have hc4 := (h.tiling.mem_bounds hc).1
      unfold MIN_BLOCK_SIZE at hc4
      exact (hfr c (List.mem_cons_of_mem _ hc) (hne c hc hca)).untouched
        (hrot.not_mem_fl hca (by omega))
    refine
      { wf := hwf
        b_mem := hxb
        b_alloc := hAx
        b_size := by rw [hSx]; exact ⟨hfit, hsz⟩
        b_new := hne
        kept := fun c hc hca => ⟨hc, hun c hc hca⟩
        alloc_old := ?_
        brk_le := Nat.le_refl _
        errno := rfl }
    intro c hc hca hcx
    refine ⟨hc, ?_⟩
    have hck := (h.tiling.mem_bounds hc).2.2.1
    rw [← ((hfr c (List.mem_cons_of_mem _ hc) hcx).tags hck).2.1]
    exact hca

/-- The search after a successful growth: the new cursor block fits, so the
next iteration returns. -/
theorem WFg.get_grow {C : Config} (hC : C.Valid) {s : Heap} {bl fl : List Nat} {n k : Nat}
    (h : WFg C s bl fl) (hn : MIN_BLOCK_SIZE ≤ n) (hnu : n * C.unit < WORD)
    (hk : k = if n < byte_to_unit C C.pagesize then byte_to_unit C C.pagesize else n)
    (hgrow : s.brk + k * C.unit ≤ C.limit) (fuel : Nat) :
    ∃ s1 x t b bl1 fl1, extend_heap C s n = some (s1, some x) ∧
      rdAlloc s1.mem x = 0 ∧ k ≤ rdSize s1.mem x ∧
      get_block_loop C n (fuel + 1) s1 x = some (t, some b) ∧
      AllocPost C s t bl bl1 fl1 n b ∧ t.brk = s.brk + k * C.unit := by
  obtain ⟨s0, hwf0, ha0, hs0, hbrk0, hfp0, herr0, hM0, hext⟩ := h.extend_grow hC hn hnu hk hgrow
  set N := s.units C with hN
  have hu := h.units_ge
  have hNm : N - 1 ∈ bl ++ [N - 1] := by simp
  obtain ⟨bl1, fl1, x, hpost⟩ := hwf0.free_block hC hNm ha0
  set s1 := HeapAllocator.free_block C s0 (N - 1) with hs1
  have hkn : n ≤ k := by rw [hk]; split_ifs <;> omega
  have hxs : k ≤ rdSize s1.mem x := by rw [hpost.x_size, hs0]; omega
  obtain ⟨t, b, bl2, fl2, hloop, hap, htb⟩ :=
    hpost.wf.get_fit hC hpost.x_mem hpost.x_free hn (by omega) fuel
  rw [hpost.cursor] at hext
  refine ⟨s1, x, t, b, bl2, fl2, hext, hpost.x_free, hxs, hloop, ?_, ?_⟩
  swap
  · rw [htb, hpost.brk, hbrk0]
  -- blocks allocated in `s` survive the growth untouched
  have hold : ∀ c ∈ bl, rdAlloc s.mem c = 1 →
      c ∈ bl1 ∧ rdAlloc s1.mem c = 1 ∧ Untouched s.mem s1.mem c := by
    intro c hc hca
    have hc0 : c ∈ 0 :: bl := List.mem_cons_of_mem _ hc
    have hcN := h.lt_units hc0
    have hck := (h.tiling.mem_bounds hc).2.2.1
    have hc4 := (h.tiling.mem_bounds hc).1
    unfold MIN_BLOCK_SIZE at hck hc4
    have hca0 : rdAlloc s0.mem c = 1 := by
      rw [rdAlloc_congr (hM0 c (by omega))]; exact hca
    have hcs0 : rdSize s0.mem c = rdSize s.mem c := rdSize_congr (hM0 c (by omega))
    have hcne : c ≠ N - 1 := by omega
    have hc1 : c ∈ bl1 := hpost.alloc_mem c (List.mem_append_left _ hc) hca0 hcne
    have hcx : c ≠ x := by
      rintro rfl
      have := hpost.x_eq
      split_ifs at this with hl
      · -- the left neighbour that absorbed the new block is free
        obtain ⟨-, -, d, -, hdb, hsz, hda, -⟩ := hwf0.free_merge hC 0 hNm ha0 hl
        have : c = d := by rw [this, hsz]; omega
        rw [this] at hca0
        omega
      · omega
    obtain ⟨-, -, hk1⟩ := hpost.kept c (List.mem_cons_of_mem _ hc1) hcx
    have hun1 : Untouched s0.mem s1.mem c :=
      hk1.untouched (hwf0.not_mem_fl hca0 (by omega))
    have hun : Untouched s.mem s1.mem c := by
      intro j hj1 hj2
      rw [hun1 j hj1 (by rw [hcs0]; exact hj2), hM0 j (by omega)]
    refine ⟨hc1, ?_, hun⟩
    rw [rdAlloc_congr (hun c (Nat.le_refl _) (by omega))]
    exact hca
  refine
    { wf := hap.wf
      b_mem := hap.b_mem
      b_alloc := hap.b_alloc
      b_size := hap.b_size
      b_new := fun c hc hca => hap.b_new c (hold c hc hca).1 (hold c hc hca).2.1
      kept := ?_
      alloc_old := ?_
      brk_le := by rw [htb, hpost.brk, hbrk0]; omega
      errno := by rw [hap.errno, hpost.errno, herr0] }
  · intro c hc hca
    obtain ⟨hc1, hca1, hun⟩ := hold c hc hca
    obtain ⟨hc2, hun2⟩ := hap.kept c hc1 hca1
    have hck := (h.tiling.mem_bounds hc).2.2.1
    unfold MIN_BLOCK_SIZE at hck
    exact ⟨hc2, hun.trans_untouched hun2 (by omega)⟩
  · intro c hc hca hcb
    obtain ⟨hc1, hca1⟩ := hap.alloc_old c hc hca hcb
    have hcx : c ≠ x := by
      rintro rfl
      have := hpost.x_free
      omega
    obtain ⟨hc0, hcN, hk1⟩ := hpost.kept c (List.mem_cons_of_mem _ hc1) hcx
    have hc4 := (hpost.wf.tiling.mem_bounds hc1).1
    unfold MIN_BLOCK_SIZE at hc4
    have hcbl : c ∈ bl := by
      simp only [List.mem_cons, List.mem_append, List.mem_singleton, List.not_mem_nil,
        or_false] at hc0
      rcases hc0 with e | e | e
      · omega
      · exact e
      · exact absurd e hcN
    have hck := (hwf0.tiling0.mem_bounds hc0).2.2.1
    have hca0 : rdAlloc s0.mem c = 1 := by
      rw [← (hk1.tags hck).2.1]; exact hca1
    have hcN2 := h.lt_units (List.mem_cons_of_mem 0 hcbl)
    have hck2 := (h.tiling.mem_bounds hcbl).2.2.1
    unfold MIN_BLOCK_SIZE at hck2
    refine ⟨hcbl, ?_⟩
    rw [← rdAlloc_congr (hM0 c (by omega))]
    exact hca0

theorem get_block_loop_next (C : Config) (n fuel : Nat) (s : Heap) (bp : Nat)
    (hfit : ¬ Fits s.mem n bp) (hp : get_p (s.mem (bp + 2)) ≠ 0) :
    get_block_loop C n (fuel + 1) s bp =
      if some (rdP C s.mem (bp + 2)) = s.freep then
        match extend_heap C s n with
        | none => none
        | some (s1, none) => some (s1, none)
        | some (s1, some b) => get_block_loop C n fuel s1 b
      else get_block_loop C n fuel s (rdP C s.mem (bp + 2)) := by
  unfold Fits at hfit
  conv => lhs; unfold get_block_loop
  simp only [if_neg hfit, if_neg hp]

/-- The search from the node `y` of the free list, `l` being the nodes between
`y` and the cursor `f`: either it returns a block, from a node that fits or
after one growth, or no node fits, the provider refuses to grow and the search
returns null, having changed `errno` at most. -/
theorem WFg.get_block_scan {C : Config} (hC : C.Valid) {s : Heap} {bl fl : List Nat} {n f : Nat}
    (h : WFg C s bl fl) (hfp : s.freep = some f) (hn : MIN_BLOCK_SIZE ≤ n)
    (hnu : n * C.unit < WORD) :
    ∀ (l : List Nat) (y fuel : Nat), Seg C s.mem (y :: l) f → (∀ z ∈ y :: l, z ∈ fl) → f ∉ l →
      l.length + 2 ≤ fuel →
      (∃ t b bl1 fl1, get_block_loop C n fuel s y = some (t, some b) ∧
        AllocPost C s t bl bl1 fl1 n b ∧
        ((∃ z ∈ y :: l, Fits s.mem n z) ∧ t.brk = s.brk ∨
          (∀ z ∈ y :: l, ¬ Fits s.mem n z) ∧ s.brk + growUnits C n * C.unit ≤ C.limit ∧
            t.brk = s.brk + growUnits C n * C.unit)) ∨
      (get_block_loop C n fuel s y = some ({ s with errno := C.sbrkErrno s.errno }, none) ∧
        (∀ z ∈ y :: l, ¬ Fits s.mem n z) ∧ ¬ s.brk + growUnits C n * C.unit ≤ C.limit) := by
  intro l
  induction l with
  | nil =>
    intro y fuel hseg hsub _ hfuel
    obtain ⟨fuel1, rfl⟩ : ∃ k, fuel = k + 2 := ⟨fuel - 2, by simp at hfuel; omega⟩
    by_cases hfit : Fits s.mem n y
    · left
      obtain ⟨t, b, bl1, fl1, hl, hap, hb⟩ :=
        h.get_fit hC (hsub y (by simp)) hfit.1 hn hfit.2 (fuel1 + 1)
      exact ⟨t, b, bl1, fl1, hl, hap, Or.inl ⟨⟨y, by simp, hfit⟩, hb⟩⟩
    · have hlink : LinkTo C s.mem (y + 2) f := hseg.1
      rw [get_block_loop_next C n (fuel1 + 1) s y hfit (hlink.ne_zero hC), hlink.rdP hC,
        if_pos hfp.symm]
      have hno : ∀ z ∈ [y], ¬ Fits s.mem n z := by
        intro z hz
        simp only [List.mem_singleton] at hz
        rw [hz]; exact hfit
      by_cases hg : s.brk + growUnits C n * C.unit ≤ C.limit
      · left
        obtain ⟨s1, x, t, b, bl1, fl1, hext, -, -, hl, hap, hb⟩ :=
          h.get_grow hC hn hnu rfl hg fuel1
        rw [hext]
        exact ⟨t, b, bl1, fl1, hl, hap, Or.inr ⟨hno, hg, hb⟩⟩
      · right
        have hkw := extend_units_bytes (C := C) n hnu
        have hf := extend_heap_fail C s n (by
          unfold unit_to_byte
          rw [wrap_of_lt hkw]
          exact hg)
        rw [hf]
        exact ⟨rfl, hno, hg⟩
  | cons z l ih =>
    intro y fuel hseg hsub hfl hfuel
    obtain ⟨fuel1, rfl⟩ : ∃ k, fuel = k + 1 := ⟨fuel - 1, by simp at hfuel; omega⟩
    by_cases hfit : Fits s.mem n y
    · left
      obtain ⟨t, b, bl1, fl1, hl, hap, hb⟩ :=
        h.get_fit hC (hsub y (by simp)) hfit.1 hn hfit.2 fuel1
      exact ⟨t, b, bl1, fl1, hl, hap, Or.inl ⟨⟨y, by simp, hfit⟩, hb⟩⟩
    · have hlink : LinkTo C s.mem (y + 2) z := hseg.1
      have hzf : z ≠ f := fun e => hfl (by simp [e])
      rw [get_block_loop_next C n fuel1 s y hfit (hlink.ne_zero hC), hlink.rdP hC,
        if_neg (by rw [hfp]; simpa using hzf)]
      have hrec := ih z fuel1 hseg.2.2 (fun w hw => hsub w (List.mem_cons_of_mem _ hw))
        (fun e => hfl (List.mem_cons_of_mem _ e)) (by simp at hfuel ⊢; omega)
      rcases hrec with ⟨t, b, bl1, fl1, hl, hap, hcase⟩ | ⟨hl, hno, hg⟩
      · left
        refine ⟨t, b, bl1, fl1, hl, hap, ?_⟩
        rcases hcase with ⟨⟨w, hw, hwf⟩, hb⟩ | ⟨hno, hg, hb⟩
        · exact Or.inl ⟨⟨w, List.mem_cons_of_mem _ hw, hwf⟩, hb⟩
        · refine Or.inr ⟨fun w hw => ?_, hg, hb⟩
          rcases List.mem_cons.1 hw with e | e
          · rw [e]; exact hfit
          · exact hno w e
      · right
        refine ⟨hl, fun w hw => ?_, hg⟩
        rcases List.mem_cons.1 hw with e | e
        · rw [e]; exact hfit
        · exact hno w e

/-- `get_block` on a well-formed heap, with fuel for one round of the free
list: either it returns a block, from a free-list node that fits or after one
growth, or no node fits, the provider refuses to grow and it returns null,
having changed `errno` at most. -/
theorem WFg.get_block {C : Config} (hC : C.Valid) {s : Heap} {bl fl : List Nat} {n : Nat}
    (h : WFg C s bl fl) (hn : MIN_BLOCK_SIZE ≤ n) (hnu : n * C.unit < WORD) (fuel : Nat)
    (hfuel : fl.length + 1 ≤ fuel) :
    (∃ t b bl1 fl1, HeapAllocator.get_block C fuel s n = some (t, some b) ∧
      AllocPost C s t bl bl1 fl1 n b ∧
      ((∃ z ∈ fl, Fits s.mem n z) ∧ t.brk = s.brk ∨
        (∀ z ∈ fl, ¬ Fits s.mem n z) ∧ s.brk + growUnits C n * C.unit ≤ C.limit ∧
          t.brk = s.brk + growUnits C n * C.unit)) ∨
    (HeapAllocator.get_block C fuel s n = some ({ s with errno := C.sbrkErrno s.errno }, none) ∧
      (∀ z ∈ fl, ¬ Fits s.mem n z) ∧ ¬ s.brk + growUnits C n * C.unit ≤ C.limit) := by
  obtain ⟨f, hfp, hfm⟩ := h.cursor
  obtain ⟨r, hrot, hmem⟩ := h.rotate hfm
  have hlen : r.length + 1 = fl.length := by
    have hp : (f :: r).Perm fl := by
      refine (List.perm_ext_iff_of_nodup hrot.nodup h.nodup).2 hmem
    have := hp.length_eq
    simpa using this
  have hscan := hrot.get_block_scan hC hfp hn hnu r f fuel hrot.cyc (fun z hz => hz)
    (List.nodup_cons.1 hrot.nodup).1 (by omega)
  have hg : HeapAllocator.get_block C fuel s n = get_block_loop C n fuel s f := by
    unfold HeapAllocator.get_block
    rw [hfp]
  rw [hg]
  rcases hscan with ⟨t, b, bl1, fl1, hl, hap, hcase⟩ | ⟨hl, hno, hgr⟩
  · left
    refine ⟨t, b, bl1, fl1, hl, hap, ?_⟩
    rcases hcase with ⟨⟨w, hw, hwf⟩, hb⟩ | ⟨hno, hgr, hb⟩
    · exact Or.inl ⟨⟨w, (hmem w).1 hw, hwf⟩, hb⟩
    · exact Or.inr ⟨fun w hw => hno w ((hmem w).2 hw), hgr, hb⟩
  · right
    exact ⟨hl, fun w hw => hno w ((hmem w).2 hw), hgr⟩

/-! ## `find_block` -/

theorem nodeAddr_aligned {C : Config} (hC : C.Valid) (i : Nat) :
    nodeAddr C i &&& (C.unit - 1) = 0 := by
  obtain ⟨k, hk⟩ := hC.unit_pow
  have h1 := hC.lo_aligned
  unfold nodeAddr
  rw [hk] at h1 ⊢
  rw [Nat.and_pow_two_sub_one_eq_mod]
  rw [Nat.add_mul_mod_self_right]
  exact h1

theorem nodeAddr_lt_iff {C : Config} (hC : C.Valid) (i j : Nat) :
    nodeAddr C i < nodeAddr C j ↔ i < j := by
  have := nodeAddr_le_iff hC j i
  constructor
  · intro h; by_contra hn; exact absurd (this.2 (by omega)) (by omega)
  · intro h; by_contra hn; exact absurd (this.1 (by omega)) (by omega)

theorem ap_to_bp_bp_to_ap {C : Config} (hC : C.Valid) (b : Nat) :
    ap_to_bp C (bp_to_ap C b) = b := by
  unfold ap_to_bp bp_to_ap nodeAddr nodeOfAddr
  have hu := hC.unit_pos
  have e : C.lo + (b + 1) * C.unit - C.unit - C.lo = b * C.unit := by
    rw [Nat.add_mul, Nat.one_mul]; omega
  rw [e]
  exact Nat.mul_div_cancel _ hu

theorem find_block_eq (C : Config) (fuel : Nat) (s : Heap) (ap : Nat) :
    find_block C fuel s ap =
      if ap = 0 ∨ ap ≤ mem_heap_lo C ∨ ap ≥ mem_heap_hi C s then some none
      else if DirectOK C s ap then some (some (ap_to_bp C ap))
      else
        match find_block_scan C s.mem ap fuel 0 (0 + rdSize s.mem 0) with
        | none => none
        | some b => some (if rdAlloc s.mem b = 1 then some b else none) := rfl

/-- Payload addresses of the blocks of a well-formed heap are inside the
region bounds. -/
theorem WFg.in_bounds {C : Config} (hC : C.Valid) {s : Heap} {bl fl : List Nat} (h : WFg C s bl fl)
    {ap : Nat} (h1 : nodeAddr C 0 < ap) (h2 : ap < nodeAddr C (s.units C - 1)) :
    ¬ (ap = 0 ∨ ap ≤ mem_heap_lo C ∨ ap ≥ mem_heap_hi C s) := by
  have hu := h.units_ge
  have hb := h.brk_eq
  have hp := hC.unit_pos
  unfold nodeAddr at h1 h2
  unfold mem_heap_lo mem_heap_hi
  have e : (s.units C - 1) * C.unit + C.unit = s.units C * C.unit := by
    have : s.units C - 1 + 1 = s.units C := by omega
    calc (s.units C - 1) * C.unit + C.unit = (s.units C - 1 + 1) * C.unit := by
          rw [Nat.add_mul, Nat.one_mul]
      _ = s.units C * C.unit := by rw [this]
  omega

/-- The fast path: a live payload address resolves to its block. -/
theorem WFg.find_block_live {C : Config} (hC : C.Valid) {s : Heap} {bl fl : List Nat}
    (h : WFg C s bl fl) {b : Nat} (hb : b ∈ bl) (ha : rdAlloc s.mem b = 1) (fuel : Nat) :
    find_block C fuel s (bp_to_ap C b) = some (some b) := by
  have hb0 : b ∈ 0 :: bl := List.mem_cons_of_mem _ hb
  have hbN := h.lt_units hb0
  have hk := (h.tiling.mem_bounds hb).2.2
  have hk1 := hk.1
  unfold MIN_BLOCK_SIZE at hk1
  have hbnd : ¬ (bp_to_ap C b = 0 ∨ bp_to_ap C b ≤ mem_heap_lo C ∨
      bp_to_ap C b ≥ mem_heap_hi C s) := by
    refine h.in_bounds hC ?_ ?_
    · exact (nodeAddr_lt_iff hC _ _).2 (by omega)
    · exact (nodeAddr_lt_iff hC _ _).2 (by omega)
  have hd : DirectOK C s (bp_to_ap C b) := by
    unfold DirectOK
    rw [ap_to_bp_bp_to_ap hC]
    refine ⟨nodeAddr_aligned hC _, ha, hk.1, ?_, ?_⟩
    · unfold header_to_footer; rw [ha, hk.2.2 ha]
    · unfold header_to_footer; rw [hk.2.1]
  rw [find_block_eq, if_neg hbnd, if_pos hd, ap_to_bp_bp_to_ap hC]

/-- The heap scan along a tiling: entered before the tiling's start it
returns the block it came from, otherwise the block of the tiling that
contains the address. -/
theorem Tiling.scan {C : Config} {m : Nat → Nat} {ap : Nat} :
    ∀ (l : List Nat) (a e bp fuel : Nat), Tiling m a l e → ap < nodeAddr C e →
      l.length + 1 ≤ fuel →
      (ap < nodeAddr C a → find_block_scan C m ap fuel bp a = some bp) ∧
      (nodeAddr C a ≤ ap →
        ∃ c ∈ l, find_block_scan C m ap fuel bp a = some c ∧ InBlock C m c ap) := by
  intro l
  induction l with
  | nil =>
    intro a e bp fuel ht he hf
    obtain ⟨fuel1, rfl⟩ : ∃ k, fuel = k + 1 := ⟨fuel - 1, by simp at hf; omega⟩
    have hae : a = e := ht
    subst hae
    constructor
    · intro hlt
      unfold find_block_scan
      rw [if_neg (by omega)]
    · intro hle; omega
  | cons b l ih =>
    intro a e bp fuel ht he hf
    obtain ⟨fuel1, rfl⟩ : ∃ k, fuel = k + 1 := ⟨fuel - 1, by simp at hf; omega⟩
    obtain ⟨hba, hok, ht2⟩ := ht
    subst hba
    constructor
    · intro hlt
      unfold find_block_scan
      rw [if_neg (by omega)]
    · intro hle
      unfold find_block_scan
      rw [if_pos hle]
      obtain ⟨i1, i2⟩ := ih (b + rdSize m b) e b fuel1 ht2 he (by simp at hf ⊢; omega)
      by_cases hin : ap < nodeAddr C (b + rdSize m b)
      · exact ⟨b, by simp, i1 hin, hle, hin⟩
      · obtain ⟨c, hc, hs, hi⟩ := i2 (by omega)
        exact ⟨c, List.mem_cons_of_mem _ hc, hs, hi⟩

/-- An address lies in at most one block of a tiling. -/
theorem Tiling.inBlock_unique {C : Config} (hC : C.Valid) {m : Nat → Nat} {l : List Nat}
    {a e c d ap : Nat} (h : Tiling m a l e) (hc : c ∈ l) (hd : d ∈ l)
    (h1 : InBlock C m c ap) (h2 : InBlock C m d ap) : c = d := by
  by_contra hne
  have e1 : nodeAddr C c < nodeAddr C (d + rdSize m d) := by
    unfold InBlock at h1 h2; omega
  have e2 : nodeAddr C d < nodeAddr C (c + rdSize m c) := by
    unfold InBlock at h1 h2; omega
  have e3 := (nodeAddr_lt_iff hC _ _).1 e1
  have e4 := (nodeAddr_lt_iff hC _ _).1 e2
  rcases h.disjoint hc hd hne with h5 | h5 <;> omega

/-- The slow path: an address in a block of the heap that fails the fast-path
test resolves to that block when it is allocated, and to nothing when it is
free. -/
theorem WFg.find_block_slow {C : Config} (hC : C.Valid) {s : Heap} {bl fl : List Nat}
    (h : WFg C s bl fl) {c ap : Nat} (hc : c ∈ bl) (hin : InBlock C s.mem c ap)
    (hd : ¬ DirectOK C s ap) (fuel : Nat) (hf : bl.length + 1 ≤ fuel) :
    find_block C fuel s ap = some (if rdAlloc s.mem c = 1 then some c else none) := by
  have hlo : nodeAddr C c ≤ ap := hin.1
  have hc0 : c ∈ 0 :: bl := List.mem_cons_of_mem _ hc
  have hcN := h.lt_units hc0
  have hc4 := (h.tiling.mem_bounds hc).1
  unfold MIN_BLOCK_SIZE at hc4
  have hbnd : ¬ (ap = 0 ∨ ap ≤ mem_heap_lo C ∨ ap ≥ mem_heap_hi C s) := by
    refine h.in_bounds hC ?_ ?_
    · have := (nodeAddr_lt_iff hC 0 c).2 (by omega)
      omega
    · have := (nodeAddr_le_iff hC (c + rdSize s.mem c) (s.units C - 1)).2 hcN
      unfold InBlock at hin
      omega
  rw [find_block_eq, if_neg hbnd, if_neg hd, h.dummy_hdr.2]
  have he : ap < nodeAddr C (s.units C - 1) := by
    have := (nodeAddr_le_iff hC (c + rdSize s.mem c) (s.units C - 1)).2 hcN
    unfold InBlock at hin
    omega
  obtain ⟨-, i2⟩ := Tiling.scan bl MIN_BLOCK_SIZE (s.units C - 1) 0 fuel h.tiling he hf
  have h4 : nodeAddr C MIN_BLOCK_SIZE ≤ ap := by
    have := (nodeAddr_le_iff hC MIN_BLOCK_SIZE c).2 (by unfold MIN_BLOCK_SIZE; omega)
    omega
  obtain ⟨d, hdm, hs, hi⟩ := i2 h4
  have hdc : d = c := h.tiling.inBlock_unique hC hdm hc hi hin
  subst hdc
  show (match find_block_scan C s.mem ap fuel 0 MIN_BLOCK_SIZE with
    | none => none
    | some b => some (if rdAlloc s.mem b = 1 then some b else none)) = _
  rw [hs]

/-! ## The search when nothing fits and the provider refuses -/

theorem get_block_loop_refused {C : Config} (hC : C.Valid) {s : Heap} {n f : Nat}
    (hfp : s.freep = some f)
    (href : ¬ s.brk + unit_to_byte C (growUnits C n) ≤ C.limit) :
    ∀ (l : List Nat) (y fuel : Nat), Seg C s.mem (y :: l) f → (∀ z ∈ y :: l, ¬ Fits s.mem n z) →
      f ∉ l → l.length + 1 ≤ fuel →
      get_block_loop C n fuel s y = some ({ s with errno := C.sbrkErrno s.errno }, none) := by
  intro l
  induction l with
  | nil =>
    intro y fuel hseg hno _ hfuel
    obtain ⟨fuel1, rfl⟩ : ∃ k, fuel = k + 1 := ⟨fuel - 1, by simp at hfuel; omega⟩
    have hlink : LinkTo C s.mem (y + 2) f := hseg.1
    rw [get_block_loop_next C n fuel1 s y (hno y (by simp)) (hlink.ne_zero hC), hlink.rdP hC,
      if_pos hfp.symm, extend_heap_fail C s n href]
  | cons z l ih =>
    intro y fuel hseg hno hfl hfuel
    obtain ⟨fuel1, rfl⟩ : ∃ k, fuel = k + 1 := ⟨fuel - 1, by simp at hfuel; omega⟩
    have hlink : LinkTo C s.mem (y + 2) z := hseg.1
    have hzf : z ≠ f := fun e => hfl (by simp [e])
    rw [get_block_loop_next C n fuel1 s y (hno y (by simp)) (hlink.ne_zero hC), hlink.rdP hC,
      if_neg (by rw [hfp]; simpa using hzf)]
    exact ih z fuel1 hseg.2.2 (fun w hw => hno w (List.mem_cons_of_mem _ hw))
      (fun e => hfl (List.mem_cons_of_mem _ e)) (by simp at hfuel ⊢; omega)

/-- `get_block` when no free-list node fits and the provider refuses the
growth: null, and nothing but `errno` has changed. -/
theorem WFg.get_block_refused {C : Config} (hC : C.Valid) {s : Heap} {bl fl : List Nat} {n : Nat}
    (h : WFg C s bl fl) (hno : ∀ z ∈ fl, ¬ Fits s.mem n z)
    (href : ¬ s.brk + unit_to_byte C (growUnits C n) ≤ C.limit) (fuel : Nat)
    (hfuel : fl.length ≤ fuel) :
    HeapAllocator.get_block C fuel s n =
      some ({ s with errno := C.sbrkErrno s.errno }, none) := by
  obtain ⟨f, hfp, hfm⟩ := h.cursor
  obtain ⟨r, hrot, hmem⟩ := h.rotate hfm
  have hlen : r.length + 1 = fl.length := by
    have hp : (f :: r).Perm fl := (List.perm_ext_iff_of_nodup hrot.nodup h.nodup).2 hmem
    have := hp.length_eq
    simpa using this
  have hg : HeapAllocator.get_block C fuel s n = get_block_loop C n fuel s f := by
    unfold HeapAllocator.get_block
    rw [hfp]
  rw [hg]
  exact get_block_loop_refused hC hfp href r f fuel hrot.cyc
    (fun z hz => hno z ((hmem z).1 hz)) (List.nodup_cons.1 hrot.nodup).1 (by omega)

/-! ## The public operations on live addresses -/

theorem WFg.ready {C : Config} {s : Heap} {bl fl : List Nat} (h : WFg C s bl fl) :
    s.freep ≠ none := by
  obtain ⟨f, hf, -⟩ := h.cursor
  rw [hf]; simp

theorem bp_to_ap_ne_zero {C : Config} (hC : C.Valid) (b : Nat) : bp_to_ap C b ≠ 0 :=
  nodeAddr_pos hC _

/-- `release` of a live payload address runs `free_block` on its block. -/
theorem WFg.mm_free_live {C : Config} (hC : C.Valid) {s : Heap} {bl fl : List Nat}
    (h : WFg C s bl fl) {b : Nat} (hb : b ∈ bl) (ha : rdAlloc s.mem b = 1) (fuel : Nat) :
    mm_free C fuel s (bp_to_ap C b) = some (HeapAllocator.free_block C s b) := by
  unfold mm_free
  rw [if_neg (bp_to_ap_ne_zero hC b), h.find_block_live hC hb ha fuel]

theorem byte_to_unit_le (C : Config) (n : Nat) :
    byte_to_unit C n ≤ (n + C.unit - 1) / C.unit := by
  unfold byte_to_unit wrap
  exact Nat.div_le_div_right (Nat.mod_le _ _)

theorem byte_to_unit_of_lt (C : Config) (n : Nat) (h : n + C.unit - 1 < WORD) :
    byte_to_unit C n = (n + C.unit - 1) / C.unit := by
  unfold byte_to_unit
  rw [wrap_of_lt h]

/-! ## Properties of the public operations -/

theorem exConfig_valid : exConfig.Valid :=
  ⟨⟨4, rfl⟩, by decide, by decide, by decide, by decide⟩

/-- C8 (resize no-shrink): on a well-formed heap, for a live payload address
`p` of a block of `s` units and any byte count `n` with
`ceil(n / unit) + 2 ≤ s`, `mm_realloc(p, n)` returns `p` and the state is the
one it was called in: no block, link, cursor or `errno` has changed. -/
theorem resize_no_shrink {C : Config} (hC : C.Valid) {s : Heap} {bl fl : List Nat}
    (h : WFg C s bl fl) {b : Nat} (hb : b ∈ bl) (ha : rdAlloc s.mem b = 1) (n : Nat)
    (hn : (n + C.unit - 1) / C.unit + 2 ≤ rdSize s.mem b) (fuel : Nat) :
    mm_realloc C fuel s (bp_to_ap C b) n = some (s, some (bp_to_ap C b)) := by
  have hlt := rdSize_lt s.mem b
  have hle := byte_to_unit_le C n
  unfold mm_realloc
  rw [if_neg (bp_to_ap_ne_zero hC b), h.find_block_live hC hb ha fuel]
  simp only []
  rw [if_pos]
  rw [wrap_of_lt (by omega)]
  omega

theorem resize_no_shrink_witness :
    WFg exConfig exHeapA [4, 252] [0, 4] ∧ 252 ∈ [4, 252] ∧ rdAlloc exHeapA.mem 252 = 1 ∧
      (40 + exConfig.unit - 1) / exConfig.unit + 2 ≤ rdSize exHeapA.mem 252 ∧
      mm_realloc exConfig 0 exHeapA (bp_to_ap exConfig 252) 40 =
        some (exHeapA, some (bp_to_ap exConfig 252)) :=
  ⟨by constructor <;> decide, by decide, by decide, by decide,
    resize_no_shrink exConfig_valid
      (by constructor <;> decide : WFg exConfig exHeapA [4, 252] [0, 4]) (by decide) (by decide) 40
      (by decide) 0⟩

/-- C5 (double release rejection): on a well-formed heap, after `mm_free(p)`
of a live payload address `p`, a second `mm_free(p)` and an `mm_realloc(p, n)`
for any `n` resolve `p` to no block: they set `errno` to `EFAULT`, the resize
returns null, and apart from `errno` the state is the one the first release
left, whatever merges that release did. -/
theorem double_release_rejected {C : Config} (hC : C.Valid) {s : Heap} {bl fl : List Nat}
    (h : WFg C s bl fl) {b : Nat} (hb : b ∈ bl) (ha : rdAlloc s.mem b = 1) (n fuel : Nat)
    (hfuel : bl.length + 1 ≤ fuel) :
    ∃ t, mm_free C fuel s (bp_to_ap C b) = some t ∧
      find_block C fuel t (bp_to_ap C b) = some none ∧
      mm_free C fuel t (bp_to_ap C b) = some { t with errno := EFAULT } ∧
      mm_realloc C fuel t (bp_to_ap C b) n = some ({ t with errno := EFAULT }, none) := by
  obtain ⟨bl1, fl1, x, hpost⟩ := h.free_block hC hb ha
  set t := free_block C s b with ht
  have hbk := (h.tiling.mem_bounds hb).2.2.1
  unfold MIN_BLOCK_SIZE at hbk
  have hxb : x ∈ bl1 := hpost.wf.free_mem_bl hpost.x_mem hpost.x_free
  have hcov := hpost.covers
  have hd : ¬ DirectOK C t (bp_to_ap C b) := by
    unfold DirectOK
    rw [ap_to_bp_bp_to_ap hC, hpost.hdr_free]
    omega
  have hin : InBlock C t.mem x (bp_to_ap C b) := by
    unfold InBlock bp_to_ap
    exact ⟨(nodeAddr_le_iff hC _ _).2 (by omega), (nodeAddr_lt_iff hC _ _).2 (by omega)⟩
  have hlen : bl1.length ≤ bl.length :=
    (List.subperm_of_subset hpost.wf.tiling.nodup hpost.sub).length_le
  have hfind : find_block C fuel t (bp_to_ap C b) = some none := by
    rw [hpost.wf.find_block_slow hC hxb hin hd fuel (by omega), hpost.x_free]
    simp
  refine ⟨t, h.mm_free_live hC hb ha fuel, hfind, ?_, ?_⟩
  · unfold mm_free
    rw [if_neg (bp_to_ap_ne_zero hC b), hfind]
  · unfold mm_realloc
    rw [if_neg (bp_to_ap_ne_zero hC b), hfind]

theorem double_release_rejected_witness :
    WFg exConfig exHeapAB [4, 248, 252] [0, 4] ∧ 248 ∈ [4, 248, 252] ∧
      rdAlloc exHeapAB.mem 248 = 1 ∧ [4, 248, 252].length + 1 ≤ 4 ∧
      ∃ t, mm_free exConfig 4 exHeapAB (bp_to_ap exConfig 248) = some t ∧
        find_block exConfig 4 t (bp_to_ap exConfig 248) = some none ∧
        mm_free exConfig 4 t (bp_to_ap exConfig 248) = some { t with errno := EFAULT } ∧
        mm_realloc exConfig 4 t (bp_to_ap exConfig 248) 64 =
          some ({ t with errno := EFAULT }, none) :=
  ⟨by constructor <;> decide, by decide, by decide, by decide,
    double_release_rejected exConfig_valid
      (by constructor <;> decide : WFg exConfig exHeapAB [4, 248, 252] [0, 4]) (by decide)
      (by decide) 64 4 (by decide)⟩

theorem exSmallConfig_valid : exSmallConfig.Valid :=
  ⟨⟨4, rfl⟩, by decide, by decide, by decide, by decide⟩

theorem mm_malloc_null (C : Config) (fuel : Nat) (s s1 : Heap) (n : Nat) (h : s.freep ≠ none)
    (hg : get_block C fuel s (mallocUnits C n) = some (s1, none)) :
    mm_malloc C fuel s n = some ({ s1 with errno := ENOMEM }, none) := by
  unfold mallocUnits at hg
  unfold mm_malloc
  simp only [if_neg h, hg]

theorem mm_malloc_block (C : Config) (fuel : Nat) (s s1 : Heap) (n bp : Nat) (h : s.freep ≠ none)
    (hg : get_block C fuel s (mallocUnits C n) = some (s1, some bp)) :
    mm_malloc C fuel s n = some (s1, some (bp_to_ap C bp)) := by
  unfold mallocUnits at hg
  unfold mm_malloc
  simp only [if_neg h, hg]

/-- Failed growth, read through the unit counts the code computes
(`mallocUnits`, `reallocUnits`): on a well-formed heap in which no free-list
node has that many units and the provider refuses the growth, `mm_malloc(n)`
and, for a live payload address whose block is smaller than that,
`mm_realloc(p, n)` return null and leave the state as it was but for `errno`
(`ENOMEM` after `mm_malloc`, whatever the provider made of it after
`mm_realloc`): memory, break and cursor are unchanged, so the block of `p` is
still allocated with its size and contents.  For a byte count on which
`byte_to_unit` wraps, the unit counts computed are not the units the request
needs. -/
theorem failed_growth_atomic {C : Config} (hC : C.Valid) {s : Heap} {bl fl : List Nat}
    (h : WFg C s bl fl) (n fuel : Nat) (hfuel : fl.length ≤ fuel) :
    ((∀ z ∈ fl, ¬ Fits s.mem (mallocUnits C n) z) →
      ¬ s.brk + unit_to_byte C (growUnits C (mallocUnits C n)) ≤ C.limit →
      mm_malloc C fuel s n = some ({ s with errno := ENOMEM }, none)) ∧
    (∀ b ∈ bl, rdAlloc s.mem b = 1 → rdSize s.mem b < reallocUnits C n →
      (∀ z ∈ fl, ¬ Fits s.mem (reallocUnits C n) z) →
      ¬ s.brk + unit_to_byte C (growUnits C (reallocUnits C n)) ≤ C.limit →
      mm_realloc C fuel s (bp_to_ap C b) n =
        some ({ s with errno := C.sbrkErrno s.errno }, none)) := by
  constructor
  · intro hno href
    exact mm_malloc_null C fuel s { s with errno := C.sbrkErrno s.errno } n h.ready
      (h.get_block_refused hC hno href fuel hfuel)
  · intro b hb ha hlt hno href
    unfold mm_realloc
    rw [if_neg (bp_to_ap_ne_zero hC b), h.find_block_live hC hb ha fuel]
    simp only []
    unfold reallocUnits at hlt hno href
    rw [if_neg (by omega), h.get_block_refused hC hno href fuel hfuel]

theorem failed_growth_atomic_witness :
    WFg exSmallConfig exSmallA [4, 252] [0, 4] ∧ [0, 4].length ≤ 2 ∧
      (∀ z ∈ [0, 4], ¬ Fits exSmallA.mem (mallocUnits exSmallConfig 8192) z) ∧
      (¬ exSmallA.brk + unit_to_byte exSmallConfig
        (growUnits exSmallConfig (mallocUnits exSmallConfig 8192)) ≤ exSmallConfig.limit) ∧
      mm_malloc exSmallConfig 2 exSmallA 8192 = some ({ exSmallA with errno := ENOMEM }, none) ∧
      mm_realloc exSmallConfig 2 exSmallA (bp_to_ap exSmallConfig 252) 8192 =
        some ({ exSmallA with errno := exSmallConfig.sbrkErrno exSmallA.errno }, none) :=
  ⟨by constructor <;> decide, by decide, by decide, by decide,
    (failed_growth_atomic exSmallConfig_valid
      (by constructor <;> decide : WFg exSmallConfig exSmallA [4, 252] [0, 4]) 8192 2
      (by decide)).1 (by decide) (by decide),
    (failed_growth_atomic exSmallConfig_valid
      (by constructor <;> decide : WFg exSmallConfig exSmallA [4, 252] [0, 4]) 8192 2
      (by decide)).2 252 (by decide) (by decide) (by decide) (by decide) (by decide)⟩

/-- C7 (out-of-memory signal), evaluated: with a provider at its limit that
leaves `errno` alone, `mm_realloc(A, 8192)` on the heap holding the 8-unit
block `A` returns null and `errno` is still 0, not `ENOMEM`; `mm_malloc(8192)`
on the same heap does set `ENOMEM`. -/
theorem realloc_oom_leaves_errno :
    (∃ t, mm_realloc exSmallConfig 2 exSmallA (bp_to_ap exSmallConfig 252) 8192 = some (t, none) ∧
      t.errno = 0) ∧
    (∃ t, mm_malloc exSmallConfig 2 exSmallA 8192 = some (t, none) ∧ t.errno = ENOMEM) :=
  ⟨⟨_, rfl, rfl⟩, ⟨_, rfl, rfl⟩⟩

/-- C10 (free-space query value), evaluated: right after `mm_init`, when no
free block exists, `mm_getfree` returns 64 (the four units of the dummy
block), not 0. -/
theorem getfree_after_init : mm_getfree exConfig 1 exInit = some 64 := by decide

/-- The free block a release leaves as the only block over a range. -/
theorem FreePost.coalesced {C : Config} {s t : Heap} {bl fl bl1 fl1 : List Nat} {b x lo hi k : Nat}
    (hp : FreePost C s t bl fl bl1 fl1 b x) (hk : rdSize t.mem x = k)
    (hlo : x ≤ lo) (hhi : hi ≤ x + k) : Coalesced C t x k lo hi := by
  have hxb : x ∈ bl1 := hp.wf.free_mem_bl hp.x_mem hp.x_free
  have hok := (hp.wf.tiling.mem_bounds hxb).2.2
  refine
    { heap := ⟨bl1, fl1, hp.wf, hxb, List.count_eq_one_of_mem hp.wf.nodup hp.x_mem, ?_⟩
      free := hp.x_free
      hdr := hk
      ftr := by rw [← hk]; exact hok.2.1
      covers := ⟨hlo, hhi⟩ }
  intro c hc h1 h2
  by_contra hne
  rcases hp.wf.tiling.disjoint hc hxb hne with h3 | h3 <;> omega

/-- The unit right after an allocated block is not touched by a release that
ends before it. -/
theorem FreePost.right_kept {C : Config} {s t : Heap} {bl fl bl1 fl1 : List Nat} {b x y : Nat}
    (hp : FreePost C s t bl fl bl1 fl1 b x) (hs : WFg C s bl fl) (hy : y ∈ bl1)
    (hys : rdSize t.mem y = rdSize s.mem y) (hxy : x < y) :
    rdAlloc t.mem (y + rdSize s.mem y) = rdAlloc s.mem (y + rdSize s.mem y) ∧
    (rdAlloc s.mem (y + rdSize s.mem y) = 0 →
      rdSize t.mem (y + rdSize s.mem y) = rdSize s.mem (y + rdSize s.mem y)) := by
  have hyb : y ∈ bl := hp.sub y hy
  rcases hp.wf.tiling.right_neighbour hy with e | ⟨l1, l2, e⟩
  · rw [hys] at e
    have hu : t.units C = s.units C := by unfold Heap.units; rw [hp.brk]
    have t1 := hp.wf.tail.1
    rw [← e] at t1
    rcases hs.tiling.right_neighbour hyb with e2 | ⟨l3, l4, e2⟩
    · have t2 := hs.tail.1
      rw [← e2] at t2
      rw [t1, t2]
      exact ⟨rfl, fun hh => by omega⟩
    · exfalso
      have hm : y + rdSize s.mem y ∈ 0 :: bl := by rw [e2]; simp
      have := hs.lt_units hm
      have := (hs.tiling0.mem_bounds hm).2.2.1
      unfold MIN_BLOCK_SIZE at this
      rw [hu] at e
      omega
  · have hm : y + rdSize s.mem y ∈ 0 :: bl1 := by
      rw [e, hys]; simp
    obtain ⟨hm0, -, hk⟩ := hp.kept _ hm (by omega)
    have h4 := (hs.tiling0.mem_bounds hm0).2.2.1
    unfold MIN_BLOCK_SIZE at h4
    have := hk (y + rdSize s.mem y) (Nat.le_refl _) (by omega) (fun _ => by omega)
    exact ⟨rdAlloc_congr this, fun _ => rdSize_congr this⟩

/-- The unit right before an allocated block is not touched by a release that
starts after it. -/
theorem FreePost.left_kept {C : Config} {s t : Heap} {bl fl bl1 fl1 : List Nat} {b x y : Nat}
    (hp : FreePost C s t bl fl bl1 fl1 b x) (hs : WFg C s bl fl) (hy : y ∈ bl1) (hxy : y < x) :
    t.mem (y - 1) = s.mem (y - 1) := by
  have hy4 := (hp.wf.tiling.mem_bounds hy).1
  unfold MIN_BLOCK_SIZE at hy4
  obtain ⟨l1, l2, c, e, hc⟩ := hp.wf.tiling0.left_neighbour (List.mem_cons_of_mem 0 hy) (by omega)
  have hm : c ∈ 0 :: bl1 := by rw [e]; simp
  obtain ⟨hm0, -, hk⟩ := hp.kept c hm (by omega)
  have h4 := (hs.tiling0.mem_bounds hm0).2.2.1
  unfold MIN_BLOCK_SIZE at h4
  have hsz : rdSize t.mem c = rdSize s.mem c :=
    rdSize_congr (hk c (Nat.le_refl _) (by omega) (fun _ => by omega))
  exact hk (y - 1) (by omega) (by omega) (fun _ => by omega)

/-- Releasing the left block `X` of two adjacent allocated blocks and then the
right block `Y`. -/
theorem release_left_then_right {C : Config} (hC : C.Valid) {s : Heap} {bl fl : List Nat}
    (h : WFg C s bl fl) {X Y : Nat} (hX : X ∈ bl) (hY : Y ∈ bl)
    (haX : rdAlloc s.mem X = 1) (haY : rdAlloc s.mem Y = 1) (hadj : Y = X + rdSize s.mem X)
    (fuel : Nat) :
    ∃ t1 t2, mm_free C fuel s (bp_to_ap C X) = some t1 ∧
      mm_free C fuel t1 (bp_to_ap C Y) = some t2 ∧
      Coalesced C t2 (X - freeLeft s.mem X)
        (freeLeft s.mem X + rdSize s.mem X + rdSize s.mem Y + freeRight s.mem Y)
        X (Y + rdSize s.mem Y) := by
  obtain ⟨bl1, fl1, x1, p1⟩ := h.free_block hC hX haX
  have hXY : X ≠ Y := by
    have := (h.tiling.mem_bounds hX).2.2.1
    unfold MIN_BLOCK_SIZE at this; omega
  have hX4 := (h.tiling.mem_bounds hX).2.2.1
  have hY4 := (h.tiling.mem_bounds hY).2.2.1
  have hYge := (h.tiling.mem_bounds hY).1
  unfold MIN_BLOCK_SIZE at hX4 hY4 hYge
  have hY1 : Y ∈ bl1 := p1.alloc_mem Y hY haY (Ne.symm hXY)
  have hYx : Y ≠ x1 := by have := p1.covers.1; omega
  have hYfl : Y ∉ fl := h.not_mem_fl haY (by omega)
  have hYu : Untouched s.mem (free_block C s X).mem Y :=
    (p1.kept Y (List.mem_cons_of_mem _ hY1) hYx).2.2.untouched hYfl
  have hYa : rdAlloc (free_block C s X).mem Y = 1 := by
    rw [rdAlloc_congr (hYu Y (Nat.le_refl _) (by omega))]; exact haY
  have hYs : rdSize (free_block C s X).mem Y = rdSize s.mem Y :=
    rdSize_congr (hYu Y (Nat.le_refl _) (by omega))
  obtain ⟨bl2, fl2, x2, p2⟩ := p1.wf.free_block hC hY1 hYa
  refine ⟨_, _, h.mm_free_live hC hX haX fuel, p1.wf.mm_free_live hC hY1 hYa fuel, ?_⟩
  -- the first release does not merge right
  have hr1 : rdAlloc s.mem (X + rdSize s.mem X) ≠ 0 := by rw [← hadj, haY]; omega
  have hs1 := p1.x_size
  rw [if_neg hr1] at hs1
  have hx1 := p1.x_eq
  have hx14 := (p1.wf.tiling.mem_bounds (p1.wf.free_mem_bl p1.x_mem p1.x_free)).1
  unfold MIN_BLOCK_SIZE at hx14
  have hc1 := p1.covers
  have hend1 : x1 + rdSize (free_block C s X).mem x1 = Y ∧ x1 = X - freeLeft s.mem X ∧
      rdSize (free_block C s X).mem x1 = freeLeft s.mem X + rdSize s.mem X := by
    unfold freeLeft
    by_cases hl : rdAlloc s.mem (X - 1) = 0
    · rw [if_pos hl] at hs1 hx1 ⊢
      omega
    · rw [if_neg hl] at hs1 hx1 ⊢
      omega
  -- the second release merges left with the block the first one left
  have hok1 := (p1.wf.tiling.mem_bounds (p1.wf.free_mem_bl p1.x_mem p1.x_free)).2.2
  have hf1 : rdSize (free_block C s X).mem (Y - 1) = rdSize (free_block C s X).mem x1 := by
    have := hok1.2.1
    rw [show x1 + rdSize (free_block C s X).mem x1 - 1 = Y - 1 by omega] at this
    exact this
  have hfa : rdAlloc (free_block C s X).mem (Y - 1) = 0 := by
    have := p1.ftr_free
    rw [show X + rdSize s.mem X - 1 = Y - 1 by omega] at this
    exact this
  have hrk := p1.right_kept h hY1 hYs (by omega)
  have hs2 := p2.x_size
  have hx2 := p2.x_eq
  rw [if_pos hfa, hf1, hYs, hrk.1] at hs2
  rw [if_pos hfa, hf1] at hx2
  have hR : (if rdAlloc s.mem (Y + rdSize s.mem Y) = 0 then
      rdSize (free_block C s X).mem (Y + rdSize s.mem Y) else 0) = freeRight s.mem Y := by
    unfold freeRight
    by_cases hr : rdAlloc s.mem (Y + rdSize s.mem Y) = 0
    · rw [if_pos hr, if_pos hr, hrk.2 hr]
    · rw [if_neg hr, if_neg hr]
  rw [hR] at hs2
  have hxe : x2 = X - freeLeft s.mem X := by omega
  rw [← hxe]
  exact p2.coalesced (by omega) (by omega) (by omega)

/-- Releasing the right block `Y` of two adjacent allocated blocks and then the
left block `X`. -/
theorem release_right_then_left {C : Config} (hC : C.Valid) {s : Heap} {bl fl : List Nat}
    (h : WFg C s bl fl) {X Y : Nat} (hX : X ∈ bl) (hY : Y ∈ bl)
    (haX : rdAlloc s.mem X = 1) (haY : rdAlloc s.mem Y = 1) (hadj : Y = X + rdSize s.mem X)
    (fuel : Nat) :
    ∃ t1 t2, mm_free C fuel s (bp_to_ap C Y) = some t1 ∧
      mm_free C fuel t1 (bp_to_ap C X) = some t2 ∧
      Coalesced C t2 (X - freeLeft s.mem X)
        (freeLeft s.mem X + rdSize s.mem X + rdSize s.mem Y + freeRight s.mem Y)
        X (Y + rdSize s.mem Y) := by
  obtain ⟨bl1, fl1, x1, p1⟩ := h.free_block hC hY haY
  have hX4 := (h.tiling.mem_bounds hX).2.2.1
  have hY4 := (h.tiling.mem_bounds hY).2.2.1
  have hXge := (h.tiling.mem_bounds hX).1
  have hXok := (h.tiling.mem_bounds hX).2.2
  unfold MIN_BLOCK_SIZE at hX4 hY4 hXge
  have hXY : X ≠ Y := by omega
  -- the first release does not merge left
  have hl1 : rdAlloc s.mem (Y - 1) ≠ 0 := by
    have := hXok.2.2 haX
    rw [show X + rdSize s.mem X - 1 = Y - 1 by omega] at this
    rw [this]; omega
  have hs1 := p1.x_size
  have hx1 := p1.x_eq
  rw [if_neg hl1] at hs1 hx1
  have hx1b : Y = x1 := hx1.symm
  subst hx1b
  have hX1 : X ∈ bl1 := p1.alloc_mem X hX haX hXY
  have hXfl : X ∉ fl := h.not_mem_fl haX (by omega)
  have hXu : Untouched s.mem (free_block C s Y).mem X :=
    (p1.kept X (List.mem_cons_of_mem _ hX1) hXY).2.2.untouched hXfl
  have hXa : rdAlloc (free_block C s Y).mem X = 1 := by
    rw [rdAlloc_congr (hXu X (Nat.le_refl _) (by omega))]; exact haX
  have hXs : rdSize (free_block C s Y).mem X = rdSize s.mem X :=
    rdSize_congr (hXu X (Nat.le_refl _) (by omega))
  obtain ⟨bl2, fl2, x2, p2⟩ := p1.wf.free_block hC hX1 hXa
  refine ⟨_, _, h.mm_free_live hC hY haY fuel, p1.wf.mm_free_live hC hX1 hXa fuel, ?_⟩
  have hlk := p1.left_kept h hX1 (by omega)
  have hs2 := p2.x_size
  have hx2 := p2.x_eq
  have hra : rdAlloc (free_block C s Y).mem (X + rdSize s.mem X) = 0 := by
    rw [← hadj]; exact p1.x_free
  rw [rdAlloc_congr hlk, rdSize_congr hlk, hXs, if_pos hra, ← hadj, hs1] at hs2
  rw [rdAlloc_congr hlk, rdSize_congr hlk] at hx2
  have hx24 := (p2.wf.tiling.mem_bounds (p2.wf.free_mem_bl p2.x_mem p2.x_free)).1
  unfold MIN_BLOCK_SIZE at hx24
  have hc2 := p2.covers
  rw [hXs] at hc2
  have hl : (if rdAlloc s.mem (X - 1) = 0 then rdSize s.mem (X - 1) else 0) =
      freeLeft s.mem X := rfl
  have hr : (if rdAlloc s.mem (Y + rdSize s.mem Y) = 0 then
      rdSize s.mem (Y + rdSize s.mem Y) else 0) = freeRight s.mem Y := rfl
  rw [hl, hr] at hs2
  have hxe : x2 = X - freeLeft s.mem X := by
    unfold freeLeft
    by_cases hh : rdAlloc s.mem (X - 1) = 0
    · rw [if_pos hh] at hx2 ⊢; exact hx2
    · rw [if_neg hh] at hx2 ⊢; omega
  rw [← hxe]
  refine p2.coalesced (by omega) ?_ ?_
  · by_cases hh : rdAlloc s.mem (X - 1) = 0
    · rw [if_pos hh] at hx2; omega
    · rw [if_neg hh] at hx2; omega
  · omega

/-- C3 (coalescing correctness): on a well-formed heap with allocated blocks
`X` and `Y`, `Y` starting where `X` ends, `mm_free` of `X` then `Y`, and of `Y`
then `X`, both succeed and leave a well-formed heap in which exactly one block
overlaps the units of `X` and `Y`: a free block that covers both, whose header
and footer size is `size X + size Y` plus the sizes of the left and right
neighbours that `free_block` merged (those whose adjacent boundary tag was
marked free), and that occurs in the free list exactly once. -/
theorem adjacent_release_coalesces {C : Config} (hC : C.Valid) {s : Heap} {bl fl : List Nat}
    (h : WFg C s bl fl) {X Y : Nat} (hX : X ∈ bl) (hY : Y ∈ bl)
    (haX : rdAlloc s.mem X = 1) (haY : rdAlloc s.mem Y = 1) (hadj : Y = X + rdSize s.mem X)
    (fuel : Nat) :
    (∃ t1 t2, mm_free C fuel s (bp_to_ap C X) = some t1 ∧
      mm_free C fuel t1 (bp_to_ap C Y) = some t2 ∧
      Coalesced C t2 (X - freeLeft s.mem X)
        (freeLeft s.mem X + rdSize s.mem X + rdSize s.mem Y + freeRight s.mem Y)
        X (Y + rdSize s.mem Y)) ∧
    (∃ t1 t2, mm_free C fuel s (bp_to_ap C Y) = some t1 ∧
      mm_free C fuel t1 (bp_to_ap C X) = some t2 ∧
      Coalesced C t2 (X - freeLeft s.mem X)
        (freeLeft s.mem X + rdSize s.mem X + rdSize s.mem Y + freeRight s.mem Y)
        X (Y + rdSize s.mem Y)) :=
  ⟨release_left_then_right hC h hX hY haX haY hadj fuel,
    release_right_then_left hC h hX hY haX haY hadj fuel⟩

theorem adjacent_release_coalesces_witness :
    WFg exConfig exHeapAB [4, 248, 252] [0, 4] ∧ rdAlloc exHeapAB.mem 248 = 1 ∧
      rdAlloc exHeapAB.mem 252 = 1 ∧ 252 = 248 + rdSize exHeapAB.mem 248 ∧
      freeLeft exHeapAB.mem 248 = 244 ∧ freeRight exHeapAB.mem 252 = 0 ∧
      ∃ t1 t2, mm_free exConfig 0 exHeapAB (bp_to_ap exConfig 252) = some t1 ∧
        mm_free exConfig 0 t1 (bp_to_ap exConfig 248) = some t2 ∧
        Coalesced exConfig t2 (248 - freeLeft exHeapAB.mem 248)
          (freeLeft exHeapAB.mem 248 + rdSize exHeapAB.mem 248 + rdSize exHeapAB.mem 252 +
            freeRight exHeapAB.mem 252) 248 (252 + rdSize exHeapAB.mem 252) :=
  ⟨by constructor <;> decide, by decide, by decide, by decide, by decide, by decide,
    (adjacent_release_coalesces exConfig_valid
      (by constructor <;> decide : WFg exConfig exHeapAB [4, 248, 252] [0, 4])
      (by decide) (by decide) (by decide) (by decide) (by decide) 0).2⟩

theorem le_growUnits (C : Config) (n : Nat) : n ≤ growUnits C n := by
  unfold growUnits
  split_ifs <;> omega

/-- Without wrap-around `mm_malloc` asks for `ceil(n / unit) + 2` units, raised
to the minimum block size. -/
theorem mallocUnits_eq {C : Config} (hC : C.Valid) (n : Nat) (hn : n + C.unit - 1 < WORD) :
    mallocUnits C n = max ((n + C.unit - 1) / C.unit + 2) MIN_BLOCK_SIZE := by
  unfold mallocUnits
  rw [byte_to_unit_of_lt C n hn]
  have h8 := hC.unit_ge
  have h1 : (n + C.unit - 1) / C.unit ≤ (n + C.unit - 1) / 8 :=
    Nat.div_le_div_left h8 (by norm_num)
  have h2 : (n + C.unit - 1) / C.unit + 2 < 2 ^ 64 := by
    unfold WORD at hn; omega
  rw [wrap_of_lt h2]
  unfold MIN_BLOCK_SIZE
  split_ifs <;> omega

/-- C1 (allocation result), the claim at a heap whose first fit is a free
block of 5 units: on the well-formed heap `exFive`, in which the provider can
grow, `mm_malloc(0)` returns the payload address of the block at unit 255,
whose header and footer carry the size 5, not 4. -/
theorem allocate_zero_returns_five_units :
    WFg exConfig exFive [4, 251, 255] [0, 4, 255] ∧
      exFive.brk + growUnits exConfig 4 * exConfig.unit ≤ exConfig.limit ∧
      ∃ t, mm_malloc exConfig 4 exFive 0 = some (t, some (bp_to_ap exConfig 255)) ∧
        rdAlloc t.mem 255 = 1 ∧ rdSize t.mem 255 = 5 ∧
        rdSize t.mem (header_to_footer t.mem 255) = 5 :=
  ⟨by constructor <;> decide, by decide, _, rfl, rfl, rfl, rfl⟩

/-- C1 (allocation result), amended: for a byte count `n` whose unit
computation does not wrap and a well-formed heap in which the provider can
grow by the request, `mm_malloc(n)` returns the non-null payload address of a
block whose header and footer are both marked allocated and carry the same
size `s` with `r ≤ s ≤ r + 3`, `r = max(ceil(n / unit) + 2, 4)`; for `n = 0`
the block has 4 to 7 units. -/
theorem allocate_block_bounds {C : Config} (hC : C.Valid) {s : Heap} {bl fl : List Nat}
    (h : WFg C s bl fl) (n fuel : Nat) (hn : n + C.unit - 1 < WORD)
    (hgrow : s.brk + growUnits C (max ((n + C.unit - 1) / C.unit + 2) MIN_BLOCK_SIZE) * C.unit
      ≤ C.limit)
    (hfuel : fl.length + 1 ≤ fuel) :
    ∃ t b, mm_malloc C fuel s n = some (t, some (bp_to_ap C b)) ∧ bp_to_ap C b ≠ 0 ∧
      rdAlloc t.mem b = 1 ∧ rdAlloc t.mem (header_to_footer t.mem b) = 1 ∧
      rdSize t.mem (header_to_footer t.mem b) = rdSize t.mem b ∧
      max ((n + C.unit - 1) / C.unit + 2) MIN_BLOCK_SIZE ≤ rdSize t.mem b ∧
      rdSize t.mem b ≤ max ((n + C.unit - 1) / C.unit + 2) MIN_BLOCK_SIZE + 3 ∧
      (n = 0 → 4 ≤ rdSize t.mem b ∧ rdSize t.mem b ≤ 7) := by
  have hr := mallocUnits_eq hC n hn
  set r := max ((n + C.unit - 1) / C.unit + 2) MIN_BLOCK_SIZE with hrdef
  have hr4 : MIN_BLOCK_SIZE ≤ r := le_max_right _ _
  have hnu : r * C.unit < WORD := by
    have h1 := Nat.mul_le_mul_right C.unit (le_growUnits C r)
    have h2 := hC.fits
    have h3 := hC.lo_pos
    omega
  rcases h.get_block hC hr4 hnu fuel hfuel with ⟨t, b, bl1, fl1, hg, hp, -⟩ | ⟨-, -, href⟩
  · have hok := (hp.wf.tiling.mem_bounds hp.b_mem).2.2
    have hs := hp.b_size
    unfold MIN_BLOCK_SIZE at hs
    refine ⟨t, b, mm_malloc_block C fuel s t n b h.ready (by rw [hr]; exact hg),
      bp_to_ap_ne_zero hC b, hp.b_alloc, hok.2.2 hp.b_alloc, hok.2.1, hs.1, by omega, ?_⟩
    intro h0
    have hu := hC.unit_pos
    have hq : (n + C.unit - 1) / C.unit = 0 := by
      rw [h0, Nat.zero_add]
      exact Nat.div_eq_of_lt (by omega)
    have hr0 : r = 4 := by
      rw [hrdef, hq]; rfl
    omega
  · exact absurd hgrow href

theorem allocate_block_bounds_witness :
    WFg exConfig exFive [4, 251, 255] [0, 4, 255] ∧ 0 + exConfig.unit - 1 < WORD ∧
      [0, 4, 255].length + 1 ≤ 4 ∧
      ∃ t b, mm_malloc exConfig 4 exFive 0 = some (t, some (bp_to_ap exConfig b)) ∧
        bp_to_ap exConfig b ≠ 0 ∧
        rdAlloc t.mem b = 1 ∧ rdAlloc t.mem (header_to_footer t.mem b) = 1 ∧
        rdSize t.mem (header_to_footer t.mem b) = rdSize t.mem b ∧
        max ((0 + exConfig.unit - 1) / exConfig.unit + 2) MIN_BLOCK_SIZE ≤ rdSize t.mem b ∧
        rdSize t.mem b ≤ max ((0 + exConfig.unit - 1) / exConfig.unit + 2) MIN_BLOCK_SIZE + 3 ∧
        (0 = 0 → 4 ≤ rdSize t.mem b ∧ rdSize t.mem b ≤ 7) :=
  ⟨by constructor <;> decide, by decide, by decide,
    allocate_block_bounds exConfig_valid
      (by constructor <;> decide : WFg exConfig exFive [4, 251, 255] [0, 4, 255]) 0 4
      (by decide) (by decide) (by decide)⟩

/-- Writing payload units of an allocated block (units strictly between its
header and its footer) keeps the heap well formed and leaves every other block
as it was. -/
theorem WFg.payload_write {C : Config} {s : Heap} {bl fl : List Nat} (h : WFg C s bl fl)
    {nb : Nat} (hnb : nb ∈ bl) (ha : rdAlloc s.mem nb = 1) (m1 : Nat → Nat)
    (hm : ∀ j, ¬ (nb < j ∧ j < nb + rdSize s.mem nb - 1) → m1 j = s.mem j) :
    WFg C { s with mem := m1 } bl fl ∧ ∀ c ∈ 0 :: bl, c ≠ nb → Untouched s.mem m1 c := by
  have hnb0 : nb ∈ 0 :: bl := List.mem_cons_of_mem _ hnb
  have hn4 := (h.tiling.mem_bounds hnb).1
  have hnN := h.lt_units hnb0
  have hu := h.units_ge
  unfold MIN_BLOCK_SIZE at hn4
  have others : ∀ c ∈ 0 :: bl, c ≠ nb → Untouched s.mem m1 c := by
    intro c hc hne j h1 h2
    refine hm j ?_
    rcases h.tiling0.disjoint hc hnb0 hne with h3 | h3 <;> omega
  have tag : ∀ c ∈ 0 :: bl, SameTags s.mem m1 c := by
    intro c hc
    have hc4 := (h.tiling0.mem_bounds hc).2.2.1
    unfold MIN_BLOCK_SIZE at hc4
    by_cases hne : c = nb
    · subst hne
      exact SameTags.of_eq (hm _ (by omega)) (hm _ (by omega))
    · exact (others c hc hne).same_tags (by unfold MIN_BLOCK_SIZE; omega)
  have hfl : ∀ x ∈ fl, Untouched s.mem m1 x := by
    intro x hx
    refine others x (h.fl_sub x hx) ?_
    rintro rfl
    exact h.not_mem_fl ha (by omega) hx
  have hfl4 : ∀ x ∈ fl, 4 ≤ rdSize s.mem x := by
    intro x hx
    have := (h.tiling0.mem_bounds (h.fl_sub x hx)).2.2.1
    unfold MIN_BLOCK_SIZE at this
    exact this
  refine ⟨?_, others⟩
  refine
    { units_ge := h.units_ge
      brk_eq := h.brk_eq
      brk_le := h.brk_le
      dummy_hdr := ?_
      dummy_ftr := ?_
      tail := ?_
      tiling := Tiling.tiling_congr (fun b hb => tag b (List.mem_cons_of_mem _ hb)) h.tiling
      cursor := h.cursor
      cyc := ?_
      nodup := h.nodup
      dummy_mem := h.dummy_mem
      fl_free := ?_
      free_fl := ?_ }
  · have e : m1 0 = s.mem 0 := hm 0 (by omega)
    show rdAlloc m1 0 = 1 ∧ rdSize m1 0 = MIN_BLOCK_SIZE
    rw [rdAlloc_congr e, rdSize_congr e]; exact h.dummy_hdr
  · have e : m1 3 = s.mem 3 := hm 3 (by omega)
    show rdAlloc m1 3 = 1 ∧ rdSize m1 3 = MIN_BLOCK_SIZE
    rw [rdAlloc_congr e, rdSize_congr e]; exact h.dummy_ftr
  · have e : m1 (s.units C - 1) = s.mem (s.units C - 1) := hm _ (by omega)
    show rdAlloc m1 (s.units C - 1) = 1 ∧ rdSize m1 (s.units C - 1) = 1
    rw [rdAlloc_congr e, rdSize_congr e]; exact h.tail
  · show Seg C m1 fl (fl.headD 0)
    refine Seg.seg_congr ?_ ?_ ?_ h.cyc
    · intro x hx
      have := hfl4 x hx
      exact hfl x hx _ (by omega) (by omega)
    · intro y hy
      have hy1 := List.mem_of_mem_tail hy
      have := hfl4 y hy1
      exact hfl y hy1 _ (by omega) (by omega)
    · intro hne
      have hmem : fl.headD 0 ∈ fl := by
        cases fl with
        | nil => exact absurd rfl hne
        | cons a l => simp
      have := hfl4 _ hmem
      exact hfl _ hmem _ (by omega) (by omega)
  · intro x hx hx0
    have := h.fl_free x hx hx0
    refine ⟨this.1, ?_⟩
    show rdAlloc m1 x = 0
    rw [(tag x (h.fl_sub x hx)).2.1]; exact this.2
  · intro b hb hb0
    refine h.free_fl b hb ?_
    rw [← (tag b (List.mem_cons_of_mem _ hb)).2.1]; exact hb0

/-- The block `free_block` leaves is the released block or its free left
neighbour. -/
theorem FreePost.x_cases {C : Config} {s t : Heap} {bl fl bl1 fl1 : List Nat} {b x : Nat}
    (hp : FreePost C s t bl fl bl1 fl1 b x) (hs : WFg C s bl fl) (hb : b ∈ bl) :
    x = b ∨ (x ∈ bl ∧ rdAlloc s.mem x = 0) := by
  by_cases hl : rdAlloc s.mem (b - 1) = 0
  · right
    have hx := hp.x_eq
    rw [if_pos hl] at hx
    have hb4 := (hs.tiling.mem_bounds hb).1
    unfold MIN_BLOCK_SIZE at hb4
    obtain ⟨l1, l2, c, e, hc⟩ := hs.tiling0.left_neighbour (List.mem_cons_of_mem 0 hb) (by omega)
    have hc0 : c ∈ 0 :: bl := by rw [e]; simp
    have hok := (hs.tiling0.mem_bounds hc0).2.2
    have hc4 := hok.1
    unfold MIN_BLOCK_SIZE at hc4
    have e1 : c + rdSize s.mem c - 1 = b - 1 := by omega
    have hsz := hok.2.1
    rw [e1] at hsz
    have hxc : x = c := by omega
    have hfree : rdAlloc s.mem c = 0 := by
      rcases rdAlloc_cases s.mem c with h0 | h1
      · exact h0
      · have := hok.2.2 h1
        rw [e1] at this
        omega
    rw [hxc]
    refine ⟨?_, hfree⟩
    rcases List.mem_cons.1 hc0 with h0 | h0
    · exact absurd h0 (hs.free_ne_zero hfree)
    · exact h0
  · left
    have hx := hp.x_eq
    rw [if_neg hl] at hx
    exact hx

/-- Source `mm_realloc`, the branch that moves the block: with a fresh block
`nb` from `get_block`, the payload of `b` is copied and `b` released. -/
theorem mm_realloc_move {C : Config} (hC : C.Valid) (fuel : Nat) (s s1 : Heap) (b nb n r : Nat)
    (hf : find_block C fuel s (bp_to_ap C b) = some (some b))
    (hr : wrap (byte_to_unit C n + 2) = r) (hlt : rdSize s.mem b < r)
    (hg : get_block C fuel s r = some (s1, some nb))
    (h2 : 2 ≤ rdSize s.mem b) (hw : rdSize s.mem b * C.unit < WORD) :
    mm_realloc C fuel s (bp_to_ap C b) n =
      some (free_block C
        { s1 with mem := memcpy_units s1.mem (nb + 1) (b + 1) (rdSize s.mem b - 2) } b,
        some (bp_to_ap C nb)) := by
  have hu := hC.unit_pos
  have hsz := rdSize_lt s.mem b
  have e1 : wrap (rdSize s.mem b + WORD - 2) = rdSize s.mem b - 2 := by
    unfold wrap WORD
    omega
  have e2 : unit_to_byte C (rdSize s.mem b - 2) / C.unit = rdSize s.mem b - 2 := by
    unfold unit_to_byte
    have : (rdSize s.mem b - 2) * C.unit ≤ rdSize s.mem b * C.unit :=
      Nat.mul_le_mul_right _ (by omega)
    rw [wrap_of_lt (by unfold WORD at hw; omega)]
    exact Nat.mul_div_cancel _ hu
  have e3 : (bp_to_ap C b - C.lo) % C.unit = 0 := by
    unfold bp_to_ap nodeAddr
    rw [Nat.add_sub_cancel_left]
    exact Nat.mul_mod_left _ _
  have e4 : nodeOfAddr C (bp_to_ap C b) = b + 1 := nodeOfAddr_nodeAddr hC (b + 1)
  unfold mm_realloc
  rw [if_neg (bp_to_ap_ne_zero hC b), hf]
  simp only []
  rw [hr, if_neg (by omega), hg]
  simp only []
  rw [if_pos e3, e1, e2, e4]

/-- C9 (resize preserves content): on a well-formed heap, for a live payload
address `p` of a block `b` of `s` units and a byte count `n` with
`ceil(n / unit) + 2 > s` for which the allocation succeeds (a free-list node
fits the request or the provider can grow by it), `mm_realloc(p, n)` returns
the payload address `q ≠ p` of a block `nb` marked allocated in the resulting
well-formed heap; the first `s - 2` payload units at `q` hold what the payload
units at `p` held before the call, also after the release of the old block;
and the old block is free afterwards, covered by a free block of the free
list. -/
theorem resize_preserves_content {C : Config} (hC : C.Valid) {s : Heap} {bl fl : List Nat}
    (h : WFg C s bl fl) {b : Nat} (hb : b ∈ bl) (ha : rdAlloc s.mem b = 1) (n fuel : Nat)
    (hgt : rdSize s.mem b < (n + C.unit - 1) / C.unit + 2)
    (hok : (∃ z ∈ fl, Fits s.mem ((n + C.unit - 1) / C.unit + 2) z) ∨
      s.brk + growUnits C ((n + C.unit - 1) / C.unit + 2) * C.unit ≤ C.limit)
    (hfuel : fl.length + 1 ≤ fuel) :
    ∃ t nb bl2 fl2, mm_realloc C fuel s (bp_to_ap C b) n = some (t, some (bp_to_ap C nb)) ∧
      bp_to_ap C nb ≠ bp_to_ap C b ∧ WFg C t bl2 fl2 ∧ nb ∈ bl2 ∧ rdAlloc t.mem nb = 1 ∧
      (n + C.unit - 1) / C.unit + 2 ≤ rdSize t.mem nb ∧
      (∀ k, k < rdSize s.mem b - 2 → t.mem (nb + 1 + k) = s.mem (b + 1 + k)) ∧
      rdAlloc t.mem b = 0 ∧
      ∃ x ∈ fl2, rdAlloc t.mem x = 0 ∧ x ≤ b ∧ b + rdSize s.mem b ≤ x + rdSize t.mem x := by
  have hu := hC.unit_pos
  have hb0 : b ∈ 0 :: bl := List.mem_cons_of_mem _ hb
  have hb4 := (h.tiling.mem_bounds hb).2.2.1
  have hbN := h.lt_units hb0
  have hun := h.units_ge
  unfold MIN_BLOCK_SIZE at hb4
  set q := (n + C.unit - 1) / C.unit with hq
  have hlim : (q + 2) * C.unit ≤ C.limit := by
    rcases hok with ⟨z, hz, -, hzs⟩ | hg
    · have h1 := h.lt_units (h.fl_sub z hz)
      have h2 : (q + 2) * C.unit ≤ s.units C * C.unit := Nat.mul_le_mul_right _ (by omega)
      have h3 := h.brk_eq
      have h4 := h.brk_le
      omega
    · have h1 := Nat.mul_le_mul_right C.unit (le_growUnits C (q + 2))
      omega
  have hfit := hC.fits
  have hlo := hC.lo_pos
  have hnu : (q + 2) * C.unit < WORD := by omega
  have hmul : (q + 2) * C.unit = C.unit * q + 2 * C.unit := by ring
  have hnw : n + C.unit - 1 < WORD := by
    have h1 := Nat.div_add_mod (n + C.unit - 1) C.unit
    have h2 := Nat.mod_lt (n + C.unit - 1) hu
    rw [← hq] at h1
    omega
  have hreq : wrap (byte_to_unit C n + 2) = q + 2 := by
    rw [byte_to_unit_of_lt C n hnw]
    have h1 : q + 2 ≤ (q + 2) * C.unit := Nat.le_mul_of_pos_right _ hu
    exact wrap_of_lt (by unfold WORD at hnu; omega)
  have hr4 : MIN_BLOCK_SIZE ≤ q + 2 := by unfold MIN_BLOCK_SIZE; omega
  rcases h.get_block hC hr4 hnu fuel hfuel with ⟨s1, nb, bl1, fl1, hg, hp, -⟩ | ⟨-, hno, href⟩
  swap
  · rcases hok with ⟨z, hz, hf⟩ | hg
    · exact absurd hf (hno z hz)
    · exact absurd hg href
  have hbk := hp.kept b hb ha
  have hne : b ≠ nb := hp.b_new b hb ha
  have hsb : rdSize s1.mem b = rdSize s.mem b := rdSize_congr (hbk.2 b (Nat.le_refl _) (by omega))
  have hab : rdAlloc s1.mem b = 1 := by
    rw [rdAlloc_congr (hbk.2 b (Nat.le_refl _) (by omega))]; exact ha
  have hnbs := hp.b_size.1
  have hw : rdSize s.mem b * C.unit < WORD := by
    have : rdSize s.mem b * C.unit ≤ (q + 2) * C.unit := Nat.mul_le_mul_right _ (by omega)
    omega
  have hmv := mm_realloc_move hC fuel s s1 b nb n (q + 2) (h.find_block_live hC hb ha fuel) hreq
    hgt hg (by omega) hw
  set m1 := memcpy_units s1.mem (nb + 1) (b + 1) (rdSize s.mem b - 2) with hm1
  have hm : ∀ j, ¬ (nb < j ∧ j < nb + rdSize s1.mem nb - 1) → m1 j = s1.mem j := by
    intro j hj
    rw [hm1]
    unfold memcpy_units
    rw [if_neg (by omega)]
  obtain ⟨hwf2, hun2⟩ := hp.wf.payload_write hp.b_mem hp.b_alloc m1 hm
  have hb1 : b ∈ 0 :: bl1 := List.mem_cons_of_mem _ hbk.1
  have hbm : m1 b = s1.mem b := hun2 b hb1 hne b (Nat.le_refl _) (by omega)
  have hb2a : rdAlloc m1 b = 1 := by rw [rdAlloc_congr hbm]; exact hab
  have hb2s : rdSize m1 b = rdSize s.mem b := by rw [rdSize_congr hbm]; exact hsb
  have hnbm : m1 nb = s1.mem nb := hm nb (by omega)
  have hnb2a : rdAlloc m1 nb = 1 := by rw [rdAlloc_congr hnbm]; exact hp.b_alloc
  have hnb2s : rdSize m1 nb = rdSize s1.mem nb := rdSize_congr hnbm
  obtain ⟨bl2, fl2, x, p2⟩ := hwf2.free_block hC hbk.1 hb2a
  have hnb2 : nb ∈ bl2 := p2.alloc_mem nb hp.b_mem hnb2a (Ne.symm hne)
  have hnbx : nb ≠ x := by
    rcases p2.x_cases hwf2 hbk.1 with hx | ⟨-, hx⟩
    · rw [hx]; exact Ne.symm hne
    · rintro rfl
      have : rdAlloc m1 nb = 0 := hx
      omega
  have hnb4 := (hp.wf.tiling.mem_bounds hp.b_mem).1
  unfold MIN_BLOCK_SIZE at hnb4
  have hnbfl : nb ∉ fl1 := hwf2.not_mem_fl hnb2a (by omega)
  have hku : Untouched m1 (free_block C { s1 with mem := m1 } b).mem nb :=
    (p2.kept nb (List.mem_cons_of_mem _ hnb2) hnbx).2.2.untouched hnbfl
  have hcov := p2.covers
  refine ⟨_, nb, bl2, fl2, hmv, ?_, p2.wf, hnb2, ?_, ?_, ?_, p2.hdr_free, x, p2.x_mem, p2.x_free,
    hcov.1, ?_⟩
  · intro e
    exact hne (Nat.succ_injective (nodeAddr_inj hC e)).symm
  · rw [rdAlloc_congr (hku nb (Nat.le_refl _) (by omega))]; exact hnb2a
  · rw [rdSize_congr (hku nb (Nat.le_refl _) (by omega)), hnb2s]; exact hnbs
  · intro k hk
    rw [hku (nb + 1 + k) (by omega) (by omega)]
    have e1 : m1 (nb + 1 + k) = s1.mem (b + 1 + k) := by
      rw [hm1]
      unfold memcpy_units
      rw [if_pos (by omega)]
      congr 1
      omega
    rw [e1]
    exact hbk.2 _ (by omega) (by omega)
  · have := hcov.2
    rw [hb2s] at this
    exact this

theorem resize_preserves_content_witness :
    WFg exConfig exHeapA [4, 252] [0, 4] ∧ 252 ∈ [4, 252] ∧ rdAlloc exHeapA.mem 252 = 1 ∧
      rdSize exHeapA.mem 252 < (200 + exConfig.unit - 1) / exConfig.unit + 2 ∧
      (∃ z ∈ [0, 4], Fits exHeapA.mem ((200 + exConfig.unit - 1) / exConfig.unit + 2) z) ∧
      ∃ t nb bl2 fl2,
        mm_realloc exConfig 3 exHeapA (bp_to_ap exConfig 252) 200 =
          some (t, some (bp_to_ap exConfig nb)) ∧
        bp_to_ap exConfig nb ≠ bp_to_ap exConfig 252 ∧ WFg exConfig t bl2 fl2 ∧ nb ∈ bl2 ∧
        rdAlloc t.mem nb = 1 ∧
        (200 + exConfig.unit - 1) / exConfig.unit + 2 ≤ rdSize t.mem nb ∧
        (∀ k, k < rdSize exHeapA.mem 252 - 2 → t.mem (nb + 1 + k) = exHeapA.mem (252 + 1 + k)) ∧
        rdAlloc t.mem 252 = 0 ∧
        ∃ x ∈ fl2, rdAlloc t.mem x = 0 ∧ x ≤ 252 ∧
          252 + rdSize exHeapA.mem 252 ≤ x + rdSize t.mem x :=
  ⟨by constructor <;> decide, by decide, by decide, by decide, by decide,
    resize_preserves_content exConfig_valid
      (by constructor <;> decide : WFg exConfig exHeapA [4, 252] [0, 4]) (by decide) (by decide)
      200 3 (by decide) (Or.inl (by decide)) (by decide)⟩

/-- C4 (invalid pointer rejection), the claim at addresses strictly inside the
payload of a live block: on the heap holding the 8-unit block `A` at unit 252,
`mm_free` of the unaligned address one byte past `A`'s payload address, and of
the aligned address one unit past it, releases `A` (its header is free
afterwards and the free block at unit 4 has absorbed it) and leaves `errno` at
0; `mm_realloc` of the aligned interior address to 8 bytes returns that
address, not null. -/
theorem interior_address_is_released :
    WFg exConfig exHeapA [4, 252] [0, 4] ∧ rdAlloc exHeapA.mem 252 = 1 ∧
      rdSize exHeapA.mem 252 = 8 ∧
      (∃ t, mm_free exConfig 4 exHeapA (bp_to_ap exConfig 252 + 1) = some t ∧ t.errno = 0 ∧
        rdAlloc t.mem 252 = 0 ∧ rdSize t.mem 4 = 256) ∧
      (∃ t, mm_free exConfig 4 exHeapA (bp_to_ap exConfig 252 + 16) = some t ∧ t.errno = 0 ∧
        rdAlloc t.mem 252 = 0 ∧ rdSize t.mem 4 = 256) ∧
      mm_realloc exConfig 4 exHeapA (bp_to_ap exConfig 252 + 16) 8 =
        some (exHeapA, some (bp_to_ap exConfig 252 + 16)) :=
  ⟨by constructor <;> decide, by decide, by decide, ⟨_, rfl, rfl, rfl, rfl⟩,
    ⟨_, rfl, rfl, rfl, rfl⟩, rfl⟩

/-- C4 (invalid pointer rejection), amended: on a well-formed heap, for every
address `a` that lies in a free block and does not pass the direct validation
of `find_block`, `mm_free(a)` sets `errno` to `EFAULT` and changes nothing
else (no block, no free-list link, not the cursor), and `mm_realloc(a, n)`
returns null with the same signal and no other change. -/
theorem free_block_address_rejected {C : Config} (hC : C.Valid) {s : Heap} {bl fl : List Nat}
    (h : WFg C s bl fl) (c a : Nat) (hc : c ∈ bl) (hfree : rdAlloc s.mem c = 0)
    (hin : InBlock C s.mem c a) (hd : ¬ DirectOK C s a) (n fuel : Nat)
    (hfuel : bl.length + 1 ≤ fuel) :
    mm_free C fuel s a = some { s with errno := EFAULT } ∧
      mm_realloc C fuel s a n = some ({ s with errno := EFAULT }, none) := by
  have hf : find_block C fuel s a = some none := by
    rw [h.find_block_slow hC hc hin hd fuel hfuel, hfree]
    simp
  have ha : a ≠ 0 := by
    have h1 := nodeAddr_pos hC c
    have h2 := hin.1
    omega
  constructor
  · unfold mm_free
    rw [if_neg ha, hf]
  · unfold mm_realloc
    rw [if_neg ha, hf]

theorem free_block_address_rejected_witness :
    WFg exConfig exHeapA [4, 252] [0, 4] ∧ rdAlloc exHeapA.mem 4 = 0 ∧
      InBlock exConfig exHeapA.mem 4 (nodeAddr exConfig 100 + 5) ∧
      ¬ DirectOK exConfig exHeapA (nodeAddr exConfig 100 + 5) ∧
      mm_free exConfig 3 exHeapA (nodeAddr exConfig 100 + 5) =
        some { exHeapA with errno := EFAULT } ∧
      mm_realloc exConfig 3 exHeapA (nodeAddr exConfig 100 + 5) 64 =
        some ({ exHeapA with errno := EFAULT }, none) :=
  ⟨by constructor <;> decide, by decide, by decide, by decide,
    free_block_address_rejected exConfig_valid
      (by constructor <;> decide : WFg exConfig exHeapA [4, 252] [0, 4]) 4
      (nodeAddr exConfig 100 + 5) (by decide) (by decide) (by decide) (by decide) 64 3
      (by decide)⟩

/-! ## The free-space query -/

/-- The loop of `mm_getfree` at an allocated node whose predecessor link is
not the cursor: the walking pointer is not advanced, so no amount of fuel
gives a result. -/
theorem mm_getfree_loop_stuck (C : Config) (m : Nat → Nat) (fp tmp : Nat)
    (h1 : rdP C m (tmp + 1) ≠ fp) (h2 : rdAlloc m tmp ≠ 0) :
    ∀ fuel res, mm_getfree_loop C m fp fuel tmp res = none := by
  intro fuel
  induction fuel with
  | zero => intro res; rfl
  | succ k ih =>
    intro res
    unfold mm_getfree_loop
    rw [if_pos h1, if_neg h2]
    exact ih res

/-- One step of the loop of `mm_getfree` at a free node whose predecessor link
is not the cursor. -/
theorem mm_getfree_loop_step (C : Config) (m : Nat → Nat) (fp tmp fuel res : Nat)
    (h1 : rdP C m (tmp + 1) ≠ fp) (h2 : rdAlloc m tmp = 0) :
    mm_getfree_loop C m fp (fuel + 1) tmp res =
      mm_getfree_loop C m fp fuel (rdP C m (tmp + 1))
        (wrap (res + wrap (rdSize m tmp + WORD - 2))) := by
  conv_lhs => unfold mm_getfree_loop
  rw [if_pos h1, if_pos h2]

theorem exStuck_getfree : ∀ fuel, mm_getfree exConfig fuel exStuck = none := by
  intro fuel
  have hf : exStuck.freep = some 4 := by decide
  unfold mm_getfree
  rw [hf]
  simp only []
  cases fuel with
  | zero => rfl
  | succ k =>
    rw [mm_getfree_loop_step exConfig exStuck.mem 4 4 k _ (by decide) (by decide)]
    have h5 : rdP exConfig exStuck.mem (4 + 1) = 0 := by decide
    rw [h5]
    exact mm_getfree_loop_stuck exConfig exStuck.mem 4 0 (by decide) (by decide) k _

/-- C11 (free-space query terminates), evaluated: on the well-formed heap
`exStuck`, reached by `mm_init; A = mm_malloc(48); G = mm_malloc(16);
mm_free(A); p = mm_malloc(64); mm_free(p)`, the cursor is the free block at
unit 4, whose successor in the free list is the free block at unit 255; the
walk of `mm_getfree` goes from the cursor to the dummy and stays there, so the
query gives no result for any number of loop iterations. -/
theorem getfree_never_returns :
    WFg exConfig exStuck [4, 251, 255] [0, 4, 255] ∧ exStuck.freep = some 4 ∧
      rdP exConfig exStuck.mem (4 + 2) = 255 ∧ rdAlloc exStuck.mem 255 = 0 ∧
      ∀ fuel, mm_getfree exConfig fuel exStuck = none :=
  ⟨by constructor <;> decide, by decide, by decide, by decide, exStuck_getfree⟩

/-- C12 (allocate/release round trip), evaluated: on the heap `exFive` the
query returns 4048.  `p = mm_malloc(3920)` takes the whole free block at unit
4 without heap growth and `mm_free(p)` gives it back, after which the query
returns 7920.  `p = mm_malloc(64)` is split off the same block without heap
growth and `mm_free(p)` merges it back, after which the query gives no
result. -/
theorem round_trip_changes_getfree :
    mm_getfree exConfig 4 exFive = some 4048 ∧
      (∃ t p u, mm_malloc exConfig 4 exFive 3920 = some (t, some p) ∧ t.brk = exFive.brk ∧
        rdSize t.mem (ap_to_bp exConfig p) = rdSize exFive.mem 4 ∧
        mm_free exConfig 4 t p = some u ∧ mm_getfree exConfig 4 u = some 7920) ∧
      (∃ t p u, mm_malloc exConfig 4 exFive 64 = some (t, some p) ∧ t.brk = exFive.brk ∧
        rdSize t.mem 4 + 6 = rdSize exFive.mem 4 ∧
        mm_free exConfig 4 t p = some u ∧ ∀ fuel, mm_getfree exConfig fuel u = none) :=
  ⟨by decide, ⟨_, _, _, rfl, rfl, by decide, rfl, by decide⟩,
    ⟨afterMalloc exConfig exFive 64, addrMalloc exConfig exFive 64, exStuck, rfl, rfl, by decide,
      rfl, exStuck_getfree⟩⟩

/-- C13 (request rounding), evaluated: for the byte count `2^64 - 1` the sum
`nbytes + sizeof(Node) - 1` wraps, `byte_to_unit` gives 0 where
`ceil(n / unit)` is `2^60`, and right after `mm_init` `mm_malloc(2^64 - 1)`
returns a block of 4 units, whose payload capacity is 32 bytes.  For the byte
count `2^64 - 16` the unit count is `2^60 + 1`, and the byte amount
`extend_heap` asks of the provider for it wraps to 16. -/
theorem huge_request_gets_minimum_block :
    byte_to_unit exConfig (2 ^ 64 - 1) = 0 ∧
      (2 ^ 64 - 1 + exConfig.unit - 1) / exConfig.unit = 2 ^ 60 ∧
      (∃ t, mm_malloc exConfig 2 exInit (2 ^ 64 - 1) = some (t, some (bp_to_ap exConfig 256)) ∧
        rdAlloc t.mem 256 = 1 ∧ rdSize t.mem 256 = 4 ∧
        (rdSize t.mem 256 - 2) * exConfig.unit = 32) ∧
      mallocUnits exConfig (2 ^ 64 - 16) = 2 ^ 60 + 1 ∧
      unit_to_byte exConfig (growUnits exConfig (mallocUnits exConfig (2 ^ 64 - 16))) = 16 :=
  ⟨by decide, by decide, ⟨_, rfl, rfl, rfl, rfl⟩, by decide, by decide⟩

/-- C14 (the dummy block is permanently allocated), evaluated: right after
`mm_init`, `find_block` resolves the address one byte past the heap start to
the dummy block (by the heap scan) and the dummy's own payload address to the
dummy block as well (by the direct validation); `mm_free` of either address
runs `free_block` on the dummy, after which the dummy's header and footer are
marked free.  (`free_block` clears the two flags first and then reads the unit
before the heap start, which is outside the region; the statement is about the
two flags only.) -/
theorem dummy_block_is_released :
    find_block exConfig 2 exInit (mem_heap_lo exConfig + 1) = some (some 0) ∧
      find_block exConfig 2 exInit (bp_to_ap exConfig 0) = some (some 0) ∧
      (∃ t, mm_free exConfig 2 exInit (mem_heap_lo exConfig + 1) = some t ∧
        rdAlloc t.mem 0 = 0 ∧ rdAlloc t.mem 3 = 0) ∧
      (∃ t, mm_free exConfig 2 exInit (bp_to_ap exConfig 0) = some t ∧
        rdAlloc t.mem 0 = 0 ∧ rdAlloc t.mem 3 = 0) :=
  ⟨by decide, by decide, ⟨_, rfl, rfl, rfl⟩, ⟨_, rfl, rfl, rfl⟩⟩

/-- C17 (header/footer match), evaluated: over provider memory whose unit 254
has its lowest bit set, `mm_init; A = mm_malloc(48)` splits `A` off the fresh
free block at unit 4; the split writes the size of the remaining block into
its new footer, unit 254, but not the flag, so the block's header is marked
free while its footer is marked allocated.  `mm_free(A)` then finds the
footer on its left allocated and does not merge: the free blocks at units 4
and 255 stay adjacent. -/
theorem split_leaves_stale_footer_flag :
    WFg exConfig exDirtyA [4, 255] [0, 4] ∧
      rdAlloc exDirtyA.mem 4 = 0 ∧ rdSize exDirtyA.mem 4 = 251 ∧
      header_to_footer exDirtyA.mem 4 = 254 ∧
      rdSize exDirtyA.mem 254 = 251 ∧ rdAlloc exDirtyA.mem 254 = 1 ∧
      ∃ t, mm_free exConfig 2 exDirtyA (bp_to_ap exConfig 255) = some t ∧
        rdAlloc t.mem 4 = 0 ∧ rdSize t.mem 4 = 251 ∧
        rdAlloc t.mem 255 = 0 ∧ rdSize t.mem 255 = 5 :=
  ⟨by constructor <;> decide, by decide, by decide, by decide, by decide, by decide,
    _, rfl, rfl, rfl, rfl, rfl⟩

/-! ## `reset_heap` -/

theorem rdAlloc_wrP_ne (C : Config) (m : Nat → Nat) (i q j : Nat) (h : j ≠ i) :
    rdAlloc (wrP C m i q) j = rdAlloc m j := rdAlloc_congr (wrP_ne C m i q j h)

theorem rdSize_wrP_ne (C : Config) (m : Nat → Nat) (i q j : Nat) (h : j ≠ i) :
    rdSize (wrP C m i q) j = rdSize m j := rdSize_congr (wrP_ne C m i q j h)

/-- The memory `reset_heap` leaves when the provider grants the initial five
units. -/
theorem reset_heap_eq (C : Config) (s : Heap)
    (hl : s.brk + (MIN_BLOCK_SIZE + 1) * C.unit ≤ C.limit) :
    reset_heap C s =
      { s with
        brk := s.brk + (MIN_BLOCK_SIZE + 1) * C.unit
        mem := wrAlloc (wrSize (wrP C (wrP C (wrAlloc (wrAlloc
          (wrSize (wrSize s.mem 0 MIN_BLOCK_SIZE) 3 MIN_BLOCK_SIZE) 3 1) 0 1) 2 0) 1 0) 4 1) 4 1
        freep := some 0 } := by
  have e : header_to_footer (wrSize s.mem 0 MIN_BLOCK_SIZE) 0 = 3 := by
    unfold header_to_footer
    rw [rdSize_wrSize_same _ _ _ (by unfold MIN_BLOCK_SIZE; norm_num)]
    rfl
  unfold reset_heap mem_sbrk
  rw [if_pos hl]
  simp only [e]
  rfl

/-- What `reset_heap` sets up on an empty region: the dummy block, linked to
itself, the tail sentinel right after it, and the cursor on the dummy. -/
theorem reset_heap_spec {C : Config} (hC : C.Valid) (s : Heap) (hb : s.brk = 0)
    (hl : (MIN_BLOCK_SIZE + 1) * C.unit ≤ C.limit) :
    WFg C (reset_heap C s) [] [0] ∧ (reset_heap C s).freep = some 0 ∧
      (reset_heap C s).brk = (MIN_BLOCK_SIZE + 1) * C.unit ∧
      (reset_heap C s).errno = s.errno ∧
      LinkTo C (reset_heap C s).mem 1 0 ∧ LinkTo C (reset_heap C s).mem 2 0 ∧
      rdAlloc (reset_heap C s).mem 4 = 1 ∧ rdSize (reset_heap C s).mem 4 = 1 := by
  have hu := hC.unit_pos
  rw [reset_heap_eq C s (by rw [hb]; omega)]
  set M := wrAlloc (wrSize (wrP C (wrP C (wrAlloc (wrAlloc
    (wrSize (wrSize s.mem 0 MIN_BLOCK_SIZE) 3 MIN_BLOCK_SIZE) 3 1) 0 1) 2 0) 1 0) 4 1) 4 1 with hM
  have h0 : nodeAddr C 0 < WORD := by
    have := hC.fits
    unfold nodeAddr
    unfold MIN_BLOCK_SIZE at hl
    omega
  have a0 : rdAlloc M 0 = 1 := by
    rw [hM, rdAlloc_wrAlloc, if_neg (by omega), rdAlloc_wrSize, rdAlloc_wrP_ne _ _ _ _ _ (by omega),
      rdAlloc_wrP_ne _ _ _ _ _ (by omega), rdAlloc_wrAlloc, if_pos rfl]
  have s0 : rdSize M 0 = MIN_BLOCK_SIZE := by
    rw [hM, rdSize_wrAlloc, rdSize_wrSize, if_neg (by omega), rdSize_wrP_ne _ _ _ _ _ (by omega),
      rdSize_wrP_ne _ _ _ _ _ (by omega), rdSize_wrAlloc, rdSize_wrAlloc, rdSize_wrSize,
      if_neg (by omega), rdSize_wrSize, if_pos rfl]
    rfl
  have a3 : rdAlloc M 3 = 1 := by
    rw [hM, rdAlloc_wrAlloc, if_neg (by omega), rdAlloc_wrSize, rdAlloc_wrP_ne _ _ _ _ _ (by omega),
      rdAlloc_wrP_ne _ _ _ _ _ (by omega), rdAlloc_wrAlloc, if_neg (by omega), rdAlloc_wrAlloc,
      if_pos rfl]
  have s3 : rdSize M 3 = MIN_BLOCK_SIZE := by
    rw [hM, rdSize_wrAlloc, rdSize_wrSize, if_neg (by omega), rdSize_wrP_ne _ _ _ _ _ (by omega),
      rdSize_wrP_ne _ _ _ _ _ (by omega), rdSize_wrAlloc, rdSize_wrAlloc, rdSize_wrSize,
      if_pos rfl]
    rfl
  have a4 : rdAlloc M 4 = 1 := by
    rw [hM, rdAlloc_wrAlloc, if_pos rfl]
  have s4 : rdSize M 4 = 1 := by
    rw [hM, rdSize_wrAlloc, rdSize_wrSize, if_pos rfl]
    rfl
  have l1 : LinkTo C M 1 0 := by
    rw [hM]
    rw [LinkTo_wrAlloc_ne (by omega), LinkTo_wrSize_ne (by omega)]
    exact LinkTo_wrP _ 1 0 h0
  have l2 : LinkTo C M 2 0 := by
    rw [hM]
    rw [LinkTo_wrAlloc_ne (by omega), LinkTo_wrSize_ne (by omega), LinkTo_wrP_ne (by omega)]
    exact LinkTo_wrP _ 2 0 h0
  have hunits : ∀ t : Heap, t.brk = s.brk + (MIN_BLOCK_SIZE + 1) * C.unit → t.units C = 5 := by
    intro t ht
    unfold Heap.units
    rw [ht, hb, Nat.zero_add]
    exact Nat.mul_div_cancel _ hu
  replace hunits := hunits _ (rfl : Heap.brk
    { s with
      brk := s.brk + (MIN_BLOCK_SIZE + 1) * C.unit
      mem := M
      freep := some 0 } = _)
  refine ⟨?_, rfl, by show s.brk + _ = _; rw [hb, Nat.zero_add], rfl, l1, l2, a4, s4⟩
  refine
    { units_ge := by rw [hunits]
      brk_eq := by
        rw [hunits]
        show s.brk + (MIN_BLOCK_SIZE + 1) * C.unit = 5 * C.unit
        rw [hb, Nat.zero_add]; rfl
      brk_le := by
        show s.brk + (MIN_BLOCK_SIZE + 1) * C.unit ≤ C.limit
        rw [hb, Nat.zero_add]; exact hl
      dummy_hdr := ⟨a0, s0⟩
      dummy_ftr := ⟨a3, s3⟩
      tail := by rw [hunits]; exact ⟨a4, s4⟩
      tiling := by rw [hunits]; rfl
      cursor := ⟨0, rfl, by simp⟩
      cyc := ⟨l2, l1, trivial⟩
      nodup := by simp
      dummy_mem := by simp
      fl_free := by
        intro x hx hx0
        simp at hx
        exact absurd hx hx0
      free_fl := by
        intro b hb
        simp at hb }

/-- On a heap that holds the dummy block alone the query returns the size of
the dummy in bytes. -/
theorem mm_getfree_dummy_only {C : Config} (hC : C.Valid) (t : Heap) (hf : t.freep = some 0)
    (hl : LinkTo C t.mem 1 0) (hs : rdSize t.mem 0 = MIN_BLOCK_SIZE) (fuel : Nat) :
    mm_getfree C (fuel + 1) t = some (unit_to_byte C MIN_BLOCK_SIZE) := by
  unfold mm_getfree
  rw [hf]
  simp only []
  unfold mm_getfree_loop
  have : rdP C t.mem (0 + 1) = 0 := hl.rdP hC
  rw [if_neg (by rw [this]; simp), hs]

/-- C16 (reset isolation): for every state with a non-null cursor, whatever
calls led to it, and a provider that grants the initial five units,
`mm_reset` leaves the cursor on the dummy; the dummy is a 4-unit block marked
allocated in header and footer whose two links point to itself; the tail
sentinel is the 1-unit allocated block right after it, the last unit of the
region; the heap is well formed with no other block; and `mm_getfree` returns
what it returns right after `mm_init` on an uninitialized allocator. -/
theorem reset_isolation {C : Config} (hC : C.Valid) (s s0 : Heap) (hready : s.freep ≠ none)
    (h0 : s0.freep = none) (hl : (MIN_BLOCK_SIZE + 1) * C.unit ≤ C.limit) (fuel : Nat) :
    (mm_reset C s).freep = some 0 ∧
      rdAlloc (mm_reset C s).mem 0 = 1 ∧ rdSize (mm_reset C s).mem 0 = 4 ∧
      rdAlloc (mm_reset C s).mem 3 = 1 ∧ rdSize (mm_reset C s).mem 3 = 4 ∧
      rdP C (mm_reset C s).mem 1 = 0 ∧ rdP C (mm_reset C s).mem 2 = 0 ∧
      rdAlloc (mm_reset C s).mem 4 = 1 ∧ rdSize (mm_reset C s).mem 4 = 1 ∧
      (mm_reset C s).units C = 5 ∧ WFg C (mm_reset C s) [] [0] ∧
      mm_getfree C (fuel + 1) (mm_reset C s) = mm_getfree C (fuel + 1) (mm_init C s0) ∧
      mm_getfree C (fuel + 1) (mm_reset C s) = some (unit_to_byte C MIN_BLOCK_SIZE) := by
  have e1 : mm_reset C s = reset_heap C (mem_reset_brk s) := by
    unfold mm_reset
    rw [if_neg hready]
  have e2 : mm_init C s0 = reset_heap C (mem_init s0) := by
    unfold mm_init
    rw [if_pos h0]
  obtain ⟨w1, f1, b1, -, p1, n1, ta1, ts1⟩ := reset_heap_spec hC (mem_reset_brk s) rfl hl
  obtain ⟨w2, f2, -, -, p2, -, -, -⟩ := reset_heap_spec hC (mem_init s0) rfl hl
  rw [← e1] at w1 f1 b1 p1 n1 ta1 ts1
  rw [← e2] at w2 f2 p2
  have g1 := mm_getfree_dummy_only hC _ f1 p1 w1.dummy_hdr.2 fuel
  have g2 := mm_getfree_dummy_only hC _ f2 p2 w2.dummy_hdr.2 fuel
  have hu : (mm_reset C s).units C = 5 := by
    unfold Heap.units
    rw [b1]
    exact Nat.mul_div_cancel _ hC.unit_pos
  exact ⟨f1, w1.dummy_hdr.1, w1.dummy_hdr.2, w1.dummy_ftr.1, w1.dummy_ftr.2, p1.rdP hC, n1.rdP hC,
    ta1, ts1, hu, w1, g1.trans g2.symm, g1⟩

theorem reset_isolation_witness :
    exStuck.freep ≠ none ∧ exEmpty.freep = none ∧
      (MIN_BLOCK_SIZE + 1) * exConfig.unit ≤ exConfig.limit ∧
      (mm_reset exConfig exStuck).freep = some 0 ∧
      rdAlloc (mm_reset exConfig exStuck).mem 0 = 1 ∧ rdSize (mm_reset exConfig exStuck).mem 0 = 4 ∧
      rdAlloc (mm_reset exConfig exStuck).mem 3 = 1 ∧ rdSize (mm_reset exConfig exStuck).mem 3 = 4 ∧
      rdP exConfig (mm_reset exConfig exStuck).mem 1 = 0 ∧
      rdP exConfig (mm_reset exConfig exStuck).mem 2 = 0 ∧
      rdAlloc (mm_reset exConfig exStuck).mem 4 = 1 ∧ rdSize (mm_reset exConfig exStuck).mem 4 = 1 ∧
      (mm_reset exConfig exStuck).units exConfig = 5 ∧ WFg exConfig (mm_reset exConfig exStuck) [] [0] ∧
      mm_getfree exConfig (0 + 1) (mm_reset exConfig exStuck) =
        mm_getfree exConfig (0 + 1) (mm_init exConfig exEmpty) ∧
      mm_getfree exConfig (0 + 1) (mm_reset exConfig exStuck) =
        some (unit_to_byte exConfig MIN_BLOCK_SIZE) :=
  ⟨by decide, by decide, by decide,
    reset_isolation exConfig_valid exStuck exEmpty (by decide) (by decide) (by decide) 0⟩

/-! ## The block the search chooses -/

/-- The search passes the free-list nodes that do not fit, one iteration
each, without changing the state. -/
theorem get_block_loop_skip {C : Config} (hC : C.Valid) {s : Heap} {n f : Nat}
    (hfp : s.freep = some f) :
    ∀ (pre : List Nat) (y z : Nat) (post : List Nat) (fuel : Nat),
      Seg C s.mem (y :: (pre ++ z :: post)) f → f ∉ pre ++ z :: post →
      (∀ w ∈ y :: pre, ¬ Fits s.mem n w) →
      get_block_loop C n (fuel + (pre.length + 1)) s y = get_block_loop C n fuel s z := by
  intro pre
  induction pre with
  | nil =>
    intro y z post fuel hseg hf hno
    have hlink : LinkTo C s.mem (y + 2) z := hseg.1
    have hzf : z ≠ f := fun e => hf (by simp [e])
    show get_block_loop C n (fuel + 1) s y = _
    rw [get_block_loop_next C n fuel s y (hno y (by simp)) (hlink.ne_zero hC), hlink.rdP hC,
      if_neg (by rw [hfp]; simpa using hzf)]
  | cons w pre ih =>
    intro y z post fuel hseg hf hno
    have hlink : LinkTo C s.mem (y + 2) w := hseg.1
    have hwf : w ≠ f := fun e => hf (by simp [e])
    show get_block_loop C n (fuel + (pre.length + 1) + 1) s y = _
    rw [get_block_loop_next C n _ s y (hno y (by simp)) (hlink.ne_zero hC), hlink.rdP hC,
      if_neg (by rw [hfp]; simpa using hwf)]
    exact ih w z post fuel hseg.2.2 (fun e => hf (List.mem_cons_of_mem _ e))
      (fun v hv => hno v (List.mem_cons_of_mem _ hv))

/-- From the cursor the search reaches the first free-list node that fits. -/
theorem WFg.get_block_reach {C : Config} (hC : C.Valid) {s : Heap} {bl r : List Nat} {f n : Nat}
    (h : WFg C s bl (f :: r)) (hf : s.freep = some f) (pre post : List Nat) (z : Nat)
    (hl : f :: r = pre ++ z :: post) (hpre : ∀ w ∈ pre, ¬ Fits s.mem n w) (fuel : Nat) :
    HeapAllocator.get_block C (fuel + pre.length) s n = get_block_loop C n fuel s z := by
  have hseg : Seg C s.mem (f :: r) f := h.cyc
  have hfr : f ∉ r := (List.nodup_cons.1 h.nodup).1
  unfold HeapAllocator.get_block
  rw [hf]
  simp only []
  cases pre with
  | nil =>
    simp only [List.nil_append, List.cons.injEq] at hl
    rw [hl.1]
    rfl
  | cons y pre =>
    simp only [List.cons_append, List.cons.injEq] at hl
    obtain ⟨e1, e2⟩ := hl
    subst e1
    rw [e2] at hseg hfr
    exact get_block_loop_skip hC hf pre f z post fuel hseg hfr hpre

/-- The split branch of the search at the free-list node `z`. -/
theorem WFg.split_post {C : Config} {s : Heap} {bl fl : List Nat} {z n : Nat}
    (h : WFg C s bl fl) (hz : z ∈ fl) (ha : rdAlloc s.mem z = 0) (hn : MIN_BLOCK_SIZE ≤ n)
    (hsz : n + MIN_BLOCK_SIZE ≤ rdSize s.mem z) :
    SplitPost C s { s with mem := (get_block_split s.mem z n).1 } fl z n
      (get_block_split s.mem z n).2 := by
  obtain ⟨l1, l2, hbl, hwf⟩ := h.split hz ha hn hsz
  have hfr := h.split_frame hz hn hsz
  have hn4 := hn
  unfold MIN_BLOCK_SIZE at hsz hn4
  obtain ⟨hb, hS, hA, hM⟩ := get_block_split_spec s.mem z n _ rfl (by omega) (by omega)
  have hlt := rdSize_lt s.mem z
  refine
    { b_eq := hb
      b_hdr := ?_
      b_ftr := ?_
      z_hdr := ?_
      z_ftr := ?_
      z_min := by unfold MIN_BLOCK_SIZE; omega
      links := ?_
      cursor := rfl
      wf := ⟨_, hwf⟩ }
  · rw [hb]
    exact ⟨by rw [hA, if_pos (Or.inl rfl)], by rw [hS, if_pos (Or.inl rfl)]⟩
  · rw [hb]
    exact ⟨by rw [hA, if_pos (Or.inr rfl)], by rw [hS, if_pos (Or.inr rfl)]⟩
  · constructor
    · show rdAlloc (get_block_split s.mem z n).1 z = 0
      rw [hA, if_neg (by omega)]; exact ha
    · show rdSize (get_block_split s.mem z n).1 z = _
      rw [hS, if_neg (by omega), if_pos (Or.inl rfl)]
  · rw [hb]
    show rdSize (get_block_split s.mem z n).1 _ = _
    rw [hS, if_neg (by omega), if_pos (Or.inr rfl)]
  · intro y hy
    show (get_block_split s.mem z n).1 (y + 1) = _ ∧ (get_block_split s.mem z n).1 (y + 2) = _
    have hy0 := h.fl_sub y hy
    have hy4 := (h.tiling0.mem_bounds hy0).2.2.1
    unfold MIN_BLOCK_SIZE at hy4
    by_cases hyz : y = z
    · subst hyz
      exact ⟨hM _ (by omega) (by omega) (by omega) (by omega),
        hM _ (by omega) (by omega) (by omega) (by omega)⟩
    · have := hfr y hy0 hyz
      exact ⟨this _ (by omega) (by omega), this _ (by omega) (by omega)⟩

/-- The whole-block branch of the search at the free-list node `z`. -/
theorem WFg.take_post {C : Config} (hC : C.Valid) {s : Heap} {bl fl : List Nat} {z : Nat}
    (h : WFg C s bl fl) (hz : z ∈ fl) (ha : rdAlloc s.mem z = 0) :
    TakePost C s (get_block_take C s z) bl fl z := by
  obtain ⟨r, hrot, hmemr⟩ := h.rotate hz
  have hwf := hrot.take hC ha
  have hzb : z ∈ bl := h.free_mem_bl hz ha
  have hz0 : z ∈ 0 :: bl := List.mem_cons_of_mem _ hzb
  have hb0 : z ≠ 0 := h.free_ne_zero ha
  have h0r : 0 ∈ r := by
    have := hrot.dummy_mem
    simp only [List.mem_cons] at this
    rcases this with e | e
    · exact absurd e.symm hb0
    · exact e
  have hseg : Seg C s.mem (z :: r) z := hrot.cyc
  obtain ⟨hn1, hp1⟩ := hseg.ends hC (List.ne_nil_of_mem h0r)
  have hzr : z ∉ r := (List.nodup_cons.1 hrot.nodup).1
  have hAx : rdAlloc (get_block_take C s z).mem z = 1 := by
    unfold get_block_take
    simp only []
    rw [rdAlloc_wrAlloc, if_pos rfl]
  have hSx : rdSize (get_block_take C s z).mem z = rdSize s.mem z := by
    have hpm := hrot.fl_sub _ (List.mem_cons_of_mem _ hp1)
    have hnm := hrot.fl_sub _ (List.mem_cons_of_mem _ hn1)
    have e4 := h.tiling0.link_ne_tag hpm hz0 2 (Or.inr rfl)
    have e5 := h.tiling0.link_ne_tag hnm hz0 1 (Or.inl rfl)
    unfold get_block_take
    simp only []
    rw [rdSize_wrAlloc, rdSize_wrAlloc]
    exact rdSize_congr (unlink_from_flist_ne C s.mem z z e4.1 e5.1)
  have hok := (hwf.tiling.mem_bounds hzb).2.2
  unfold BlockOK at hok
  rw [hSx] at hok
  obtain ⟨y, hy, hy1, hy2⟩ := hseg.prev_mem (List.mem_cons_self _ _)
  have hyp : rdP C s.mem (z + 1) = y := hy2.rdP hC
  refine
    { hdr := ⟨hAx, hSx⟩
      ftr := ⟨hok.2.2 hAx, hok.2.1⟩
      wf := ⟨r, hwf, ?_⟩
      cursor := rfl
      pred := ⟨(hmemr _).1 (List.mem_cons_of_mem _ hp1), fun e => hzr (e ▸ hp1), ?_⟩ }
  · intro v
    constructor
    · intro hv
      exact ⟨(hmemr v).1 (List.mem_cons_of_mem _ hv), fun e => hzr (e ▸ hv)⟩
    · rintro ⟨hv, hne⟩
      rcases List.mem_cons.1 ((hmemr v).2 hv) with e | e
      · exact absurd e hne
      · exact e
  · rw [hyp]; exact hy1

/-- C20 (split postcondition): on a well-formed heap whose free list, read
from the cursor, is `pre ++ z :: post` with no node of `pre` fitting the
`r = mallocUnits nbytes` units the request needs and `z` a free block of size
`s ≥ r`, `mm_malloc` chooses `z`.  When `s ≥ r + 4` it returns the block
starting `s - r` units after `z`, of size exactly `r`; `z` keeps its address,
its list position and its links, has size `s - r ≥ 4` afterwards, and the
cursor is unchanged.  When `s < r + 4` it returns the whole block `z`, of size
`s`, removed from the free list, and the cursor becomes the predecessor of `z`
exactly when the cursor referenced `z`. -/
theorem split_postcondition {C : Config} (hC : C.Valid) {s : Heap} {bl r : List Nat} {f : Nat}
    (h : WFg C s bl (f :: r)) (hf : s.freep = some f) (nbytes : Nat) (pre post : List Nat)
    (z : Nat) (hl : f :: r = pre ++ z :: post)
    (hpre : ∀ w ∈ pre, ¬ Fits s.mem (mallocUnits C nbytes) w)
    (hz : Fits s.mem (mallocUnits C nbytes) z) (fuel : Nat) (hfuel : pre.length + 1 ≤ fuel) :
    (mallocUnits C nbytes + 4 ≤ rdSize s.mem z →
      ∃ t b, mm_malloc C fuel s nbytes = some (t, some (bp_to_ap C b)) ∧
        SplitPost C s t (f :: r) z (mallocUnits C nbytes) b) ∧
    (rdSize s.mem z < mallocUnits C nbytes + 4 →
      ∃ t, mm_malloc C fuel s nbytes = some (t, some (bp_to_ap C z)) ∧
        TakePost C s t bl (f :: r) z) := by
  have hn : MIN_BLOCK_SIZE ≤ mallocUnits C nbytes := by
    unfold mallocUnits
    split_ifs <;> omega
  obtain ⟨k, rfl⟩ : ∃ k, fuel = k + 1 + pre.length := ⟨fuel - 1 - pre.length, by omega⟩
  have hzm : z ∈ f :: r := by rw [hl]; simp
  have hg := h.get_block_reach hC hf pre post z hl hpre (k + 1)
  constructor
  · intro hsz
    refine ⟨_, _, mm_malloc_block C _ s _ nbytes _ h.ready ?_, h.split_post hzm hz.1 hn hsz⟩
    rw [hg]
    exact get_block_loop_split C _ k s z hz.1 hsz
  · intro hsz
    refine ⟨_, mm_malloc_block C _ s _ nbytes _ h.ready ?_, h.take_post hC hzm hz.1⟩
    rw [hg]
    exact get_block_loop_take C _ k s z hz.1 hz.2 hsz

/-! ## More fuel does not change a result -/

theorem get_block_loop_fit (C : Config) (n fuel : Nat) (s : Heap) (bp : Nat)
    (hfit : Fits s.mem n bp) :
    get_block_loop C n (fuel + 1) s bp = get_block_loop C n 1 s bp := by
  by_cases hsz : n + MIN_BLOCK_SIZE ≤ rdSize s.mem bp
  · rw [get_block_loop_split C n fuel s bp hfit.1 hsz, get_block_loop_split C n 0 s bp hfit.1 hsz]
  · rw [get_block_loop_take C n fuel s bp hfit.1 hfit.2 (by omega),
      get_block_loop_take C n 0 s bp hfit.1 hfit.2 (by omega)]

theorem get_block_loop_null (C : Config) (n fuel : Nat) (s : Heap) (bp : Nat)
    (hfit : ¬ Fits s.mem n bp) (hp : get_p (s.mem (bp + 2)) = 0) :
    get_block_loop C n (fuel + 1) s bp = some (s, none) := by
  unfold Fits at hfit
  unfold get_block_loop
  simp only [if_neg hfit, if_pos hp]

theorem get_block_loop_mono (C : Config) (n : Nat) :
    ∀ (fuel : Nat) (s : Heap) (bp : Nat) (r : Heap × Option Nat),
      get_block_loop C n fuel s bp = some r → ∀ k, get_block_loop C n (fuel + k) s bp = some r := by
  intro fuel
  induction fuel with
  | zero =>
    intro s bp r h
    unfold get_block_loop at h
    cases h
  | succ fuel ih =>
    intro s bp r h k
    have e : fuel + 1 + k = (fuel + k) + 1 := by omega
    rw [e]
    by_cases hfit : Fits s.mem n bp
    · rw [get_block_loop_fit C n _ s bp hfit]
      rw [get_block_loop_fit C n _ s bp hfit] at h
      exact h
    · by_cases hp : get_p (s.mem (bp + 2)) = 0
      · rw [get_block_loop_null C n _ s bp hfit hp]
        rw [get_block_loop_null C n _ s bp hfit hp] at h
        exact h
      · rw [get_block_loop_next C n _ s bp hfit hp]
        rw [get_block_loop_next C n _ s bp hfit hp] at h
        by_cases hc : some (rdP C s.mem (bp + 2)) = s.freep
        · rw [if_pos hc] at h ⊢
          rcases hE : extend_heap C s n with _ | ⟨s1, _ | b⟩
          · rw [hE] at h
            exact h
          · rw [hE] at h
            exact h
          · rw [hE] at h
            exact ih s1 b r h k
        · rw [if_neg hc] at h ⊢
          exact ih s _ r h k

theorem get_block_mono (C : Config) (n fuel : Nat) (s : Heap) (r : Heap × Option Nat)
    (h : HeapAllocator.get_block C fuel s n = some r) (k : Nat) :
    HeapAllocator.get_block C (fuel + k) s n = some r := by
  unfold HeapAllocator.get_block at h ⊢
  cases hf : s.freep with
  | none => rw [hf] at h; cases h
  | some f =>
    rw [hf] at h
    exact get_block_loop_mono C n fuel s f r h k

/-- `get_block` on a well-formed heap, for any fuel that gives a result: the
result is the one described by `WFg.get_block`. -/
theorem WFg.get_block_result {C : Config} (hC : C.Valid) {s : Heap} {bl fl : List Nat} {n : Nat}
    (h : WFg C s bl fl) (hn : MIN_BLOCK_SIZE ≤ n) (hnu : n * C.unit < WORD) (fuel : Nat)
    (t : Heap) (res : Option Nat) (hg : HeapAllocator.get_block C fuel s n = some (t, res)) :
    (∃ b bl1 fl1, res = some b ∧ AllocPost C s t bl bl1 fl1 n b) ∨
      (res = none ∧ t = { s with errno := C.sbrkErrno s.errno }) := by
  have hm := get_block_mono C n fuel s _ hg (fl.length + 1)
  rcases h.get_block hC hn hnu (fuel + (fl.length + 1)) (by omega) with
    ⟨t1, b, bl1, fl1, hg1, hp, -⟩ | ⟨hg1, -, -⟩
  · rw [hm] at hg1
    simp only [Option.some.injEq, Prod.mk.injEq] at hg1
    obtain ⟨e1, e2⟩ := hg1
    subst e1
    exact Or.inl ⟨b, bl1, fl1, e2, hp⟩
  · rw [hm] at hg1
    simp only [Option.some.injEq, Prod.mk.injEq] at hg1
    exact Or.inr ⟨hg1.2, hg1.1⟩

/-! ## Requests -/

theorem reqUnits_ge (C : Config) (n : Nat) : MIN_BLOCK_SIZE ≤ reqUnits C n := by
  unfold reqUnits MIN_BLOCK_SIZE
  omega

theorem ValidReq.no_wrap {C : Config} (hC : C.Valid) {n : Nat} (hv : ValidReq C n) :
    n + C.unit - 1 < WORD := by
  unfold ValidReq reqUnits at hv
  have hu := hC.unit_pos
  have h1 := Nat.div_add_mod (n + C.unit - 1) C.unit
  have h2 := Nat.mod_lt (n + C.unit - 1) hu
  set q := (n + C.unit - 1) / C.unit with hq
  have h3 : (q + 2) * C.unit ≤ (max q 2 + 2) * C.unit := Nat.mul_le_mul_right _ (by omega)
  have hmul : (q + 2) * C.unit = C.unit * q + 2 * C.unit := by ring
  omega

theorem ValidReq.malloc_units {C : Config} (hC : C.Valid) {n : Nat} (hv : ValidReq C n) :
    mallocUnits C n = reqUnits C n := by
  rw [mallocUnits_eq hC n (hv.no_wrap hC)]
  unfold reqUnits MIN_BLOCK_SIZE
  omega

theorem ValidReq.realloc_units {C : Config} (hC : C.Valid) {n : Nat} (hv : ValidReq C n) :
    reallocUnits C n = (n + C.unit - 1) / C.unit + 2 := by
  have hu := hC.unit_pos
  unfold reallocUnits
  rw [byte_to_unit_of_lt C n (hv.no_wrap hC)]
  unfold ValidReq reqUnits at hv
  set q := (n + C.unit - 1) / C.unit with hq
  have h1 : max q 2 + 2 ≤ (max q 2 + 2) * C.unit := Nat.le_mul_of_pos_right _ hu
  exact wrap_of_lt (by unfold WORD at hv; omega)

/-! ## The invariant of reachable states -/

theorem WFg.set_errno {C : Config} {s : Heap} {bl fl : List Nat} (h : WFg C s bl fl) (e : Nat) :
    WFg C { s with errno := e } bl fl :=
  { units_ge := h.units_ge
    brk_eq := h.brk_eq
    brk_le := h.brk_le
    dummy_hdr := h.dummy_hdr
    dummy_ftr := h.dummy_ftr
    tail := h.tail
    tiling := h.tiling
    cursor := h.cursor
    cyc := h.cyc
    nodup := h.nodup
    dummy_mem := h.dummy_mem
    fl_free := h.fl_free
    free_fl := h.free_fl }

theorem mem_filter_fst (live : List (Nat × Nat)) (b c : Nat) :
    c ∈ (live.filter (fun e => e.1 ≠ b)).map Prod.fst ↔ c ∈ live.map Prod.fst ∧ c ≠ b := by
  simp only [List.mem_map, List.mem_filter, decide_eq_true_eq]
  constructor
  · rintro ⟨e, ⟨h1, h2⟩, rfl⟩
    exact ⟨⟨e, h1, rfl⟩, h2⟩
  · rintro ⟨⟨e, h1, rfl⟩, h2⟩
    exact ⟨e, ⟨h1, h2⟩, rfl⟩

theorem nodup_filter_fst (live : List (Nat × Nat)) (b : Nat) (h : (live.map Prod.fst).Nodup) :
    ((live.filter (fun e => e.1 ≠ b)).map Prod.fst).Nodup :=
  h.sublist (List.Sublist.map _ (List.filter_sublist _))

/-- A block handed out by `get_block` joins the live allocations. -/
theorem LiveOK.alloc {C : Config} {s t : Heap} {bl fl bl1 fl1 : List Nat}
    {live : List (Nat × Nat)} {r b n : Nat} (h : WFg C s bl fl) (hl : LiveOK C s bl live)
    (hp : AllocPost C s t bl bl1 fl1 r b) (hr : reqUnits C n ≤ r) :
    LiveOK C t bl1 ((b, n) :: live) := by
  obtain ⟨hnd, hmem, hsz⟩ := hl
  have same : ∀ c, c ∈ bl → rdAlloc s.mem c = 1 → t.mem c = s.mem c := by
    intro c h1 h2
    have h4 := (h.tiling.mem_bounds h1).2.2.1
    unfold MIN_BLOCK_SIZE at h4
    exact (hp.kept c h1 h2).2 c (Nat.le_refl _) (by omega)
  refine ⟨?_, ?_, ?_⟩
  · simp only [List.map_cons]
    refine List.nodup_cons.2 ⟨?_, hnd⟩
    intro hb
    have := (hmem b).1 hb
    exact hp.b_new b this.1 this.2 rfl
  · intro c
    simp only [List.map_cons, List.mem_cons]
    constructor
    · rintro (rfl | hc)
      · exact ⟨hp.b_mem, hp.b_alloc⟩
      · obtain ⟨h1, h2⟩ := (hmem c).1 hc
        refine ⟨(hp.kept c h1 h2).1, ?_⟩
        rw [rdAlloc_congr (same c h1 h2)]
        exact h2
    · rintro ⟨h1, h2⟩
      by_cases hcb : c = b
      · exact Or.inl hcb
      · exact Or.inr ((hmem c).2 (hp.alloc_old c h1 h2 hcb))
  · intro e he
    rcases List.mem_cons.1 he with rfl | he
    · exact le_trans hr hp.b_size.1
    · obtain ⟨h1, h2⟩ := (hmem e.1).1 (List.mem_map_of_mem _ he)
      rw [rdSize_congr (same e.1 h1 h2)]
      exact hsz e he

/-- A write of the caller into the payload of a live allocation. -/
theorem LiveOK.write {C : Config} {s : Heap} {bl fl : List Nat} {live : List (Nat × Nat)}
    {b : Nat} (h : WFg C s bl fl) (hl : LiveOK C s bl live) (hb : b ∈ live.map Prod.fst)
    (m1 : Nat → Nat) (hm : ∀ j, ¬ (b < j ∧ j < b + rdSize s.mem b - 1) → m1 j = s.mem j) :
    WFg C { s with mem := m1 } bl fl ∧ LiveOK C { s with mem := m1 } bl live := by
  obtain ⟨hnd, hmem, hsz⟩ := hl
  obtain ⟨hb1, hb2⟩ := (hmem b).1 hb
  obtain ⟨hwf, hun⟩ := h.payload_write hb1 hb2 m1 hm
  have same : ∀ c, c ∈ bl → m1 c = s.mem c := by
    intro c hc
    have h4 := (h.tiling.mem_bounds hc).2.2.1
    unfold MIN_BLOCK_SIZE at h4
    by_cases hcb : c = b
    · subst hcb
      exact hm c (by omega)
    · exact hun c (List.mem_cons_of_mem _ hc) hcb c (Nat.le_refl _) (by omega)
  refine ⟨hwf, hnd, ?_, ?_⟩
  · intro c
    rw [hmem c]
    constructor
    · rintro ⟨h1, h2⟩
      exact ⟨h1, by show rdAlloc m1 c = 1; rw [rdAlloc_congr (same c h1)]; exact h2⟩
    · rintro ⟨h1, h2⟩
      have h2 : rdAlloc m1 c = 1 := h2
      rw [rdAlloc_congr (same c h1)] at h2
      exact ⟨h1, h2⟩
  · intro e he
    obtain ⟨h1, -⟩ := (hmem e.1).1 (List.mem_map_of_mem _ he)
    show reqUnits C e.2 ≤ rdSize m1 e.1
    rw [rdSize_congr (same e.1 h1)]
    exact hsz e he

/-- A released block leaves the live allocations. -/
theorem LiveOK.free {C : Config} {s t : Heap} {bl fl bl1 fl1 : List Nat}
    {live : List (Nat × Nat)} {b x : Nat} (h : WFg C s bl fl) (hl : LiveOK C s bl live)
    (hb : b ∈ bl) (hp : FreePost C s t bl fl bl1 fl1 b x) :
    LiveOK C t bl1 (live.filter (fun e => e.1 ≠ b)) := by
  obtain ⟨hnd, hmem, hsz⟩ := hl
  have hx := hp.x_cases h hb
  have same : ∀ c, c ∈ bl1 → c ≠ x → c ∈ bl ∧ c ≠ b ∧ t.mem c = s.mem c := by
    intro c hc hcx
    obtain ⟨k1, k2, k3⟩ := hp.kept c (List.mem_cons_of_mem _ hc) hcx
    have h4 := (h.tiling0.mem_bounds k1).2.2.1
    unfold MIN_BLOCK_SIZE at h4
    exact ⟨hp.sub c hc, k2, k3 c (Nat.le_refl _) (by omega) (fun _ => by omega)⟩
  refine ⟨nodup_filter_fst live b hnd, ?_, ?_⟩
  · intro c
    rw [mem_filter_fst, hmem c]
    constructor
    · rintro ⟨⟨h1, h2⟩, hcb⟩
      have hc1 := hp.alloc_mem c h1 h2 hcb
      have hcx : c ≠ x := by
        rcases hx with e | ⟨-, e⟩
        · rw [e]; exact hcb
        · rintro rfl
          omega
      refine ⟨hc1, ?_⟩
      rw [rdAlloc_congr (same c hc1 hcx).2.2]
      exact h2
    · rintro ⟨h1, h2⟩
      have hcx : c ≠ x := by
        rintro rfl
        have := hp.x_free
        omega
      obtain ⟨k1, k2, k3⟩ := same c h1 hcx
      rw [rdAlloc_congr k3] at h2
      exact ⟨⟨k1, h2⟩, k2⟩
  · intro e he
    obtain ⟨he1, he2⟩ := List.mem_filter.1 he
    have he2 : e.1 ≠ b := by simpa using he2
    obtain ⟨h1, h2⟩ := (hmem e.1).1 (List.mem_map_of_mem _ he1)
    have hc1 := hp.alloc_mem e.1 h1 h2 he2
    have hcx : e.1 ≠ x := by
      rcases hx with e0 | ⟨-, e0⟩
      · rw [e0]; exact he2
      · intro e1
        rw [e1] at h2
        omega
    rw [rdSize_congr (same e.1 hc1 hcx).2.2]
    exact hsz e he1

theorem Inv.alloc_step {C : Config} (hC : C.Valid) {s t : Heap} {live : List (Nat × Nat)}
    {r n b fuel : Nat} (hi : Inv C s live) (hr4 : MIN_BLOCK_SIZE ≤ r) (hnu : r * C.unit < WORD)
    (hreq : reqUnits C n ≤ r)
    (hg : HeapAllocator.get_block C fuel s r = some (t, some b)) :
    Inv C t ((b, n) :: live) := by
  obtain ⟨bl, fl, h, hl⟩ := hi
  rcases h.get_block_result hC hr4 hnu fuel t _ hg with ⟨b1, bl1, fl1, e, hp⟩ | ⟨e, -⟩
  · cases e
    exact ⟨bl1, fl1, hp.wf, hl.alloc h hp hreq⟩
  · cases e

theorem Inv.null_step {C : Config} (hC : C.Valid) {s t : Heap} {live : List (Nat × Nat)}
    {r fuel : Nat} (hi : Inv C s live) (hr4 : MIN_BLOCK_SIZE ≤ r) (hnu : r * C.unit < WORD)
    (hg : HeapAllocator.get_block C fuel s r = some (t, none)) (e : Nat) :
    Inv C { t with errno := e } live := by
  obtain ⟨bl, fl, h, hl⟩ := hi
  rcases h.get_block_result hC hr4 hnu fuel t _ hg with ⟨b1, bl1, fl1, e1, -⟩ | ⟨-, e1⟩
  · cases e1
  · subst e1
    exact ⟨bl, fl, h.set_errno e, hl⟩

theorem Inv.write_step {C : Config} {s : Heap} {live : List (Nat × Nat)} {b n : Nat}
    (hi : Inv C s live) (hb : (b, n) ∈ live) (m1 : Nat → Nat)
    (hm : ∀ j, ¬ (b < j ∧ j < b + rdSize s.mem b - 1) → m1 j = s.mem j) :
    Inv C { s with mem := m1 } live := by
  obtain ⟨bl, fl, h, hl⟩ := hi
  have := hl.write h (List.mem_map_of_mem Prod.fst hb) m1 hm
  exact ⟨bl, fl, this.1, this.2⟩

theorem Inv.free_step {C : Config} (hC : C.Valid) {s : Heap} {live : List (Nat × Nat)} {b n : Nat}
    (hi : Inv C s live) (hb : (b, n) ∈ live) :
    Inv C (free_block C s b) (live.filter (fun e => e.1 ≠ b)) := by
  obtain ⟨bl, fl, h, hl⟩ := hi
  obtain ⟨hb1, hb2⟩ := (hl.2.1 b).1 (List.mem_map_of_mem Prod.fst hb)
  obtain ⟨bl1, fl1, x, hp⟩ := h.free_block hC hb1 hb2
  exact ⟨bl1, fl1, hp.wf, hl.free h hb1 hp⟩

theorem Inv.live_block {C : Config} {s : Heap} {live : List (Nat × Nat)} {b n : Nat}
    (hi : Inv C s live) (hb : (b, n) ∈ live) :
    ∃ bl fl, WFg C s bl fl ∧ b ∈ bl ∧ rdAlloc s.mem b = 1 ∧ reqUnits C n ≤ rdSize s.mem b := by
  obtain ⟨bl, fl, h, hl⟩ := hi
  obtain ⟨hb1, hb2⟩ := (hl.2.1 b).1 (List.mem_map_of_mem Prod.fst hb)
  exact ⟨bl, fl, h, hb1, hb2, hl.2.2 _ hb⟩

/-! ## The public operations, read backwards -/

theorem mm_malloc_out (C : Config) (fuel : Nat) (s : Heap) (n : Nat) (h : s.freep ≠ none)
    (hg : HeapAllocator.get_block C fuel s (mallocUnits C n) = none) :
    mm_malloc C fuel s n = none := by
  unfold mallocUnits at hg
  unfold mm_malloc
  simp only [if_neg h, hg]

/-- What a result of `mm_malloc` says about the search. -/
theorem mm_malloc_inv (C : Config) (fuel : Nat) (s t : Heap) (n : Nat) (res : Option Nat)
    (h : s.freep ≠ none) (hm : mm_malloc C fuel s n = some (t, res)) :
    (∃ b, res = some (bp_to_ap C b) ∧
      HeapAllocator.get_block C fuel s (mallocUnits C n) = some (t, some b)) ∨
    (res = none ∧ ∃ s1, HeapAllocator.get_block C fuel s (mallocUnits C n) = some (s1, none) ∧
      t = { s1 with errno := ENOMEM }) := by
  rcases hg : HeapAllocator.get_block C fuel s (mallocUnits C n) with _ | ⟨s1, _ | bp⟩
  · rw [mm_malloc_out C fuel s n h hg] at hm
    cases hm
  · rw [mm_malloc_null C fuel s s1 n h hg] at hm
    simp only [Option.some.injEq, Prod.mk.injEq] at hm
    exact Or.inr ⟨hm.2.symm, s1, rfl, hm.1.symm⟩
  · rw [mm_malloc_block C fuel s s1 n bp h hg] at hm
    simp only [Option.some.injEq, Prod.mk.injEq] at hm
    obtain ⟨e1, e2⟩ := hm
    subst e1
    exact Or.inl ⟨bp, e2.symm, rfl⟩

theorem mm_realloc_same {C : Config} (hC : C.Valid) (fuel : Nat) (s : Heap) (b n : Nat)
    (hf : find_block C fuel s (bp_to_ap C b) = some (some b))
    (hle : reallocUnits C n ≤ rdSize s.mem b) :
    mm_realloc C fuel s (bp_to_ap C b) n = some (s, some (bp_to_ap C b)) := by
  unfold reallocUnits at hle
  unfold mm_realloc
  rw [if_neg (bp_to_ap_ne_zero hC b), hf]
  simp only []
  rw [if_pos hle]

theorem mm_realloc_fail {C : Config} (hC : C.Valid) (fuel : Nat) (s : Heap) (b n : Nat)
    (o : Option Heap)
    (hf : find_block C fuel s (bp_to_ap C b) = some (some b))
    (hlt : rdSize s.mem b < reallocUnits C n)
    (hg : HeapAllocator.get_block C fuel s (reallocUnits C n) = o.map (fun s1 => (s1, none))) :
    mm_realloc C fuel s (bp_to_ap C b) n = o.map (fun s1 => (s1, none)) := by
  unfold reallocUnits at hlt hg
  unfold mm_realloc
  rw [if_neg (bp_to_ap_ne_zero hC b), hf]
  simp only []
  rw [if_neg (by omega), hg]
  cases o <;> rfl

/-- What a result of `mm_realloc` at the payload address of the allocated
block `b` says: the block was large enough and nothing changed, or the search
failed and changed `errno` at most, or a block `nb` was found, the payload
copied and `b` released. -/
theorem WFg.mm_realloc_inv {C : Config} (hC : C.Valid) {s : Heap} {bl fl : List Nat}
    (h : WFg C s bl fl) {b : Nat} (hb : b ∈ bl) (ha : rdAlloc s.mem b = 1) (n fuel : Nat)
    (t : Heap) (res : Option Nat)
    (hm : mm_realloc C fuel s (bp_to_ap C b) n = some (t, res)) :
    (reallocUnits C n ≤ rdSize s.mem b ∧ t = s ∧ res = some (bp_to_ap C b)) ∨
    (rdSize s.mem b < reallocUnits C n ∧ res = none ∧
      HeapAllocator.get_block C fuel s (reallocUnits C n) = some (t, none)) ∨
    (rdSize s.mem b < reallocUnits C n ∧ ∃ s1 nb, res = some (bp_to_ap C nb) ∧
      HeapAllocator.get_block C fuel s (reallocUnits C n) = some (s1, some nb) ∧
      t = HeapAllocator.free_block C
        { s1 with mem := memcpy_units s1.mem (nb + 1) (b + 1) (rdSize s.mem b - 2) } b) := by
  have hf := h.find_block_live hC hb ha fuel
  have hb4 := (h.tiling.mem_bounds hb).2.2.1
  unfold MIN_BLOCK_SIZE at hb4
  have hw : rdSize s.mem b * C.unit < WORD := by
    have h1 := h.lt_units (List.mem_cons_of_mem 0 hb)
    have h2 : rdSize s.mem b * C.unit ≤ s.units C * C.unit := Nat.mul_le_mul_right _ (by omega)
    have h3 := h.brk_eq
    have h4 := h.brk_le
    have h5 := hC.fits
    have h6 := hC.lo_pos
    omega
  by_cases hle : reallocUnits C n ≤ rdSize s.mem b
  · rw [mm_realloc_same hC fuel s b n hf hle] at hm
    simp only [Option.some.injEq, Prod.mk.injEq] at hm
    exact Or.inl ⟨hle, hm.1.symm, hm.2.symm⟩
  · have hlt : rdSize s.mem b < reallocUnits C n := by omega
    right
    rcases hg : HeapAllocator.get_block C fuel s (reallocUnits C n) with _ | ⟨s1, _ | nb⟩
    · rw [mm_realloc_fail hC fuel s b n none hf hlt hg] at hm
      cases hm
    · rw [mm_realloc_fail hC fuel s b n (some s1) hf hlt hg] at hm
      simp only [Option.map_some', Option.some.injEq, Prod.mk.injEq] at hm
      obtain ⟨e1, e2⟩ := hm
      subst e1
      exact Or.inl ⟨hlt, e2.symm, rfl⟩
    · rw [mm_realloc_move hC fuel s s1 b nb n (reallocUnits C n) hf rfl hlt hg (by omega) hw] at hm
      simp only [Option.some.injEq, Prod.mk.injEq] at hm
      exact Or.inr ⟨hlt, s1, nb, hm.2.symm, rfl, hm.1.symm⟩

theorem Inv.cursor_ready {C : Config} {s : Heap} {live : List (Nat × Nat)} (hi : Inv C s live) :
    s.freep ≠ none := by
  obtain ⟨bl, fl, h, -⟩ := hi
  exact h.ready

theorem Inv.units_bytes {C : Config} (hC : C.Valid) {s : Heap} {live : List (Nat × Nat)}
    (hi : Inv C s live) : 5 * C.unit < WORD := by
  obtain ⟨bl, fl, h, -⟩ := hi
  have h1 := h.units_ge
  have h2 : 5 * C.unit ≤ s.units C * C.unit := Nat.mul_le_mul_right _ h1
  have h3 := h.brk_eq
  have h4 := h.brk_le
  have h5 := hC.fits
  have h6 := hC.lo_pos
  omega

theorem Inv.malloc_step {C : Config} (hC : C.Valid) {s t : Heap} {live : List (Nat × Nat)}
    {n fuel : Nat} (hi : Inv C s live) (hv : ValidReq C n) (res : Option Nat)
    (hm : mm_malloc C fuel s n = some (t, res)) :
    (∃ b, res = some (bp_to_ap C b) ∧ Inv C t ((b, n) :: live)) ∨ (res = none ∧ Inv C t live) := by
  have hr := hv.malloc_units hC
  rcases mm_malloc_inv C fuel s t n res hi.cursor_ready hm with ⟨b, e, hg⟩ | ⟨e, s1, hg, et⟩
  · rw [hr] at hg
    exact Or.inl ⟨b, e, hi.alloc_step hC (reqUnits_ge C n) hv (Nat.le_refl _) hg⟩
  · rw [hr] at hg
    subst et
    exact Or.inr ⟨e, hi.null_step hC (reqUnits_ge C n) hv hg ENOMEM⟩

theorem Inv.realloc_step {C : Config} (hC : C.Valid) {s t : Heap} {live : List (Nat × Nat)}
    {b n k fuel : Nat} (hi : Inv C s live) (hb : (b, n) ∈ live) (hv : ValidReq C k)
    (res : Option Nat) (hm : mm_realloc C fuel s (bp_to_ap C b) k = some (t, res)) :
    (∃ q, res = some (bp_to_ap C q) ∧ Inv C t ((q, k) :: live.filter (fun e => e.1 ≠ b))) ∨
      (res = none ∧ Inv C t live) := by
  obtain ⟨bl, fl, h, hb1, hb2, hb3⟩ := hi.live_block hb
  have hr := hv.realloc_units hC
  have hb4 := (h.tiling.mem_bounds hb1).2.2.1
  unfold MIN_BLOCK_SIZE at hb4
  have hreq : reqUnits C k ≤ max (reallocUnits C k) MIN_BLOCK_SIZE := by
    rw [hr]; unfold reqUnits MIN_BLOCK_SIZE; omega
  rcases h.mm_realloc_inv hC hb1 hb2 k fuel t res hm with
    ⟨hle, e1, e2⟩ | ⟨hlt, e2, hg⟩ | ⟨hlt, s1, nb, e2, hg, e1⟩
  · -- the block is large enough
    subst e1
    refine Or.inl ⟨b, e2, ?_⟩
    obtain ⟨bl0, fl0, h0, hl0⟩ := hi
    refine ⟨bl0, fl0, h0, ?_, ?_, ?_⟩
    · simp only [List.map_cons]
      refine List.nodup_cons.2 ⟨?_, nodup_filter_fst live b hl0.1⟩
      rw [mem_filter_fst]
      exact fun hh => hh.2 rfl
    · intro c
      simp only [List.map_cons, List.mem_cons]
      rw [mem_filter_fst, ← hl0.2.1 c]
      constructor
      · rintro (rfl | hc)
        · exact List.mem_map_of_mem Prod.fst hb
        · exact hc.1
      · intro hc
        by_cases hcb : c = b
        · exact Or.inl hcb
        · exact Or.inr ⟨hc, hcb⟩
    · intro e he
      rcases List.mem_cons.1 he with rfl | he
      · show reqUnits C k ≤ rdSize t.mem b
        have : reqUnits C k ≤ max (rdSize t.mem b) MIN_BLOCK_SIZE :=
          le_trans hreq (max_le_max hle (Nat.le_refl _))
        unfold MIN_BLOCK_SIZE at this
        omega
      · exact hl0.2.2 e (List.mem_filter.1 he).1
  · -- the search failed
    have hr4 : MIN_BLOCK_SIZE ≤ reallocUnits C k := by unfold MIN_BLOCK_SIZE; omega
    have hnu : reallocUnits C k * C.unit < WORD := by
      have h1 : reallocUnits C k * C.unit ≤ reqUnits C k * C.unit :=
        Nat.mul_le_mul_right _ (by rw [hr]; unfold reqUnits; omega)
      unfold ValidReq at hv
      omega
    have := hi.null_step hC hr4 hnu hg t.errno
    exact Or.inr ⟨e2, this⟩
  · -- the block moves
    have hr4 : MIN_BLOCK_SIZE ≤ reallocUnits C k := by unfold MIN_BLOCK_SIZE; omega
    have hrq : reqUnits C k = reallocUnits C k := by
      rw [hr] at hlt ⊢; unfold reqUnits; omega
    have hnu : reallocUnits C k * C.unit < WORD := by
      rw [← hrq]; exact hv
    have i1 : Inv C s1 ((nb, k) :: live) :=
      hi.alloc_step hC hr4 hnu (Nat.le_of_eq hrq) hg
    have hnbs : reqUnits C k ≤ rdSize s1.mem nb := by
      obtain ⟨-, -, -, -, -, hh⟩ := i1.live_block (List.mem_cons_self _ _)
      exact hh
    have hne : nb ≠ b := by
      obtain ⟨bl1, fl1, h1, hl1⟩ := i1
      have := hl1.1
      simp only [List.map_cons] at this
      have h2 := (List.nodup_cons.1 this).1
      rintro rfl
      exact h2 (List.mem_map_of_mem Prod.fst hb)
    have i2 : Inv C { s1 with mem := memcpy_units s1.mem (nb + 1) (b + 1) (rdSize s.mem b - 2) }
        ((nb, k) :: live) := by
      refine i1.write_step (List.mem_cons_self _ _) _ ?_
      intro j hj
      unfold memcpy_units
      rw [if_neg (by omega)]
    have i3 := i2.free_step hC (List.mem_cons_of_mem _ hb)
    rw [← e1, List.filter_cons_of_pos (by simpa using hne)] at i3
    exact Or.inl ⟨nb, e2, i3⟩

/-- Every reachable state satisfies the invariant. -/
theorem Reach.inv {C : Config} (hC : C.Valid) {s : Heap} {live : List (Nat × Nat)}
    (hr : Reach C s live) : Inv C s live := by
  induction hr with
  | init s0 h0 hl =>
    have e : mm_init C s0 = reset_heap C (mem_init s0) := by
      unfold mm_init; rw [if_pos h0]
    rw [e]
    obtain ⟨w, -⟩ := reset_heap_spec hC (mem_init s0) rfl hl
    refine ⟨[], [0], w, List.nodup_nil, ?_, ?_⟩
    · intro b; simp
    · intro e he; cases he
  | malloc n fuel t b _ hv hm ih =>
    rcases ih.malloc_step hC hv _ hm with ⟨b1, e, hi⟩ | ⟨e, -⟩
    · have : b1 = b := by
        simp only [Option.some.injEq] at e
        exact (Nat.succ_injective (nodeAddr_inj hC e)).symm
      subst this
      exact hi
    · cases e
  | malloc_null n fuel t _ hv hm ih =>
    rcases ih.malloc_step hC hv _ hm with ⟨b1, e, -⟩ | ⟨-, hi⟩
    · cases e
    · exact hi
  | free b n fuel t _ hb hm ih =>
    obtain ⟨bl, fl, h, hb1, hb2, -⟩ := ih.live_block hb
    rw [h.mm_free_live hC hb1 hb2 fuel] at hm
    simp only [Option.some.injEq] at hm
    rw [← hm]
    exact ih.free_step hC hb
  | free_null fuel t _ hm ih =>
    unfold mm_free at hm
    rw [if_pos rfl] at hm
    simp only [Option.some.injEq] at hm
    rw [← hm]
    exact ih
  | realloc b n k fuel t q _ hb hv hm ih =>
    rcases ih.realloc_step hC hb hv _ hm with ⟨q1, e, hi⟩ | ⟨e, -⟩
    · have : q1 = q := by
        simp only [Option.some.injEq] at e
        exact (Nat.succ_injective (nodeAddr_inj hC e)).symm
      subst this
      exact hi
    · cases e
  | realloc_null b n k fuel t _ hb hv hm ih =>
    rcases ih.realloc_step hC hb hv _ hm with ⟨q1, e, -⟩ | ⟨-, hi⟩
    · cases e
    · exact hi
  | realloc_fresh k fuel t q _ hv hm ih =>
    unfold mm_realloc at hm
    rw [if_pos rfl] at hm
    rcases ih.malloc_step hC hv _ hm with ⟨b1, e, hi⟩ | ⟨e, -⟩
    · have : b1 = q := by
        simp only [Option.some.injEq] at e
        exact (Nat.succ_injective (nodeAddr_inj hC e)).symm
      subst this
      exact hi
    · cases e
  | realloc_fresh_null k fuel t _ hv hm ih =>
    unfold mm_realloc at hm
    rw [if_pos rfl] at hm
    rcases ih.malloc_step hC hv _ hm with ⟨b1, e, -⟩ | ⟨-, hi⟩
    · cases e
    · exact hi
  | write b n m1 _ hb hm ih =>
    exact ih.write_step hb m1 hm

/-! ## Conservation -/

theorem Tiling.sum_sizes {m : Nat → Nat} : ∀ {l : List Nat} {a e : Nat},
    Tiling m a l e → a + (l.map (rdSize m)).sum = e
  | [], a, e, h => by
    have h : a = e := h
    simp [h]
  | b :: l, a, e, h => by
    simp only [Tiling] at h
    have ih := Tiling.sum_sizes h.2.2
    simp only [List.map_cons, List.sum_cons]
    omega

theorem sum_split_flag (m : Nat → Nat) (f : Nat → Nat) : ∀ l : List Nat,
    (l.map f).sum = ((l.filter (fun b => rdAlloc m b = 1)).map f).sum +
      ((l.filter (fun b => rdAlloc m b = 0)).map f).sum
  | [] => rfl
  | b :: l => by
    have ih := sum_split_flag m f l
    rcases rdAlloc_cases m b with h | h
    · rw [List.filter_cons_of_neg (by simp [h]), List.filter_cons_of_pos (by simp [h])]
      simp only [List.map_cons, List.sum_cons]
      omega
    · rw [List.filter_cons_of_pos (by simp [h]), List.filter_cons_of_neg (by simp [h])]
      simp only [List.map_cons, List.sum_cons]
      omega

/-- In a heap that satisfies the invariant, the recorded sizes of the live
blocks and of the free blocks add up to the region without the dummy and the
tail sentinel. -/
theorem Inv.conserved {C : Config} {s : Heap} {bl fl : List Nat} {live : List (Nat × Nat)}
    (h : WFg C s bl fl) (hl : LiveOK C s bl live) :
    (live.map (fun e => rdSize s.mem e.1)).sum +
      ((bl.filter (fun b => rdAlloc s.mem b = 0)).map (rdSize s.mem)).sum = s.units C - 5 := by
  have h1 := h.tiling.sum_sizes
  have h2 := sum_split_flag s.mem (rdSize s.mem) bl
  have hp : (live.map Prod.fst).Perm (bl.filter (fun b => rdAlloc s.mem b = 1)) := by
    refine (List.perm_ext_iff_of_nodup hl.1 (h.tiling.nodup.filter _)).2 ?_
    intro c
    rw [hl.2.1 c, List.mem_filter]
    simp
  have h3 := (hp.map (rdSize s.mem)).sum_eq
  rw [List.map_map] at h3
  have h4 : (rdSize s.mem ∘ Prod.fst) = fun e : Nat × Nat => rdSize s.mem e.1 := rfl
  rw [h4] at h3
  have h5 := h.units_ge
  unfold MIN_BLOCK_SIZE at h1
  omega

theorem exInit_reach : Reach exConfig exInit [] :=
  Reach.init exEmpty rfl (by decide)

theorem exHeap48_reach : Reach exConfig (afterMalloc exConfig exInit 48) [(255, 48)] :=
  Reach.malloc 48 16 _ 255 exInit_reach (by decide) rfl

theorem exHeap48G_reach :
    Reach exConfig (afterMalloc exConfig (afterMalloc exConfig exInit 48) 16)
      [(251, 16), (255, 48)] :=
  Reach.malloc 16 16 _ 251 exHeap48_reach (by decide) rfl

theorem exFive_reach : Reach exConfig exFive [(251, 16)] :=
  Reach.free 255 48 16 exFive exHeap48G_reach (by decide) rfl

/-- C15 (conservation), the claim after a whole-block take: the state
`exFiveZero` is reached by `mm_init; A = mm_malloc(48); G = mm_malloc(16);
mm_free(A); P = mm_malloc(0)` and holds the live allocations `P` (0 bytes, at
unit 255) and `G` (16 bytes, at unit 251) and the free block of 247 units at
unit 4 in a region of 261 units.  The rounded requests with overhead are 4
units each, and with the free block they add up to 255, not to 261 - 5: the
block of `P` is recorded with 5 units. -/
theorem conservation_fails_after_whole_take :
    Reach exConfig exFiveZero [(255, 0), (251, 16)] ∧
      WFg exConfig exFiveZero [4, 251, 255] [0, 4] ∧
      exFiveZero.units exConfig = 261 ∧
      rdAlloc exFiveZero.mem 4 = 0 ∧ rdAlloc exFiveZero.mem 251 = 1 ∧
      rdAlloc exFiveZero.mem 255 = 1 ∧
      reqUnits exConfig 0 = 4 ∧ reqUnits exConfig 16 = 4 ∧
      reqUnits exConfig 0 + reqUnits exConfig 16 + rdSize exFiveZero.mem 4 = 255 ∧
      rdSize exFiveZero.mem 255 = 5 :=
  ⟨Reach.malloc 0 4 exFiveZero 255 exFive_reach (by decide) rfl, by constructor <;> decide,
    by decide, by decide, by decide, by decide, by decide, by decide, by decide, by decide⟩

/-- C15 (conservation), amended: in every state reachable from `mm_init` by
valid `mm_malloc`, `mm_free` and `mm_realloc` calls (and writes of the caller
into live payloads), the heap is well formed, its blocks marked allocated are
exactly the live allocations, each once, and the sum over the live
allocations of their recorded block sizes plus the sum over the free blocks
of their sizes equals the number of region units minus 5; the recorded size
of every live block is at least its rounded request plus overhead
(`ceil(bytes / unit)` clamped to at least 2, plus 2). -/
theorem conservation {C : Config} (hC : C.Valid) {s : Heap} {live : List (Nat × Nat)}
    (hr : Reach C s live) :
    (live.map Prod.fst).Nodup ∧
      ∃ bl fl, WFg C s bl fl ∧
        (∀ b, b ∈ live.map Prod.fst ↔ (b ∈ bl ∧ rdAlloc s.mem b = 1)) ∧
        (live.map (fun e => rdSize s.mem e.1)).sum +
          ((bl.filter (fun b => rdAlloc s.mem b = 0)).map (rdSize s.mem)).sum =
            s.units C - 5 ∧
        ∀ e ∈ live, reqUnits C e.2 ≤ rdSize s.mem e.1 := by
  obtain ⟨bl, fl, h, hl⟩ := hr.inv hC
  exact ⟨hl.1, bl, fl, h, hl.2.1, Inv.conserved h hl, hl.2.2⟩

theorem conservation_witness :
    ([(251, 16)].map Prod.fst).Nodup ∧
      ∃ bl fl, WFg exConfig exFive bl fl ∧
        (∀ b, b ∈ [(251, 16)].map Prod.fst ↔ (b ∈ bl ∧ rdAlloc exFive.mem b = 1)) ∧
        ([(251, 16)].map (fun e => rdSize exFive.mem e.1)).sum +
          ((bl.filter (fun b => rdAlloc exFive.mem b = 0)).map (rdSize exFive.mem)).sum =
            exFive.units exConfig - 5 ∧
        ∀ e ∈ [(251, 16)], reqUnits exConfig e.2 ≤ rdSize exFive.mem e.1 :=
  conservation exConfig_valid exFive_reach

/-! ## The free list is one cycle -/

/-- Following the successor links along a linked segment. -/
theorem Seg.iterate_next {C : Config} (hC : C.Valid) {m : Nat → Nat} :
    ∀ (l : List Nat) (x e : Nat), Seg C m (x :: l) e → ∀ k, k ≤ l.length + 1 →
      (flNext C m)^[k] x = ((x :: l) ++ [e]).getD k 0 := by
  intro l
  induction l with
  | nil =>
    intro x e hseg k hk
    have hl : LinkTo C m (x + 2) e := hseg.1
    have hn : flNext C m x = e := hl.rdP hC
    rcases Nat.eq_zero_or_pos k with h0 | h0
    · subst h0; rfl
    · have : k = 1 := by simp at hk; omega
      subst this
      simp [hn]
  | cons y l ih =>
    intro x e hseg k hk
    have hl : LinkTo C m (x + 2) y := hseg.1
    have hn : flNext C m x = y := hl.rdP hC
    cases k with
    | zero => rfl
    | succ k =>
      rw [Function.iterate_succ_apply, hn, ih y e hseg.2.2 k (by simp at hk ⊢; omega)]
      simp

theorem WFg.free_list_ok {C : Config} (hC : C.Valid) {s : Heap} {bl fl : List Nat}
    (h : WFg C s bl fl) : FreeListOK C s bl fl := by
  have iter : ∀ x ∈ fl, ∃ r, (x :: r).length = fl.length ∧ x ∉ r ∧ (∀ y, y ∈ x :: r ↔ y ∈ fl) ∧
      ∀ k, k ≤ r.length + 1 → (flNext C s.mem)^[k] x = ((x :: r) ++ [x]).getD k 0 := by
    intro x hx
    obtain ⟨r, hrot, hmem⟩ := h.rotate hx
    have hp : (x :: r).Perm fl := (List.perm_ext_iff_of_nodup hrot.nodup h.nodup).2 hmem
    exact ⟨r, hp.length_eq, (List.nodup_cons.1 hrot.nodup).1, hmem,
      Seg.iterate_next hC r x x hrot.cyc⟩
  refine
    { nodup := h.nodup
      members := ?_
      dummy := h.dummy_hdr.1
      cursor := h.cursor
      next_mem := ?_
      prev_mem := ?_
      prev_next := ?_
      next_prev := ?_
      cycle := ?_
      cycle_min := ?_
      cycle_all := ?_ }
  · intro x
    constructor
    · intro hx
      by_cases h0 : x = 0
      · exact Or.inl h0
      · exact Or.inr (h.fl_free x hx h0)
    · rintro (rfl | ⟨h1, h2⟩)
      · exact h.dummy_mem
      · exact h.free_fl x h1 h2
  · intro x hx
    obtain ⟨y, hy, h1, -⟩ := h.cyc.next_mem hx
    have : flNext C s.mem x = y := h1.rdP hC
    rw [this]; exact hy
  · intro x hx
    obtain ⟨y, hy, -, h2⟩ := h.cyc.prev_mem hx
    have : flPrev C s.mem x = y := h2.rdP hC
    rw [this]; exact hy
  · intro x hx
    obtain ⟨y, hy, h1, h2⟩ := h.cyc.next_mem hx
    have e1 : flNext C s.mem x = y := h1.rdP hC
    have e2 : flPrev C s.mem y = x := h2.rdP hC
    rw [e1, e2]
  · intro x hx
    obtain ⟨y, hy, h1, h2⟩ := h.cyc.prev_mem hx
    have e1 : flPrev C s.mem x = y := h2.rdP hC
    have e2 : flNext C s.mem y = x := h1.rdP hC
    rw [e1, e2]
  · intro x hx
    obtain ⟨r, hlen, -, -, hit⟩ := iter x hx
    have hl : fl.length = r.length + 1 := by rw [← hlen]; simp
    rw [hl, hit _ (Nat.le_refl _)]
    rw [List.getD_append_right _ _ _ _ (by simp)]
    simp
  · intro x hx k hk0 hk
    obtain ⟨r, hlen, hxr, -, hit⟩ := iter x hx
    have hl : fl.length = r.length + 1 := by rw [← hlen]; simp
    rw [hit k (by omega)]
    rw [List.getD_append _ _ _ _ (by simp; omega)]
    obtain ⟨j, rfl⟩ : ∃ j, k = j + 1 := ⟨k - 1, by omega⟩
    rw [List.getD_cons_succ, List.getD_eq_getElem _ _ (by omega)]
    intro e
    exact hxr (e ▸ List.getElem_mem _)
  · intro x hx y hy
    obtain ⟨r, hlen, -, hmem, hit⟩ := iter x hx
    have hl : fl.length = r.length + 1 := by rw [← hlen]; simp
    obtain ⟨i, hi, e⟩ := List.getElem_of_mem ((hmem y).2 hy)
    have hi1 : i < r.length + 1 := by simpa using hi
    refine ⟨i, by omega, ?_⟩
    rw [hit i (by omega), List.getD_append _ _ _ _ hi, List.getD_eq_getElem _ _ hi]
    exact e

/-- C18 (free-list structure invariant): in every state reachable from
`mm_init` by valid `mm_malloc`, `mm_free` and `mm_realloc` calls (and writes
of the caller into live payloads), the heap is well formed and its free list
is a circular doubly linked list: successor and predecessor are inverse to
each other on its members, which are exactly the dummy, marked allocated, and
every block of the heap marked free, each once; following the successor links
from a member passes through all members and returns to it after as many
steps as there are members; and the cursor is a member. -/
theorem free_list_invariant {C : Config} (hC : C.Valid) {s : Heap} {live : List (Nat × Nat)}
    (hr : Reach C s live) : ∃ bl fl, WFg C s bl fl ∧ FreeListOK C s bl fl := by
  obtain ⟨bl, fl, h, -⟩ := hr.inv hC
  exact ⟨bl, fl, h, h.free_list_ok hC⟩

theorem free_list_invariant_witness :
    ∃ bl fl, WFg exConfig exFiveZero bl fl ∧ FreeListOK exConfig exFiveZero bl fl :=
  free_list_invariant exConfig_valid
    (Reach.malloc 0 4 exFiveZero 255 exFive_reach (by decide) rfl :
      Reach exConfig exFiveZero [(255, 0), (251, 16)])

/-! ## The search, with the nodes it tests and its growth requests -/

/-- Without the ghost results the traced loop is the loop of `get_block`. -/
theorem get_block_trace_erase (C : Config) (n : Nat) :
    ∀ (fuel : Nat) (s : Heap) (bp : Nat) (vis : List Nat) (g : Nat),
      (get_block_trace C n fuel s bp vis g).map (fun r => (r.1, r.2.1)) =
        get_block_loop C n fuel s bp := by
  intro fuel
  induction fuel with
  | zero =>
    intro s bp vis g
    unfold get_block_trace get_block_loop
    rfl
  | succ fuel ih =>
    intro s bp vis g
    unfold get_block_trace get_block_loop
    by_cases h1 : rdAlloc s.mem bp = 0 ∧ n ≤ rdSize s.mem bp
    · simp only [if_pos h1]
      by_cases h2 : wrap (n + MIN_BLOCK_SIZE) ≤ rdSize s.mem bp
      · simp only [if_pos h2]; rfl
      · simp only [if_neg h2]; rfl
    · simp only [if_neg h1]
      by_cases h3 : get_p (s.mem (bp + 2)) = 0
      · simp only [if_pos h3]; rfl
      · simp only [if_neg h3]
        by_cases h4 : some (rdP C s.mem (bp + 2)) = s.freep
        · simp only [if_pos h4]
          rcases extend_heap C s n with _ | ⟨s1, _ | b⟩
          · rfl
          · rfl
          · exact ih s1 b _ _
        · simp only [if_neg h4]
          exact ih s _ _ _

/-- The traced loop at a node that fits: it returns what the loop returns,
having tested this one node more. -/
theorem get_block_trace_fit (C : Config) (n fuel : Nat) (s t : Heap) (bp b : Nat)
    (vis : List Nat) (g : Nat) (hfit : Fits s.mem n bp)
    (hret : get_block_loop C n 1 s bp = some (t, some b)) :
    get_block_trace C n (fuel + 1) s bp vis g = some (t, some b, vis ++ [bp], g) := by
  unfold Fits at hfit
  unfold get_block_loop at hret
  unfold get_block_trace
  simp only [if_pos hfit] at hret ⊢
  by_cases h2 : wrap (n + MIN_BLOCK_SIZE) ≤ rdSize s.mem bp
  · simp only [if_pos h2] at hret ⊢
    simp only [Option.some.injEq, Prod.mk.injEq] at hret
    obtain ⟨e1, e2⟩ := hret
    rw [← e1, ← e2]
  · simp only [if_neg h2] at hret ⊢
    simp only [Option.some.injEq, Prod.mk.injEq] at hret
    obtain ⟨e1, e2⟩ := hret
    rw [← e1, ← e2]

theorem get_block_trace_next (C : Config) (n fuel : Nat) (s : Heap) (bp : Nat)
    (vis : List Nat) (g : Nat)
    (hfit : ¬ Fits s.mem n bp) (hp : get_p (s.mem (bp + 2)) ≠ 0) :
    get_block_trace C n (fuel + 1) s bp vis g =
      if some (rdP C s.mem (bp + 2)) = s.freep then
        match extend_heap C s n with
        | none => none
        | some (s1, none) => some (s1, none, vis ++ [bp], g + 1)
        | some (s1, some b) => get_block_trace C n fuel s1 b (vis ++ [bp]) (g + 1)
      else get_block_trace C n fuel s (rdP C s.mem (bp + 2)) (vis ++ [bp]) g := by
  unfold Fits at hfit
  conv_lhs => unfold get_block_trace
  simp only [if_neg hfit, if_neg hp]

/-- The traced search passes the nodes that do not fit, one iteration each. -/
theorem get_block_trace_skip {C : Config} (hC : C.Valid) {s : Heap} {n f : Nat}
    (hfp : s.freep = some f) :
    ∀ (pre : List Nat) (y z : Nat) (post : List Nat) (fuel : Nat) (vis : List Nat) (g : Nat),
      Seg C s.mem (y :: (pre ++ z :: post)) f → f ∉ pre ++ z :: post →
      (∀ w ∈ y :: pre, ¬ Fits s.mem n w) →
      get_block_trace C n (fuel + (pre.length + 1)) s y vis g =
        get_block_trace C n fuel s z (vis ++ (y :: pre)) g := by
  intro pre
  induction pre with
  | nil =>
    intro y z post fuel vis g hseg hf hno
    have hlink : LinkTo C s.mem (y + 2) z := hseg.1
    have hzf : z ≠ f := fun e => hf (by simp [e])
    show get_block_trace C n (fuel + 1) s y vis g = _
    rw [get_block_trace_next C n fuel s y vis g (hno y (by simp)) (hlink.ne_zero hC),
      hlink.rdP hC, if_neg (by rw [hfp]; simpa using hzf)]
  | cons w pre ih =>
    intro y z post fuel vis g hseg hf hno
    have hlink : LinkTo C s.mem (y + 2) w := hseg.1
    have hwf : w ≠ f := fun e => hf (by simp [e])
    show get_block_trace C n (fuel + (pre.length + 1) + 1) s y vis g = _
    rw [get_block_trace_next C n _ s y vis g (hno y (by simp)) (hlink.ne_zero hC), hlink.rdP hC,
      if_neg (by rw [hfp]; simpa using hwf)]
    rw [ih w z post fuel (vis ++ [y]) g hseg.2.2 (fun e => hf (List.mem_cons_of_mem _ e))
      (fun v hv => hno v (List.mem_cons_of_mem _ hv))]
    simp

/-- When no node fits, the traced search tests every node once and then asks
for growth. -/
theorem get_block_trace_round {C : Config} (hC : C.Valid) {s : Heap} {n f : Nat}
    (hfp : s.freep = some f) :
    ∀ (l : List Nat) (y : Nat) (fuel : Nat) (vis : List Nat) (g : Nat),
      Seg C s.mem (y :: l) f → f ∉ l → (∀ w ∈ y :: l, ¬ Fits s.mem n w) →
      get_block_trace C n (fuel + (l.length + 1)) s y vis g =
        match extend_heap C s n with
        | none => none
        | some (s1, none) => some (s1, none, vis ++ (y :: l), g + 1)
        | some (s1, some b) => get_block_trace C n fuel s1 b (vis ++ (y :: l)) (g + 1) := by
  intro l
  induction l with
  | nil =>
    intro y fuel vis g hseg hf hno
    have hlink : LinkTo C s.mem (y + 2) f := hseg.1
    show get_block_trace C n (fuel + 1) s y vis g = _
    rw [get_block_trace_next C n fuel s y vis g (hno y (by simp)) (hlink.ne_zero hC),
      hlink.rdP hC, if_pos hfp.symm]
  | cons w l ih =>
    intro y fuel vis g hseg hf hno
    have hlink : LinkTo C s.mem (y + 2) w := hseg.1
    have hwf : w ≠ f := fun e => hf (by simp [e])
    show get_block_trace C n (fuel + (l.length + 1) + 1) s y vis g = _
    rw [get_block_trace_next C n _ s y vis g (hno y (by simp)) (hlink.ne_zero hC), hlink.rdP hC,
      if_neg (by rw [hfp]; simpa using hwf)]
    rw [ih w fuel (vis ++ [y]) g hseg.2.2 (fun e => hf (List.mem_cons_of_mem _ e))
      (fun v hv => hno v (List.mem_cons_of_mem _ hv))]
    simp

/-- The first element of a list with a property. -/
theorem first_fit (P : Nat → Prop) : ∀ l : List Nat, (∃ z ∈ l, P z) →
    ∃ pre z post, l = pre ++ z :: post ∧ (∀ w ∈ pre, ¬ P w) ∧ P z
  | [], h => by
    obtain ⟨z, hz, -⟩ := h
    cases hz
  | a :: l, h => by
    by_cases ha : P a
    · exact ⟨[], a, l, rfl, (fun w hw => by cases hw), ha⟩
    · have : ∃ z ∈ l, P z := by
        obtain ⟨z, hz, hp⟩ := h
        rcases List.mem_cons.1 hz with e | e
        · rw [e] at hp; exact absurd hp ha
        · exact ⟨z, e, hp⟩
      obtain ⟨pre, z, post, e, h1, h2⟩ := first_fit P l this
      refine ⟨a :: pre, z, post, by rw [e]; rfl, ?_, h2⟩
      intro w hw
      rcases List.mem_cons.1 hw with e1 | e1
      · rw [e1]; exact ha
      · exact h1 w e1

theorem extend_heap_cursor (C : Config) (s s1 : Heap) (n x : Nat)
    (h : extend_heap C s n = some (s1, some x)) : s1.freep = some x := by
  unfold extend_heap at h
  simp only [] at h
  generalize (if n < byte_to_unit C C.pagesize then byte_to_unit C C.pagesize else n) = k at h
  rcases hs : mem_sbrk C s (unit_to_byte C k) with ⟨s2, _ | ap⟩
  · rw [hs] at h
    simp only [Option.some.injEq, Prod.mk.injEq] at h
    cases h.2
  · rw [hs] at h
    simp only [] at h
    by_cases hw : WORD ≤ k * C.unit
    · rw [if_pos hw] at h
      cases h
    · rw [if_neg hw] at h
      simp only [Option.some.injEq, Prod.mk.injEq] at h
      rw [← h.1]
      exact h.2

/-- The search for a unit count of representable size: on a well-formed heap
whose free list, read from the cursor, is `f :: r` (each member once), for a
unit count `n ≥ 4` whose size in bytes `n * unit` is representable,
`get_block(n)` returns within `length r + 2` iterations, and it ends in one
of the three ways of `SearchEnd`: it returns a block from the first node that
fits, having tested the nodes before it once each, without growth; or no node
fits, it has tested every node once, its one growth request is refused and it
returns null; or no node fits, it has tested every node once, its one growth
request succeeds, the cursor then references a free block of at least
`max(n, page units)` units and the next iteration returns a block.  It makes
at most one growth request. -/
theorem search_terminates {C : Config} (hC : C.Valid) {s : Heap} {bl r : List Nat} {f : Nat}
    (h : WFg C s bl (f :: r)) (hf : s.freep = some f) (n : Nat) (hn : MIN_BLOCK_SIZE ≤ n)
    (hnu : n * C.unit < WORD) (fuel : Nat) (hfuel : r.length + 2 ≤ fuel) :
    (f :: r).Nodup ∧ n ≤ growUnits C n ∧ byte_to_unit C C.pagesize ≤ growUnits C n ∧
      ∃ t res vis g, get_block_trace C n fuel s f [] 0 = some (t, res, vis, g) ∧
        HeapAllocator.get_block C fuel s n = some (t, res) ∧
        SearchEnd C s (f :: r) n t res vis g ∧ g ≤ 1 := by
  have hseg : Seg C s.mem (f :: r) f := h.cyc
  have hfr : f ∉ r := (List.nodup_cons.1 h.nodup).1
  have hgu : n ≤ growUnits C n ∧ byte_to_unit C C.pagesize ≤ growUnits C n := by
    unfold growUnits
    split_ifs <;> omega
  refine ⟨h.nodup, hgu.1, hgu.2, ?_⟩
  have herase : ∀ t res vis g, get_block_trace C n fuel s f [] 0 = some (t, res, vis, g) →
      HeapAllocator.get_block C fuel s n = some (t, res) := by
    intro t res vis g ht
    unfold HeapAllocator.get_block
    rw [hf]
    simp only []
    rw [← get_block_trace_erase C n fuel s f [] 0, ht]
    rfl
  suffices hh : ∃ t res vis g, get_block_trace C n fuel s f [] 0 = some (t, res, vis, g) ∧
      SearchEnd C s (f :: r) n t res vis g ∧ g ≤ 1 by
    obtain ⟨t, res, vis, g, h1, h2, h3⟩ := hh
    exact ⟨t, res, vis, g, h1, herase t res vis g h1, h2, h3⟩
  by_cases hex : ∃ z ∈ f :: r, Fits s.mem n z
  · obtain ⟨pre, z, post, hl, hpre, hz⟩ := first_fit (Fits s.mem n) (f :: r) hex
    have hzm : z ∈ f :: r := by rw [hl]; simp
    obtain ⟨t, b, -, -, hret, -, -⟩ := h.get_fit hC hzm hz.1 hn hz.2 0
    refine ⟨t, some b, pre ++ [z], 0, ?_, SearchEnd.fit pre z post t b hl hpre hz hret,
      Nat.zero_le _⟩
    cases pre with
    | nil =>
      simp only [List.nil_append, List.cons.injEq] at hl
      obtain ⟨k, rfl⟩ : ∃ k, fuel = k + 1 := ⟨fuel - 1, by omega⟩
      rw [hl.1]
      exact get_block_trace_fit C n k s t z b [] 0 hz hret
    | cons y pre =>
      simp only [List.cons_append, List.cons.injEq] at hl
      obtain ⟨e1, e2⟩ := hl
      subst e1
      rw [e2] at hseg hfr hfuel
      simp only [List.length_append, List.length_cons] at hfuel
      obtain ⟨k, rfl⟩ : ∃ k, fuel = k + 1 + (pre.length + 1) :=
        ⟨fuel - 1 - (pre.length + 1), by omega⟩
      rw [get_block_trace_skip hC hf pre f z post (k + 1) [] 0 hseg hfr hpre]
      exact get_block_trace_fit C n k s t z b _ 0 hz hret
  · have hno : ∀ w ∈ f :: r, ¬ Fits s.mem n w := fun w hw hfit => hex ⟨w, hw, hfit⟩
    obtain ⟨k, rfl⟩ : ∃ k, fuel = k + 1 + (r.length + 1) := ⟨fuel - 1 - (r.length + 1), by omega⟩
    have hround := get_block_trace_round hC hf r f (k + 1) [] 0 hseg hfr hno
    by_cases hg : s.brk + growUnits C n * C.unit ≤ C.limit
    · obtain ⟨s1, x, t, b, -, -, hext, hfree, hsize, hret, -, -⟩ :=
        h.get_grow hC hn hnu rfl hg 0
      have hsize : growUnits C n ≤ rdSize s1.mem x := hsize
      refine ⟨t, some b, (f :: r) ++ [x], 1, ?_,
        SearchEnd.grown s1 x t b hno hext (extend_heap_cursor C s s1 n x hext) hfree hsize hret,
        Nat.le_refl _⟩
      rw [hround, hext]
      exact get_block_trace_fit C n k s1 t x b _ _ ⟨hfree, le_trans hgu.1 hsize⟩ hret
    · have hkw := extend_units_bytes (C := C) n hnu
      have hfail := extend_heap_fail C s n (by
        unfold unit_to_byte
        rw [wrap_of_lt hkw]
        exact hg)
      refine ⟨_, none, f :: r, 1, ?_, SearchEnd.refused hno hfail, Nat.le_refl _⟩
      rw [hround, hfail]
      rfl

theorem search_terminates_witness :
    WFg exConfig exFive [4, 251, 255] [255, 0, 4] ∧ exFive.freep = some 255 ∧
      MIN_BLOCK_SIZE ≤ 6 ∧ 6 * exConfig.unit < WORD ∧ [0, 4].length + 2 ≤ 4 ∧
      ([255, 0, 4].Nodup ∧ 6 ≤ growUnits exConfig 6 ∧
        byte_to_unit exConfig exConfig.pagesize ≤ growUnits exConfig 6 ∧
        ∃ t res vis g, get_block_trace exConfig 6 4 exFive 255 [] 0 = some (t, res, vis, g) ∧
          get_block exConfig 4 exFive 6 = some (t, res) ∧
          SearchEnd exConfig exFive [255, 0, 4] 6 t res vis g ∧ g ≤ 1) :=
  ⟨by constructor <;> decide, by decide, by decide, by decide, by decide,
    search_terminates exConfig_valid
      (by constructor <;> decide : WFg exConfig exFive [4, 251, 255] [255, 0, 4]) (by decide) 6
      (by decide) (by decide) 4 (by decide)⟩

theorem split_postcondition_witness :
    WFg exConfig exFive [4, 251, 255] [255, 0, 4] ∧ exFive.freep = some 255 ∧
      Fits exFive.mem (mallocUnits exConfig 64) 4 ∧
      mallocUnits exConfig 64 + 4 ≤ rdSize exFive.mem 4 ∧
      Fits exFive.mem (mallocUnits exConfig 0) 255 ∧
      rdSize exFive.mem 255 < mallocUnits exConfig 0 + 4 ∧
      (∃ t b, mm_malloc exConfig 3 exFive 64 = some (t, some (bp_to_ap exConfig b)) ∧
        SplitPost exConfig exFive t [255, 0, 4] 4 (mallocUnits exConfig 64) b) ∧
      (∃ t, mm_malloc exConfig 1 exFive 0 = some (t, some (bp_to_ap exConfig 255)) ∧
        TakePost exConfig exFive t [4, 251, 255] [255, 0, 4] 255) :=
  ⟨by constructor <;> decide, by decide, by decide, by decide, by decide, by decide,
    (split_postcondition exConfig_valid
      (by constructor <;> decide : WFg exConfig exFive [4, 251, 255] [255, 0, 4]) (by decide) 64
      [255, 0] [] 4 (by decide) (by decide) (by decide) 3 (by decide)).1 (by decide),
    (split_postcondition exConfig_valid
      (by constructor <;> decide : WFg exConfig exFive [4, 251, 255] [255, 0, 4]) (by decide) 0
      [] [0, 4] 255 (by decide) (by decide) (by decide) 1 (by decide)).2 (by decide)⟩

/-! ## Requests whose size is not representable -/

/-- When the byte count of the growth is not representable and the provider
grants the wrapped count, `extend_heap` has no result. -/
theorem extend_heap_undefined (C : Config) (s : Heap) (n : Nat)
    (hw : WORD ≤ growUnits C n * C.unit)
    (hg : s.brk + unit_to_byte C (growUnits C n) ≤ C.limit) :
    extend_heap C s n = none := by
  unfold growUnits at hw hg
  unfold extend_heap mem_sbrk
  simp only []
  rw [if_pos hg]
  simp only []
  rw [if_pos hw]

/-- When no node fits and the growth has no defined behaviour, the search has
no result, whatever the fuel. -/
theorem get_block_loop_undefined {C : Config} (hC : C.Valid) {s : Heap} {n f : Nat}
    (hfp : s.freep = some f) (hext : extend_heap C s n = none) :
    ∀ (l : List Nat) (y fuel : Nat), Seg C s.mem (y :: l) f → (∀ z ∈ y :: l, ¬ Fits s.mem n z) →
      f ∉ l → get_block_loop C n fuel s y = none := by
  intro l
  induction l with
  | nil =>
    intro y fuel hseg hno _
    cases fuel with
    | zero => unfold get_block_loop; rfl
    | succ fuel1 =>
      have hlink : LinkTo C s.mem (y + 2) f := hseg.1
      rw [get_block_loop_next C n fuel1 s y (hno y (by simp)) (hlink.ne_zero hC), hlink.rdP hC,
        if_pos hfp.symm, hext]
  | cons z l ih =>
    intro y fuel hseg hno hfl
    cases fuel with
    | zero => unfold get_block_loop; rfl
    | succ fuel1 =>
      have hlink : LinkTo C s.mem (y + 2) z := hseg.1
      have hzf : z ≠ f := fun e => hfl (by simp [e])
      rw [get_block_loop_next C n fuel1 s y (hno y (by simp)) (hlink.ne_zero hC), hlink.rdP hC,
        if_neg (by rw [hfp]; simpa using hzf)]
      exact ih z fuel1 hseg.2.2 (fun w hw => hno w (List.mem_cons_of_mem _ hw))
        (fun e => hfl (List.mem_cons_of_mem _ e))

theorem WFg.get_block_undefined {C : Config} (hC : C.Valid) {s : Heap} {bl fl : List Nat} {n : Nat}
    (h : WFg C s bl fl) (hno : ∀ z ∈ fl, ¬ Fits s.mem n z) (hext : extend_heap C s n = none)
    (fuel : Nat) : HeapAllocator.get_block C fuel s n = none := by
  obtain ⟨f, hfp, hfm⟩ := h.cursor
  obtain ⟨r, hrot, hmem⟩ := h.rotate hfm
  have hg : HeapAllocator.get_block C fuel s n = get_block_loop C n fuel s f := by
    unfold HeapAllocator.get_block
    rw [hfp]
  rw [hg]
  exact get_block_loop_undefined hC hfp hext r f fuel hrot.cyc
    (fun z hz => hno z ((hmem z).1 hz)) (List.nodup_cons.1 hrot.nodup).1

/-- C6 (failed growth is atomic), evaluated: in the heap `exSmallA` the
region is at the provider's limit, so the provider refuses every growth; the
free list holds the dummy block and the free block of 248 units at unit 4, and
the live block `A` of 8 units (96 payload bytes) is at unit 252.  A request of
`2^64 - 1` bytes needs `2^60 + 2` units, which no free-list node has;
`byte_to_unit` wraps, and the code asks the search for 4 units in `mm_malloc`
and compares 2 units with the size of `A` in `mm_realloc`.
`mm_malloc(2^64 - 1)` does not return null: it splits a block of 4 units at
unit 248 off the free block, whose size drops to 244.
`mm_realloc(A, 2^64 - 1)` does not return null: it returns `A`. -/
theorem wrapped_request_not_refused :
    WFg exSmallConfig exSmallA [4, 252] [0, 4] ∧
      exSmallA.brk = exSmallConfig.limit ∧
      (∀ k, 0 < k → (mem_sbrk exSmallConfig exSmallA k).2 = none) ∧
      (2 ^ 64 - 1 + exSmallConfig.unit - 1) / exSmallConfig.unit + 2 = 2 ^ 60 + 2 ∧
      (∀ z ∈ [0, 4], rdSize exSmallA.mem z < 2 ^ 60 + 2) ∧
      mallocUnits exSmallConfig (2 ^ 64 - 1) = 4 ∧
      reallocUnits exSmallConfig (2 ^ 64 - 1) = 2 ∧
      rdAlloc exSmallA.mem 4 = 0 ∧ rdSize exSmallA.mem 4 = 248 ∧
      (∃ t, mm_malloc exSmallConfig 2 exSmallA (2 ^ 64 - 1) =
          some (t, some (bp_to_ap exSmallConfig 248)) ∧
        rdAlloc t.mem 248 = 1 ∧ rdSize t.mem 248 = 4 ∧ rdSize t.mem 4 = 244 ∧
        t.brk = exSmallA.brk) ∧
      rdAlloc exSmallA.mem 252 = 1 ∧ rdSize exSmallA.mem 252 = 8 ∧
      (rdSize exSmallA.mem 252 - 2) * exSmallConfig.unit < 2 ^ 64 - 1 ∧
      mm_realloc exSmallConfig 2 exSmallA (bp_to_ap exSmallConfig 252) (2 ^ 64 - 1) =
        some (exSmallA, some (bp_to_ap exSmallConfig 252)) :=
  ⟨by constructor <;> decide, by decide,
    (fun k hk => by
      have hb : exSmallA.brk = 4176 := by decide
      have hl : exSmallConfig.limit = 4176 := rfl
      unfold mem_sbrk
      rw [if_neg (by rw [hb, hl]; omega)]),
    by decide, by decide, by decide, by decide, by decide, by decide,
    ⟨_, rfl, rfl, rfl, rfl, rfl⟩, by decide, by decide, by decide, rfl⟩

/-- C19 (the allocation search terminates), evaluated: right after `mm_init`
the free list holds the dummy block only, and `mm_malloc(2^64 - 16)` asks
`get_block` for `r = 2^60 + 1` units, at least 4.  No free-list node fits, so
the search calls for growth, by `max(r, page units) = r` units; the byte count
`unit_to_byte(r)` wraps to 16, which the provider grants: the growth succeeds
and the region has 6 units, too few to hold a free block of `r` units for the
cursor to reference.  `extend_heap` goes on to format a block of `r` units,
whose footer and tail sentinel lie beyond the address space, and has no
defined behaviour from there: whatever the fuel, neither the search nor
`mm_malloc` returns a block or null. -/
theorem growth_request_wraps :
    WFg exConfig exInit [] [0] ∧ exInit.freep = some 0 ∧
      mallocUnits exConfig (2 ^ 64 - 16) = 2 ^ 60 + 1 ∧ MIN_BLOCK_SIZE ≤ 2 ^ 60 + 1 ∧
      (∀ w ∈ [0], ¬ Fits exInit.mem (2 ^ 60 + 1) w) ∧
      growUnits exConfig (2 ^ 60 + 1) = 2 ^ 60 + 1 ∧
      unit_to_byte exConfig (growUnits exConfig (2 ^ 60 + 1)) = 16 ∧
      (∃ t, mem_sbrk exConfig exInit 16 = (t, some (mem_heap_lo exConfig + exInit.brk)) ∧
        t.units exConfig = 6) ∧
      extend_heap exConfig exInit (2 ^ 60 + 1) = none ∧
      (∀ fuel, get_block exConfig fuel exInit (2 ^ 60 + 1) = none) ∧
      ∀ fuel, mm_malloc exConfig fuel exInit (2 ^ 64 - 16) = none := by
  have hwf : WFg exConfig exInit [] [0] := by constructor <;> decide
  have hno : ∀ w ∈ [0], ¬ Fits exInit.mem (2 ^ 60 + 1) w := by decide
  have hext : extend_heap exConfig exInit (2 ^ 60 + 1) = none :=
    extend_heap_undefined exConfig exInit (2 ^ 60 + 1) (by decide) (by decide)
  have hu : mallocUnits exConfig (2 ^ 64 - 16) = 2 ^ 60 + 1 := by decide
  have hg : ∀ fuel, get_block exConfig fuel exInit (2 ^ 60 + 1) = none :=
    fun fuel => hwf.get_block_undefined exConfig_valid hno hext fuel
  refine ⟨hwf, by decide, hu, by decide, hno, by decide, by decide, ⟨_, rfl, rfl⟩, hext, hg, ?_⟩
  intro fuel
  exact mm_malloc_out exConfig fuel exInit (2 ^ 64 - 16) (by decide) (by rw [hu]; exact hg fuel)

end HeapAllocator
